import Mathlib

/-! go-pagerduty, Events API v2 client (event_v2.go)

A shallow embedding of `event_v2.go`: the event structures with their JSON field
tags, and `ManageEvent`, which marshals an event, posts it to the fixed endpoint
and decodes the acknowledgment.

Modelling conventions.

* Text (Go `string` and `[]byte`) is a sequence of Unicode characters: `String`
  inside structures, `List Char` on the wire.  Byte sequences that are not valid
  UTF-8 are outside the model.
* A Go `error` is a `GoError`; a Go result pair `(*T, error)` is a pair of options.
* `http.DefaultClient.Do` is a parameter `Do : Request → Except GoError Response`;
  `ManageEvent` records every request it hands to `Do`.  What the client sends over the
  network within one call of `Do` (it follows redirects) is not modelled.  A response
  body is a reader that yields its data and then ends cleanly or with a read error.  The
  deferred `resp.Body.Close()` has no effect on what is returned and is left out.
* `encoding/json` is embedded for the types of this file: struct encoding driven by
  the field tags (`omitempty`), the compact text form with the escapes
  `json.Marshal` writes (HTML-safe, short forms for backspace and form feed), the
  scanner grammar with its nesting limit of 10000, and decoding into the structures
  (case-insensitive field match, `null` leaving a field, saved type errors).
* A value held in `Details interface{}` is a `GoValue` on the way out and a `Decoded`
  on the way in; every JSON number is decoded to a `float64`, as `json.Unmarshal` does
  for an empty interface.  A `float64` is a sign, a mantissa and a binary exponent; it is
  read and written by exact arithmetic on natural numbers.
* The scanner is written with a step budget; `scanFirst_ne_fuel` shows it is never used
  up.
-/

namespace Pagerduty

/-! ## Errors -/

/-- A Go `error` value, by the type that produced it. -/
inductive GoError where
  /-- An `errors.New` / `fmt.Errorf` value (also `io.EOF`, `io.ErrUnexpectedEOF`). -/
  | errorString (s : String)
  /-- A `*json.UnsupportedTypeError`. -/
  | unsupportedType (typ : String)
  /-- A `*json.UnsupportedValueError` with the text of the value. -/
  | unsupportedValue (str : String)
  /-- A `*json.SyntaxError` with its message. -/
  | syntaxError (msg : String)
  /-- A `*json.UnmarshalTypeError`: JSON value kind, Go type, struct and field. -/
  | unmarshalTypeError (value : String) (typ : String) (struct : String) (field : String)
  /-- Any other error value, such as a `*url.Error` of the HTTP client. -/
  | other (descr : String)
  deriving DecidableEq

/-- The method `Error() string`. -/
def GoError.Error : GoError → String
  | .errorString s => s
  | .unsupportedType t => "json: unsupported type: " ++ t
  | .unsupportedValue s => "json: unsupported value: " ++ s
  | .syntaxError msg => msg
  | .unmarshalTypeError v t s f =>
    if s = "" ∧ f = "" then "json: cannot unmarshal " ++ v ++ " into Go value of type " ++ t
    else "json: cannot unmarshal " ++ v ++ " into Go struct field " ++ s ++ "." ++ f ++
      " of type " ++ t
  | .other d => d

/-- The value `io.EOF`. -/
def EOF : GoError := .errorString "EOF"

/-- The value `io.ErrUnexpectedEOF`. -/
def ErrUnexpectedEOF : GoError := .errorString "unexpected EOF"

/-! ## Decimal and hexadecimal digits -/

/-- The character of a digit below ten. -/
def digitChar (d : Nat) : Char := Char.ofNat (48 + d)

/-- Decimal digits of `n`, most significant first, in front of `acc`. -/
def formatNatAux : Nat → Nat → List Char → List Char
  | 0, n, acc => digitChar (n % 10) :: acc
  | fuel + 1, n, acc =>
    if n < 10 then digitChar n :: acc
    else formatNatAux fuel (n / 10) (digitChar (n % 10) :: acc)

/-- The decimal rendering of a natural number. -/
def formatNat (n : Nat) : List Char := formatNatAux n n []

/-- The decimal rendering of an integer (`strconv.FormatInt`, the verb `%d`). -/
def formatInt : Int → List Char
  | .ofNat n => formatNat n
  | .negSucc n => '-' :: formatNat (n + 1)

/-- A lower-case hexadecimal digit. -/
def hexDigit (n : Nat) : Char :=
  if n < 10 then Char.ofNat (48 + n) else Char.ofNat (87 + n)

/-! ## JSON values and their compact text -/

/-- A JSON value as the scanner reads it: a number keeps its literal, an object keeps
its members in order. -/
inductive Json where
  | null
  | bool (b : Bool)
  | number (lit : List Char)
  | string (s : String)
  | array (elems : List Json)
  | object (members : List (String × Json))

/-- The text `json.Marshal` writes for one character of a string (HTML-safe escaping). -/
def escapeChar (c : Char) : List Char :=
  if c = '"' then ['\\', '"']
  else if c = '\\' then ['\\', '\\']
  else if c = '\x08' then ['\\', 'b']
  else if c = '\x0c' then ['\\', 'f']
  else if c = '\n' then ['\\', 'n']
  else if c = '\r' then ['\\', 'r']
  else if c = '\t' then ['\\', 't']
  else if c.toNat < 32 ∨ c = '<' ∨ c = '>' ∨ c = '&' then
    ['\\', 'u', '0', '0', hexDigit (c.toNat / 16), hexDigit (c.toNat % 16)]
  else if c = '\u2028' then ['\\', 'u', '2', '0', '2', '8']
  else if c = '\u2029' then ['\\', 'u', '2', '0', '2', '9']
  else [c]

/-- The characters of a string literal between its quotes. -/
def escapeChars : List Char → List Char
  | [] => []
  | c :: cs => escapeChar c ++ escapeChars cs

/-- A quoted JSON string literal. -/
def renderString (s : String) : List Char := '"' :: (escapeChars s.data ++ ['"'])

mutual
/-- The compact text of a JSON value. -/
def Json.render : Json → List Char
  | .null => ['n', 'u', 'l', 'l']
  | .bool true => ['t', 'r', 'u', 'e']
  | .bool false => ['f', 'a', 'l', 's', 'e']
  | .number lit => lit
  | .string s => renderString s
  | .array [] => ['[', ']']
  | .array (x :: xs) => '[' :: (x.render ++ renderElems xs)
  | .object [] => ['{', '}']
  | .object ((k, v) :: ms) => '{' :: (renderString k ++ ':' :: (v.render ++ renderMembers ms))
/-- The elements after the first, each behind a comma, and the closing bracket. -/
def renderElems : List Json → List Char
  | [] => [']']
  | x :: xs => ',' :: (x.render ++ renderElems xs)
/-- The members after the first, each behind a comma, and the closing brace. -/
def renderMembers : List (String × Json) → List Char
  | [] => ['}']
  | (k, v) :: ms => ',' :: (renderString k ++ ':' :: (v.render ++ renderMembers ms))
end

/-- The value of a key in a member list, first occurrence. -/
def lookupKey (k : String) : List (String × Json) → Option Json
  | [] => none
  | (k', v) :: ms => if k' = k then some v else lookupKey k ms

/-! ## The event structures -/

/-- A finite `float64` with value `(-1)^neg * mant * 2^exp`; the pair is not normalised. -/
structure Float64 where
  neg : Bool
  mant : Nat
  exp : Int
  deriving DecidableEq

/-- A value held in an `interface{}` that is handed to `json.Marshal`. Integer kinds
of every width are `int`; a pointer that is not nil is the value it points to, and a
value with a `MarshalText` method is the string it writes. A value with a `MarshalJSON`
method is not covered. -/
inductive GoValue where
  /-- The nil interface. -/
  | nil
  /-- A nil pointer, nil map or nil slice of some type. -/
  | typedNil
  | bool (b : Bool)
  | int (i : Int)
  /-- A `float64` that is finite (see `Float64.Finite`). -/
  | float64 (f : Float64)
  /-- A `float32` that is finite, with its value. -/
  | float32 (f : Float64)
  /-- A float that is NaN or infinite, with its text (`NaN`, `+Inf`, `-Inf`). -/
  | notFinite (str : String)
  | string (s : String)
  /-- A byte slice that is not nil. -/
  | bytes (b : List (Fin 256))
  /-- An array, or a slice that is neither nil nor a byte slice. -/
  | slice (elems : List GoValue)
  /-- A map, by the strings its keys are written as. -/
  | map (entries : List (String × GoValue))
  /-- A struct: the members its encoding writes, by JSON name, in field order. -/
  | struct (members : List (String × GoValue))
  /-- A value of a type without JSON encoding (channel, function, complex number). -/
  | unsupported (typ : String)

/-- The structure `V2EventLink`. -/
structure V2EventLink where
  Href : String
  Text : String
  deriving DecidableEq

/-- The structure `V2EventImage`. -/
structure V2EventImage where
  Src : String
  Href : String
  Alt : String
  deriving DecidableEq

/-- The structure `V2Payload`; `δ` is the universe of values of `Details interface{}`. -/
structure V2Payload (δ : Type) where
  Summary : String
  Source : String
  Severity : String
  Timestamp : String
  Component : String
  Group : String
  Class : String
  Details : δ

/-- The structure `V2Event`; `Payload` is a pointer, `none` when nil. -/
structure V2Event (δ : Type) where
  RoutingKey : String
  Action : String
  DedupKey : String
  Images : List V2EventImage
  Links : List V2EventLink
  Client : String
  ClientURL : String
  Payload : Option (V2Payload δ)

/-- The structure `V2EventResponse`. -/
structure V2EventResponse where
  RoutingKey : String
  DedupKey : String
  EventAction : String
  deriving DecidableEq

/-! ## The scanner -/

/-- Why scanning stopped without a value. -/
inductive ScanError where
  /-- An invalid character, with the scanner's context text. -/
  | invalid (c : Char) (context : String)
  /-- The input ended before the value was complete. -/
  | needMore
  /-- The step budget of the embedding ran out. -/
  | fuel
  deriving DecidableEq

/-- The nesting limit of the scanner (`maxNestingDepth`). -/
def maxNestingDepth : Nat := 10000

/-- JSON white space. -/
def isSpace (c : Char) : Bool := c = ' ' || c = '\t' || c = '\r' || c = '\n'

/-- Drop leading white space. -/
def skipSpace : List Char → List Char
  | [] => []
  | c :: cs => if isSpace c then skipSpace cs else c :: cs

/-- A decimal digit. -/
def isDigit (c : Char) : Bool := decide (48 ≤ c.toNat) && decide (c.toNat ≤ 57)

/-- The value of a hexadecimal digit. -/
def hexValue (c : Char) : Option Nat :=
  if 48 ≤ c.toNat ∧ c.toNat ≤ 57 then some (c.toNat - 48)
  else if 97 ≤ c.toNat ∧ c.toNat ≤ 102 then some (c.toNat - 87)
  else if 65 ≤ c.toNat ∧ c.toNat ≤ 70 then some (c.toNat - 55)
  else none

/-- Read `n` hexadecimal digits of a `\u` escape. -/
def scanHex : Nat → Nat → List Char → Except ScanError (Nat × List Char)
  | 0, acc, input => .ok (acc, input)
  | _ + 1, _, [] => .error .needMore
  | n + 1, acc, c :: cs =>
    match hexValue c with
    | none => .error (.invalid c "in \\u hexadecimal character escape")
    | some v => scanHex n (acc * 16 + v) cs

/-- The helper `getu4` of the decoder: a whole `\uXXXX` escape at the front, if any. -/
def getu4 : List Char → Option (Nat × List Char)
  | '\\' :: 'u' :: rest =>
    match scanHex 4 0 rest with
    | .ok r => some r
    | .error _ => none
  | _ => none

/-- The Unicode replacement character. -/
def replacementChar : Char := Char.ofNat 0xFFFD

/-- The character of a `\u` escape whose four digits gave `rr`: a surrogate pairs with a
following low surrogate escape, a lone surrogate becomes the replacement character. -/
def decodeEscapedRune (rr : Nat) (rest : List Char) : Char × List Char :=
  if 0xD800 ≤ rr ∧ rr < 0xE000 then
    match getu4 rest with
    | some (rr1, rest1) =>
      if rr < 0xDC00 ∧ 0xDC00 ≤ rr1 ∧ rr1 < 0xE000 then
        (Char.ofNat ((rr - 0xD800) * 1024 + (rr1 - 0xDC00) + 0x10000), rest1)
      else (replacementChar, rest)
    | none => (replacementChar, rest)
  else (Char.ofNat rr, rest)

/-- What follows a backslash inside a string literal. -/
def scanEscape : List Char → Except ScanError (Char × List Char)
  | [] => .error .needMore
  | c :: cs =>
    if c = 'u' then
      match scanHex 4 0 cs with
      | .error e => .error e
      | .ok (rr, rest) => .ok (decodeEscapedRune rr rest)
    else if c = '"' ∨ c = '\\' ∨ c = '/' then .ok (c, cs)
    else if c = 'b' then .ok ('\x08', cs)
    else if c = 'f' then .ok ('\x0c', cs)
    else if c = 'n' then .ok ('\n', cs)
    else if c = 'r' then .ok ('\r', cs)
    else if c = 't' then .ok ('\t', cs)
    else .error (.invalid c "in string escape code")

/-- The rest of a string literal after its opening quote: its decoded characters and
the input after the closing quote. -/
def scanString : Nat → List Char → Except ScanError (List Char × List Char)
  | 0, _ => .error .fuel
  | _ + 1, [] => .error .needMore
  | fuel + 1, c :: cs =>
    if c = '"' then .ok ([], cs)
    else if c = '\\' then
      match scanEscape cs with
      | .error e => .error e
      | .ok (ch, rest) =>
        match scanString fuel rest with
        | .error e => .error e
        | .ok (s, rest1) => .ok (ch :: s, rest1)
    else if c.toNat < 32 then .error (.invalid c "in string literal")
    else
      match scanString fuel cs with
      | .error e => .error e
      | .ok (s, rest1) => .ok (c :: s, rest1)

/-- The longest run of digits at the front. -/
def takeDigits : List Char → List Char × List Char
  | [] => ([], [])
  | c :: cs =>
    if isDigit c then ((takeDigits cs).1.cons c, (takeDigits cs).2) else ([], c :: cs)

/-- At least one digit, then as many as follow. -/
def scanDigits (context : String) : List Char → Except ScanError (List Char × List Char)
  | [] => .error .needMore
  | c :: cs =>
    if isDigit c then .ok (c :: (takeDigits cs).1, (takeDigits cs).2)
    else .error (.invalid c context)

/-- The exponent part of a number, if one starts here. -/
def scanExponent : List Char → Except ScanError (List Char × List Char)
  | [] => .ok ([], [])
  | c :: cs =>
    if c = 'e' ∨ c = 'E' then
      match cs with
      | [] => .error .needMore
      | s :: cs1 =>
        if s = '+' ∨ s = '-' then
          match scanDigits "in exponent of numeric literal" cs1 with
          | .error e => .error e
          | .ok (ds, rest) => .ok (c :: s :: ds, rest)
        else
          match scanDigits "in exponent of numeric literal" (s :: cs1) with
          | .error e => .error e
          | .ok (ds, rest) => .ok (c :: ds, rest)
    else .ok ([], c :: cs)

/-- The fraction and exponent parts of a number, if they start here. -/
def scanFraction : List Char → Except ScanError (List Char × List Char)
  | [] => .ok ([], [])
  | c :: cs =>
    if c = '.' then
      match scanDigits "after decimal point in numeric literal" cs with
      | .error e => .error e
      | .ok (ds, rest) =>
        match scanExponent rest with
        | .error e => .error e
        | .ok (ex, rest1) => .ok (c :: (ds ++ ex), rest1)
    else scanExponent (c :: cs)

/-- The digits of a number after its sign: a lone zero or a run not starting with zero,
then fraction and exponent. -/
def scanUnsigned : List Char → Except ScanError (List Char × List Char)
  | [] => .error .needMore
  | c :: cs =>
    if c = '0' then
      match scanFraction cs with
      | .error e => .error e
      | .ok (tail, rest) => .ok (c :: tail, rest)
    else if isDigit c then
      match scanFraction (takeDigits cs).2 with
      | .error e => .error e
      | .ok (tail, rest) => .ok (c :: ((takeDigits cs).1 ++ tail), rest)
    else .error (.invalid c "in numeric literal")

/-- A number literal and the input after it. -/
def scanNumber : List Char → Except ScanError (List Char × List Char)
  | [] => .error .needMore
  | c :: cs =>
    if c = '-' then
      match scanUnsigned cs with
      | .error e => .error e
      | .ok (lit, rest) => .ok (c :: lit, rest)
    else scanUnsigned (c :: cs)

/-- The remaining characters of a literal name. -/
def expectChars (name : String) : List Char → List Char → Except ScanError (List Char)
  | [], input => .ok input
  | _ :: _, [] => .error .needMore
  | e :: es, c :: cs =>
    if c = e then expectChars name es cs
    else .error (.invalid c ("in literal " ++ name ++ " (expecting '" ++ String.mk [e] ++ "')"))

mutual
/-- One JSON value at the front of the input, after optional white space, with the input
that follows it. `depth` is how many more containers may be opened. -/
def scanValue : Nat → Nat → List Char → Except ScanError (Json × List Char)
  | 0, _, _ => .error .fuel
  | fuel + 1, depth, input =>
    match skipSpace input with
    | [] => .error .needMore
    | c :: cs =>
      if c = '{' then
        if depth = 0 then .error (.invalid c "exceeded max depth")
        else
          match skipSpace cs with
          | [] => .error .needMore
          | c1 :: cs1 =>
            if c1 = '}' then .ok (.object [], cs1)
            else
              match scanMembers fuel (depth - 1) (c1 :: cs1) with
              | .error e => .error e
              | .ok (ms, rest) => .ok (.object ms, rest)
      else if c = '[' then
        if depth = 0 then .error (.invalid c "exceeded max depth")
        else
          match skipSpace cs with
          | [] => .error .needMore
          | c1 :: cs1 =>
            if c1 = ']' then .ok (.array [], cs1)
            else
              match scanElems fuel (depth - 1) (c1 :: cs1) with
              | .error e => .error e
              | .ok (xs, rest) => .ok (.array xs, rest)
      else if c = '"' then
        match scanString (cs.length + 1) cs with
        | .error e => .error e
        | .ok (s, rest) => .ok (.string (String.mk s), rest)
      else if c = '-' ∨ isDigit c then
        match scanNumber (c :: cs) with
        | .error e => .error e
        | .ok (lit, rest) => .ok (.number lit, rest)
      else if c = 't' then
        match expectChars "true" ['r', 'u', 'e'] cs with
        | .error e => .error e
        | .ok rest => .ok (.bool true, rest)
      else if c = 'f' then
        match expectChars "false" ['a', 'l', 's', 'e'] cs with
        | .error e => .error e
        | .ok rest => .ok (.bool false, rest)
      else if c = 'n' then
        match expectChars "null" ['u', 'l', 'l'] cs with
        | .error e => .error e
        | .ok rest => .ok (.null, rest)
      else .error (.invalid c "looking for beginning of value")
/-- The members of an object from the start of a key to the closing brace. -/
def scanMembers : Nat → Nat → List Char → Except ScanError (List (String × Json) × List Char)
  | 0, _, _ => .error .fuel
  | _ + 1, _, [] => .error .needMore
  | fuel + 1, depth, c :: cs =>
    if c = '"' then
      match scanString (cs.length + 1) cs with
      | .error e => .error e
      | .ok (k, r1) =>
        match skipSpace r1 with
        | [] => .error .needMore
        | c2 :: r2 =>
          if c2 = ':' then
            match scanValue fuel depth r2 with
            | .error e => .error e
            | .ok (v, r3) =>
              match skipSpace r3 with
              | [] => .error .needMore
              | c4 :: r4 =>
                if c4 = '}' then .ok ([(String.mk k, v)], r4)
                else if c4 = ',' then
                  match scanMembers fuel depth (skipSpace r4) with
                  | .error e => .error e
                  | .ok (ms, r5) => .ok ((String.mk k, v) :: ms, r5)
                else .error (.invalid c4 "after object key:value pair")
          else .error (.invalid c2 "after object key")
    else .error (.invalid c "looking for beginning of object key string")
/-- The elements of an array from the start of an element to the closing bracket. -/
def scanElems : Nat → Nat → List Char → Except ScanError (List Json × List Char)
  | 0, _, _ => .error .fuel
  | fuel + 1, depth, input =>
    match scanValue fuel depth input with
    | .error e => .error e
    | .ok (v, r1) =>
      match skipSpace r1 with
      | [] => .error .needMore
      | c2 :: r2 =>
        if c2 = ']' then .ok ([v], r2)
        else if c2 = ',' then
          match scanElems fuel depth r2 with
          | .error e => .error e
          | .ok (xs, r3) => .ok (v :: xs, r3)
        else .error (.invalid c2 "after array element")
end

/-- The first JSON value of a text and what follows it. The step budget is never used up:
a value and a list of elements each take one step per character at most. -/
def scanFirst (input : List Char) : Except ScanError (Json × List Char) :=
  scanValue (2 * input.length + 1) maxNestingDepth input

/-! ## Floating-point numbers -/

/-- The float is a binary64 value, given by a mantissa of at most 53 bits and an exponent
between those of the least subnormal and of the greatest finite value. Every finite
`float64` has such a form. -/
def Float64.Finite (f : Float64) : Prop := f.mant < 2 ^ 53 ∧ -1074 ≤ f.exp ∧ f.exp ≤ 971

/-- The magnitudes `m * 2^s` and `m' * 2^s'` are equal. -/
def SameMagnitude (m : Nat) (s : Int) (m' : Nat) (s' : Int) : Prop :=
  m * 2 ^ (s - s').toNat = m' * 2 ^ (s' - s).toNat

/-- Both floats have the same sign and the same magnitude. -/
def Float64.SameValue (f g : Float64) : Prop :=
  f.neg = g.neg ∧ SameMagnitude f.mant f.exp g.mant g.exp

/-- The natural number is a binary64 value: `m * 2^e` with a mantissa of at most 53 bits
and an exponent in range. -/
def ExactFloat64 (n : Nat) : Prop := ∃ m e : Nat, m < 2 ^ 53 ∧ e ≤ 971 ∧ n = m * 2 ^ e

/-- The number a run of decimal digits denotes. -/
def digitsValue (ds : List Char) : Nat :=
  ds.foldl (fun a c => 10 * a + (c.toNat - 48)) 0

/-- The number of binary digits of `n`, counted in at most `fuel` steps. -/
def bitLengthAux : Nat → Nat → Nat
  | 0, _ => 0
  | fuel + 1, n => if n = 0 then 0 else bitLengthAux fuel (n / 2) + 1

/-- The number of binary digits of `n`. -/
def bitLength (n : Nat) : Nat := bitLengthAux n n

/-- The integer nearest to `n / d`, ties to even. -/
def roundHalfEven (n d : Nat) : Nat :=
  if d < 2 * (n % d) ∨ (2 * (n % d) = d ∧ (n / d) % 2 = 1) then n / d + 1 else n / d

/-- The binary64 value nearest to `num / den` (both positive), ties to even, as mantissa and
binary exponent; `none` when it is out of range. The exponent is counted from the least
one, `-1074`: with `t` the exponent above it, the mantissa is `num * 2^1074 / (den * 2^t)`
rounded, and `t` is the least exponent that leaves it below `2^53`. -/
def roundRatio (num den : Nat) : Option (Nat × Int) :=
  let t1 : Nat := bitLength num + 1021 - bitLength den
  let t : Nat := if 2 ^ 53 ≤ num * 2 ^ 1074 / (den * 2 ^ t1) then t1 + 1 else t1
  let m := roundHalfEven (num * 2 ^ 1074) (den * 2 ^ t)
  if 2045 < t ∨ (t = 2045 ∧ 2 ^ 53 ≤ m) then none else some (m, (t : Int) - 1074)

/-- The binary32 value nearest to `num / den` (both positive), ties to even: as
`roundRatio`, with a mantissa of 24 bits and exponents from `-149` to `104`. -/
def roundRatio32 (num den : Nat) : Option (Nat × Int) :=
  let t1 : Nat := bitLength num + 125 - bitLength den
  let t : Nat := if 2 ^ 24 ≤ num * 2 ^ 149 / (den * 2 ^ t1) then t1 + 1 else t1
  let m := roundHalfEven (num * 2 ^ 149) (den * 2 ^ t)
  if 253 < t ∨ (t = 253 ∧ 2 ^ 24 ≤ m) then none else some (m, (t : Int) - 149)

/-- The exponent part of a number literal, after its `e`. -/
def exponentValue : List Char → Int
  | '+' :: ds => digitsValue (takeDigits ds).1
  | '-' :: ds => - (digitsValue (takeDigits ds).1 : Int)
  | ds => digitsValue (takeDigits ds).1

/-- The fraction digits and the decimal exponent of what follows the integer digits of a
number literal. -/
def fractionAndExponent (r1 : List Char) : List Char × Int :=
  let frac : List Char × List Char :=
    match r1 with
    | '.' :: t => takeDigits t
    | _ => ([], r1)
  let ex : Int :=
    match frac.2 with
    | 'e' :: t => exponentValue t
    | 'E' :: t => exponentValue t
    | _ => 0
  (frac.1, ex)

/-- The binary64 magnitude nearest to `digits * 10^dexp`, `none` when it is out of range.
An integer of at most `2^53` is taken as it is. -/
def decimalToFloat (digits : Nat) (dexp : Int) : Option (Nat × Int) :=
  if digits = 0 then some (0, 0)
  else if dexp = 0 ∧ digits ≤ 2 ^ 53 then some (digits, 0)
  else if 0 ≤ dexp then roundRatio (digits * 10 ^ dexp.toNat) 1
  else roundRatio digits (10 ^ (-dexp).toNat)

/-- The decimal `digits * 10^dexp` a number literal without sign denotes: its digits
without the decimal point, and the exponent that makes up for the point. -/
def literalDecimal (body : List Char) : Nat × Int :=
  let fe := fractionAndExponent (takeDigits body).2
  (digitsValue ((takeDigits body).1 ++ fe.1), fe.2 - fe.1.length)

/-- The binary64 magnitude a number literal without sign denotes. -/
def parseMagnitude (body : List Char) : Option (Nat × Int) :=
  decimalToFloat (literalDecimal body).1 (literalDecimal body).2

/-- The call `strconv.ParseFloat(lit, 64)` on a number literal the scanner accepted, with
the decoder's error when the value is out of range. -/
def ParseFloat (struct field : String) (lit : List Char) : Except GoError Float64 :=
  let neg : Bool := lit.head? = some '-'
  match parseMagnitude (if neg then lit.tail else lit) with
  | none => .error (.unmarshalTypeError ("number " ++ String.mk lit) "float64" struct field)
  | some (m, s) => .ok ⟨neg, m, s⟩

/-- The magnitude of a float as a fraction. -/
def Float64.ratio (f : Float64) : Nat × Nat :=
  if 0 ≤ f.exp then (f.mant * 2 ^ f.exp.toNat, 1) else (f.mant, 2 ^ (-f.exp).toNat)

/-- The least `j`, from `j` on and within `fuel` steps, with `den ≤ num * 10^j`. -/
def leastShift : Nat → Nat → Nat → Nat → Nat
  | 0, _, _, j => j
  | fuel + 1, num, den, j =>
    if den ≤ num * 10 ^ j then j else leastShift fuel num den (j + 1)

/-- The decimal exponent `p` of a positive fraction: `10^(p-1) ≤ num/den < 10^p`. -/
def decimalExponent (num den : Nat) : Int :=
  if den ≤ num then ((formatNat (num / den)).length : Int)
  else 1 - (leastShift 400 num den 1 : Int)

/-- The two decimals of `n` digits next to a positive fraction, the nearer one first (of
two equally near, the even one), and the decimal exponent of their last digit. -/
def nearestDecimals (num den n : Nat) : Nat × Nat × Int :=
  let k : Int := decimalExponent num den - n
  let sn := if 0 ≤ k then num else num * 10 ^ (-k).toNat
  let sd := if 0 ≤ k then den * 10 ^ k.toNat else den
  if sd < 2 * (sn % sd) ∨ (2 * (sn % sd) = sd ∧ (sn / sd) % 2 = 1) then
    (sn / sd + 1, sn / sd, k)
  else (sn / sd, sn / sd + 1, k)

/-- Trailing zeros moved from the digits `d` into the decimal exponent `k`. -/
def stripZeros : Nat → Nat → Int → Nat × Int
  | 0, d, k => (d, k)
  | fuel + 1, d, k =>
    if d ≠ 0 ∧ d % 10 = 0 then stripZeros fuel (d / 10) (k + 1) else (d, k)

/-- The format `%f` of `strconv` in the shortest precision: the digits `ds` with the
decimal point after the first `dp` of them, zeros filled in where the point lies outside. -/
def formatFixed (ds : List Char) (dp : Int) : List Char :=
  (if 0 < dp then ds.take dp.toNat ++ List.replicate (dp.toNat - ds.length) '0' else ['0']) ++
    (if dp < ds.length then '.' :: (List.replicate (-dp).toNat '0' ++ ds.drop dp.toNat)
     else [])

/-- The format `%e` of `strconv` in the shortest precision, as the JSON encoder leaves it:
an exponent of one digit is written without the zero in front (`e-7` for `e-07`). -/
def formatExponent (ds : List Char) (dp : Int) : List Char :=
  ds.take 1 ++ (if 1 < ds.length then '.' :: ds.drop 1 else []) ++
    'e' :: (if dp - 1 < 0 then '-' else '+') :: formatNat (dp - 1).natAbs

/-- The magnitude `m * 2^s` is less than `m' * 2^s'`. -/
def magnitudeLess (m : Nat) (s : Int) (m' : Nat) (s' : Int) : Bool :=
  decide (m * 2 ^ (s - s').toNat < m' * 2 ^ (s' - s).toNat)

/-- The `float64` constant `1e-6`. -/
def oneMillionth : Nat × Int := (roundRatio 1 (10 ^ 6)).getD (0, 0)

/-- The text the float encoder of `encoding/json` writes for a magnitude, given its decimal
digits `d * 10^k`: format `e` or format `f`. -/
def decimalText (exponentForm : Bool) (d : Nat) (k : Int) : List Char :=
  let ds := formatNat (stripZeros 20 d k).1
  let dp : Int := ds.length + (stripZeros 20 d k).2
  if exponentForm then formatExponent ds dp else formatFixed ds dp

/-- The float encoder uses format `e` for a `float64` when its magnitude is below `1e-6` or
at least `1e21`. -/
def exponentForm (f : Float64) : Bool :=
  magnitudeLess f.mant f.exp oneMillionth.1 oneMillionth.2 ||
    !magnitudeLess f.mant f.exp (10 ^ 21) 0

/-- The text is a number literal that denotes, after rounding to binary64, the magnitude
of `f`. -/
def readsBack (f : Float64) (t : List Char) : Bool :=
  (match scanUnsigned t with
   | .ok (lit, []) => decide (lit = t)
   | _ => false) &&
  (match parseMagnitude t with
   | some (m, s) => decide (m * 2 ^ (s - f.exp).toNat = f.mant * 2 ^ (f.exp - s).toNat)
   | none => false)

/-- The text of the decimal with the fewest digits, `n` or more and within `fuel` tries,
that a float is read back from; of the decimals with that many digits the one nearest to
the float (the shortest representation of `strconv.FormatFloat` with precision `-1`).
The float has the magnitude `num / den`, `reads` tells whether a text is read back as it,
and `text` writes a decimal. -/
def shortestText (reads : List Char → Bool) (text : Nat → Int → List Char) (num den : Nat) :
    Nat → Nat → Option (List Char)
  | 0, _ => none
  | fuel + 1, n =>
    let c := nearestDecimals num den n
    if reads (text c.1 c.2.2) then some (text c.1 c.2.2)
    else if reads (text c.2.1 c.2.2) then some (text c.2.1 c.2.2)
    else shortestText reads text num den fuel (n + 1)

/-- The exact decimal value of the magnitude of `f`, in exponent form when it is not an
integer. -/
def exactText (f : Float64) : List Char :=
  if 0 ≤ f.exp then formatNat (f.mant * 2 ^ f.exp.toNat)
  else formatNat (f.mant * 5 ^ (-f.exp).toNat) ++ 'e' :: '-' :: formatNat (-f.exp).toNat

/-- The text the float encoder writes for the magnitude of a finite `float64`: the
shortest decimal that reads back as the same float. Seventeen digits are enough for every
binary64 value; the exact decimal value stands in should none of them read back. -/
def float64Text (f : Float64) : List Char :=
  if f.mant = 0 then ['0']
  else (shortestText (readsBack f) (decimalText (exponentForm f)) f.ratio.1 f.ratio.2
    17 1).getD (exactText f)

/-- The text the float encoder of `encoding/json` writes for a finite `float64`. -/
def formatFloat (f : Float64) : List Char := (if f.neg then ['-'] else []) ++ float64Text f

/-- The `float32` constant `1e-6`. -/
def oneMillionth32 : Nat × Int := (roundRatio32 1 (10 ^ 6)).getD (0, 0)

/-- The `float32` constant `1e21`. -/
def sextillion32 : Nat × Int := (roundRatio32 (10 ^ 21) 1).getD (0, 0)

/-- The float encoder uses format `e` for a `float32` when its magnitude is below the
`float32` constant `1e-6` or at least the `float32` constant `1e21`. -/
def exponentForm32 (f : Float64) : Bool :=
  magnitudeLess f.mant f.exp oneMillionth32.1 oneMillionth32.2 ||
    !magnitudeLess f.mant f.exp sextillion32.1 sextillion32.2

/-- The binary32 magnitude nearest to `digits * 10^dexp`, `none` when it is out of range. -/
def decimalToFloat32 (digits : Nat) (dexp : Int) : Option (Nat × Int) :=
  if digits = 0 then some (0, 0)
  else if 0 ≤ dexp then roundRatio32 (digits * 10 ^ dexp.toNat) 1
  else roundRatio32 digits (10 ^ (-dexp).toNat)

/-- The text is a number literal that denotes, after rounding to binary32, the magnitude
of `f`. -/
def readsBack32 (f : Float64) (t : List Char) : Bool :=
  (match scanUnsigned t with
   | .ok (lit, []) => decide (lit = t)
   | _ => false) &&
  (match decimalToFloat32 (literalDecimal t).1 (literalDecimal t).2 with
   | some (m, s) => decide (m * 2 ^ (s - f.exp).toNat = f.mant * 2 ^ (f.exp - s).toNat)
   | none => false)

/-- The text the float encoder writes for the magnitude of a finite `float32`, whose value
`f` holds: the shortest decimal that reads back, as a `float32`, as the same float. Nine
digits are enough for every binary32 value. -/
def float32Text (f : Float64) : List Char :=
  if f.mant = 0 then ['0']
  else (shortestText (readsBack32 f) (decimalText (exponentForm32 f)) f.ratio.1 f.ratio.2
    9 1).getD (exactText f)

/-- The text the float encoder of `encoding/json` writes for a finite `float32`. -/
def formatFloat32 (f : Float64) : List Char :=
  (if f.neg then ['-'] else []) ++ float32Text f

/-! ## json.Marshal -/

/-- Lexicographic order of two texts by character code. -/
def charsLess : List Char → List Char → Bool
  | _, [] => false
  | [], _ :: _ => true
  | a :: as, b :: bs =>
    if a.toNat < b.toNat then true
    else if b.toNat < a.toNat then false
    else charsLess as bs

/-- The order in which `json.Marshal` writes map keys. -/
def keyLess (a b : String) : Bool := charsLess a.data b.data

/-- Insert a member by key into a list sorted by key. -/
def insertSorted {α : Type} (k : String) (v : α) : List (String × α) → List (String × α)
  | [] => [(k, v)]
  | (k', v') :: rest =>
    if keyLess k k' then (k, v) :: (k', v') :: rest
    else (k', v') :: insertSorted k v rest

/-- Sort members by key. -/
def sortByKey {α : Type} : List (String × α) → List (String × α)
  | [] => []
  | (k, v) :: rest => insertSorted k v (sortByKey rest)

/-- The first error of a list of results, or all the values. -/
def sequenceMembers : List (String × Except GoError Json) → Except GoError (List (String × Json))
  | [] => .ok []
  | (_, .error e) :: _ => .error e
  | (k, .ok j) :: rest =>
    match sequenceMembers rest with
    | .error e => .error e
    | .ok ms => .ok ((k, j) :: ms)

/-- The character of a six-bit value in the standard base64 alphabet. -/
def base64Char (n : Nat) : Char :=
  if n < 26 then Char.ofNat (65 + n)
  else if n < 52 then Char.ofNat (71 + n)
  else if n < 62 then Char.ofNat (n - 4)
  else if n = 62 then '+'
  else '/'

/-- The standard base64 text of a byte sequence, with padding. -/
def base64 : List (Fin 256) → List Char
  | [] => []
  | [a] => [base64Char (a.val / 4), base64Char (a.val % 4 * 16), '=', '=']
  | [a, b] =>
    [base64Char (a.val / 4), base64Char (a.val % 4 * 16 + b.val / 16),
      base64Char (b.val % 16 * 4), '=']
  | a :: b :: c :: rest =>
    base64Char (a.val / 4) :: base64Char (a.val % 4 * 16 + b.val / 16) ::
      base64Char (b.val % 16 * 4 + c.val / 64) :: base64Char (c.val % 64) :: base64 rest

mutual
/-- Encoding of a value held in an interface. Map entries are written in key order, the
members of a struct in field order, a byte slice as a base64 string. -/
def GoValue.encode : GoValue → Except GoError Json
  | .nil => .ok .null
  | .typedNil => .ok .null
  | .bool b => .ok (.bool b)
  | .int i => .ok (.number (formatInt i))
  | .float64 f => .ok (.number (formatFloat f))
  | .float32 f => .ok (.number (formatFloat32 f))
  | .notFinite s => .error (.unsupportedValue s)
  | .string s => .ok (.string s)
  | .bytes b => .ok (.string (String.mk (base64 b)))
  | .slice xs =>
    match encodeElems xs with
    | .error e => .error e
    | .ok js => .ok (.array js)
  | .map es =>
    match sequenceMembers (sortByKey (encodeEntries es)) with
    | .error e => .error e
    | .ok ms => .ok (.object ms)
  | .struct fs =>
    match sequenceMembers (encodeEntries fs) with
    | .error e => .error e
    | .ok ms => .ok (.object ms)
  | .unsupported t => .error (.unsupportedType t)
/-- Encoding of the elements of a slice, stopping at the first error. -/
def encodeElems : List GoValue → Except GoError (List Json)
  | [] => .ok []
  | x :: xs =>
    match x.encode with
    | .error e => .error e
    | .ok j =>
      match encodeElems xs with
      | .error e => .error e
      | .ok js => .ok (j :: js)
/-- Encoding of each entry of a map or member of a struct. -/
def encodeEntries : List (String × GoValue) → List (String × Except GoError Json)
  | [] => []
  | (k, v) :: es => (k, v.encode) :: encodeEntries es
end

/-- A string member with the option `omitempty`. -/
def omitEmptyString (key : String) (s : String) : List (String × Json) :=
  if s = "" then [] else [(key, .string s)]

/-- Encoding of a `V2EventLink`. -/
def V2EventLink.encode (l : V2EventLink) : Json :=
  .object [("href", .string l.Href), ("text", .string l.Text)]

/-- Encoding of a `V2EventImage`. -/
def V2EventImage.encode (i : V2EventImage) : Json :=
  .object (("src", .string i.Src) :: (omitEmptyString "href" i.Href ++
    omitEmptyString "alt" i.Alt))

/-- The member `custom_details`, omitted when the interface is nil. -/
def encodeDetails : GoValue → Except GoError (List (String × Json))
  | .nil => .ok []
  | v =>
    match v.encode with
    | .error e => .error e
    | .ok j => .ok [("custom_details", j)]

/-- Encoding of a `V2Payload`. -/
def V2Payload.encode (p : V2Payload GoValue) : Except GoError Json :=
  match encodeDetails p.Details with
  | .error e => .error e
  | .ok details =>
    .ok (.object (("summary", .string p.Summary) :: ("source", .string p.Source) ::
      ("severity", .string p.Severity) ::
      (omitEmptyString "timestamp" p.Timestamp ++ omitEmptyString "component" p.Component ++
       omitEmptyString "group" p.Group ++ omitEmptyString "class" p.Class ++ details)))

/-- The member `images`, omitted when the slice is empty. -/
def encodeImages (imgs : List V2EventImage) : List (String × Json) :=
  if imgs = [] then [] else [("images", .array (imgs.map V2EventImage.encode))]

/-- The member `links`, omitted when the slice is empty. -/
def encodeLinks (links : List V2EventLink) : List (String × Json) :=
  if links = [] then [] else [("links", .array (links.map V2EventLink.encode))]

/-- The member `payload`, omitted when the pointer is nil. -/
def encodePayload : Option (V2Payload GoValue) → Except GoError (List (String × Json))
  | none => .ok []
  | some p =>
    match p.encode with
    | .error e => .error e
    | .ok j => .ok [("payload", j)]

/-- Encoding of a `V2Event`: the members in field order. -/
def V2Event.encode (e : V2Event GoValue) : Except GoError Json :=
  match encodePayload e.Payload with
  | .error err => .error err
  | .ok payload =>
    .ok (.object (("routing_key", .string e.RoutingKey) :: ("event_action", .string e.Action) ::
      (omitEmptyString "dedup_key" e.DedupKey ++ encodeImages e.Images ++ encodeLinks e.Links ++
       omitEmptyString "client" e.Client ++ omitEmptyString "client_url" e.ClientURL ++
       payload)))

/-- The call `json.Marshal(e)` on a `V2Event`. -/
def Marshal (e : V2Event GoValue) : Except GoError (List Char) :=
  match e.encode with
  | .error err => .error err
  | .ok j => .ok j.render

/-! ## Decoding into `V2EventResponse` -/

/-- The text `strconv.Quote` writes for one character, without the quotes. Characters
outside ASCII are written as they are. -/
def quoteRune (c : Char) : String :=
  if c = '\\' then "\\\\"
  else if c = '\x07' then "\\a"
  else if c = '\x08' then "\\b"
  else if c = '\x0c' then "\\f"
  else if c = '\n' then "\\n"
  else if c = '\r' then "\\r"
  else if c = '\t' then "\\t"
  else if c = '\x0b' then "\\v"
  else if c.toNat < 32 ∨ c.toNat = 127 then
    String.mk ['\\', 'x', hexDigit (c.toNat / 16), hexDigit (c.toNat % 16)]
  else String.mk [c]

/-- The helper `quoteChar` of the scanner. -/
def quoteChar (c : Char) : String :=
  if c = '\'' then "'\\''"
  else if c = '"' then "'\"'"
  else "'" ++ quoteRune c ++ "'"

/-- The `*json.SyntaxError` for an invalid character. -/
def invalidCharacter (c : Char) (context : String) : GoError :=
  .syntaxError ("invalid character " ++ quoteChar c ++ " " ++ context)

/-- Case folding of one character of a key, as far as it can meet an ASCII letter:
lower case, the Kelvin sign and the long s fold to the capital letter. -/
def foldChar (c : Char) : Char :=
  if 97 ≤ c.toNat ∧ c.toNat ≤ 122 then Char.ofNat (c.toNat - 32)
  else if c = 'K' then 'K'
  else if c = 'ſ' then 'S'
  else c

/-- The folded form of a name (`foldName`). -/
def foldName (s : String) : List Char := s.data.map foldChar

/-- The field a key selects: the exact name, else the one equal under case folding. -/
def findField (names : List String) (key : String) : Option String :=
  match names.find? (fun n => n = key) with
  | some n => some n
  | none => names.find? (fun n => foldName n = foldName key)

/-- The first of two saved errors (`saveError` keeps the first). -/
def firstError : Option GoError → Option GoError → Option GoError
  | some e, _ => some e
  | none, e => e

/-- Storing a JSON value into a field of type `string`: a string is assigned, `null`
leaves the field as it is, anything else is a type error and leaves the field. -/
def storeString (struct field : String) (cur : String) : Json → String × Option GoError
  | .null => (cur, none)
  | .string s => (s, none)
  | .bool _ => (cur, some (.unmarshalTypeError "bool" "string" struct field))
  | .number _ => (cur, some (.unmarshalTypeError "number" "string" struct field))
  | .array _ => (cur, some (.unmarshalTypeError "array" "string" struct field))
  | .object _ => (cur, some (.unmarshalTypeError "object" "string" struct field))

/-- The type error for a JSON value that is not an object where a struct is expected;
`none` for an object and for `null`. -/
def notAnObject (typ struct field : String) : Json → Option GoError
  | .null => none
  | .object _ => none
  | .bool _ => some (.unmarshalTypeError "bool" typ struct field)
  | .number _ => some (.unmarshalTypeError "number" typ struct field)
  | .string _ => some (.unmarshalTypeError "string" typ struct field)
  | .array _ => some (.unmarshalTypeError "array" typ struct field)

/-- The JSON names of the fields of `V2EventResponse`. -/
def responseFields : List String := ["routing_key", "dedup_key", "event_action"]

/-- One member of an object stored into a `V2EventResponse`; an unknown key is skipped. -/
def V2EventResponse.setField (r : V2EventResponse) (key : String) (v : Json) :
    V2EventResponse × Option GoError :=
  let f := findField responseFields key
  if f = some "routing_key" then
    ({ r with RoutingKey := (storeString "V2EventResponse" "routing_key" r.RoutingKey v).1 },
      (storeString "V2EventResponse" "routing_key" r.RoutingKey v).2)
  else if f = some "dedup_key" then
    ({ r with DedupKey := (storeString "V2EventResponse" "dedup_key" r.DedupKey v).1 },
      (storeString "V2EventResponse" "dedup_key" r.DedupKey v).2)
  else if f = some "event_action" then
    ({ r with EventAction := (storeString "V2EventResponse" "event_action" r.EventAction v).1 },
      (storeString "V2EventResponse" "event_action" r.EventAction v).2)
  else (r, none)

/-- The members of an object stored one after the other by `set`, with the first saved
error. -/
def decodeMembers {α : Type} (set : α → String → Json → α × Option GoError) (a : α) :
    List (String × Json) → α × Option GoError
  | [] => (a, none)
  | (k, v) :: ms =>
    ((decodeMembers set (set a k v).1 ms).1,
      firstError (set a k v).2 (decodeMembers set (set a k v).1 ms).2)

/-- Decoding a scanned value into a zero `V2EventResponse`. -/
def unmarshalResponse (j : Json) : Except GoError V2EventResponse :=
  match j with
  | .object ms =>
    match decodeMembers V2EventResponse.setField ⟨"", "", ""⟩ ms with
    | (r, none) => .ok r
    | (_, some e) => .error e
  | other =>
    match notAnObject "pagerduty.V2EventResponse" "" "" other with
    | none => .ok ⟨"", "", ""⟩
    | some e => .error e

/-! ## The HTTP exchange -/

/-- The part of an `*http.Request` the client sets. -/
structure Request where
  Method : String
  URL : String
  Header : List (String × String)
  Body : List Char
  deriving DecidableEq

/-- A response body as a reader: it yields `data` and then ends, cleanly or with a read
error. -/
structure ResponseBody where
  data : List Char
  failure : Option GoError

/-- The part of an `*http.Response` the client reads. -/
structure Response where
  StatusCode : Int
  Body : ResponseBody

/-- The call `http.NewRequest`; with a fixed valid method and URL it does not fail. -/
def NewRequest (method url : String) (body : List Char) : Request :=
  { Method := method, URL := url, Header := [], Body := body }

/-- The call `req.Header.Set`. -/
def Request.setHeader (req : Request) (key value : String) : Request :=
  { req with Header := (key, value) :: req.Header.filter (fun p => p.1 ≠ key) }

/-- The call `ioutil.ReadAll`. -/
def ReadAll (b : ResponseBody) : Except GoError (List Char) :=
  match b.failure with
  | none => .ok b.data
  | some e => .error e

/-- Whether a scanned value is an object or an array (complete at its closing bracket). -/
def Json.isContainer : Json → Bool
  | .array _ => true
  | .object _ => true
  | _ => false

/-- The call `json.NewDecoder(body).Decode(&eventResponse)`: the first JSON value of the
stream is scanned, then decoded; what follows it is not read. -/
def Decode (body : ResponseBody) : Except GoError V2EventResponse :=
  match scanFirst body.data with
  | .ok (j, rest) =>
    if j.isContainer ∨ rest ≠ [] then unmarshalResponse j
    else
      match body.failure with
      | none => unmarshalResponse j
      | some e => .error e
  | .error (.invalid c context) => .error (invalidCharacter c context)
  | .error .needMore =>
    match body.failure with
    | some e => .error e
    | none => if skipSpace body.data = [] then .error EOF else .error ErrUnexpectedEOF
  | .error .fuel => .error (.other "scanner budget exhausted")

/-- The constant `v2eventEndPoint`. -/
def v2eventEndPoint : String := "https://events.pagerduty.com/v2/enqueue"

/-- The constant `http.StatusAccepted`. -/
def StatusAccepted : Int := 202

/-- The value of `fmt.Errorf("HTTP Status Code: %d", code)`. -/
def statusError (code : Int) : GoError :=
  .errorString ("HTTP Status Code: " ++ String.mk (formatInt code))

/-- The value of `fmt.Errorf("HTTP Status Code: %d, Message: %s", code, string(bytes))`. -/
def statusMessageError (code : Int) (bytes : List Char) : GoError :=
  .errorString ("HTTP Status Code: " ++ String.mk (formatInt code) ++ ", Message: " ++
    String.mk bytes)

/-- What one call of `ManageEvent` returns and does: the result pair and the requests
handed to `http.DefaultClient.Do`, in order. -/
structure Outcome where
  response : Option V2EventResponse
  err : Option GoError
  calls : List Request

/-- The request `ManageEvent` builds from the marshalled event. -/
def buildRequest (data : List Char) : Request :=
  (NewRequest "POST" v2eventEndPoint data).setHeader "Content-Type" "application/json"

/-- The function `ManageEvent`, with the transport `Do` as a parameter. -/
def ManageEvent (Do : Request → Except GoError Response) (e : V2Event GoValue) : Outcome :=
  match Marshal e with
  | .error err => ⟨none, some err, []⟩
  | .ok data =>
    match Do (buildRequest data) with
    | .error err => ⟨none, some err, [buildRequest data]⟩
    | .ok resp =>
      if resp.StatusCode ≠ StatusAccepted then
        match ReadAll resp.Body with
        | .error _ => ⟨none, some (statusError resp.StatusCode), [buildRequest data]⟩
        | .ok bytes =>
          ⟨none, some (statusMessageError resp.StatusCode bytes), [buildRequest data]⟩
      else
        match Decode resp.Body with
        | .error err => ⟨none, some err, [buildRequest data]⟩
        | .ok eventResponse => ⟨some eventResponse, none, [buildRequest data]⟩

/-! ## Decoding into `V2Event` -/

/-- A value `json.Unmarshal` stores into an `interface{}`: nil, `bool`, `float64`,
`string`, `[]interface{}` or `map[string]interface{}` (entries kept in key order). -/
inductive Decoded where
  | nil
  | bool (b : Bool)
  | float64 (f : Float64)
  | string (s : String)
  | slice (elems : List Decoded)
  | map (entries : List (String × Decoded))

/-- Add an entry to a map kept in key order, unless the key is there already. -/
def insertIfAbsent (k : String) (v : Decoded) : List (String × Decoded) → List (String × Decoded)
  | [] => [(k, v)]
  | (k', v') :: rest =>
    if keyLess k k' then (k, v) :: (k', v') :: rest
    else if k = k' then (k', v') :: rest
    else (k', v') :: insertIfAbsent k v rest

mutual
/-- Decoding a scanned value into an empty interface, with the first saved error. A number
that is out of range is stored as nil. -/
def decodeInterface (struct field : String) : Json → Decoded × Option GoError
  | .null => (.nil, none)
  | .bool b => (.bool b, none)
  | .number lit =>
    match ParseFloat struct field lit with
    | .ok f => (.float64 f, none)
    | .error e => (.nil, some e)
  | .string s => (.string s, none)
  | .array xs =>
    (.slice (decodeInterfaceElems struct field xs).1, (decodeInterfaceElems struct field xs).2)
  | .object ms =>
    (.map (decodeInterfaceMembers struct field ms).1,
      (decodeInterfaceMembers struct field ms).2)
/-- Decoding the elements of an array into a `[]interface{}`. -/
def decodeInterfaceElems (struct field : String) : List Json → List Decoded × Option GoError
  | [] => ([], none)
  | x :: xs =>
    ((decodeInterface struct field x).1 :: (decodeInterfaceElems struct field xs).1,
      firstError (decodeInterface struct field x).2 (decodeInterfaceElems struct field xs).2)
/-- Decoding the members of an object into a `map[string]interface{}`; of two members with
one key the later one stays. -/
def decodeInterfaceMembers (struct field : String) :
    List (String × Json) → List (String × Decoded) × Option GoError
  | [] => ([], none)
  | (k, v) :: ms =>
    (insertIfAbsent k (decodeInterface struct field v).1
        (decodeInterfaceMembers struct field ms).1,
      firstError (decodeInterface struct field v).2 (decodeInterfaceMembers struct field ms).2)
end

/-- One member of an object stored into a `V2EventLink`. -/
def V2EventLink.setField (l : V2EventLink) (key : String) (v : Json) :
    V2EventLink × Option GoError :=
  let f := findField ["href", "text"] key
  if f = some "href" then
    ({ l with Href := (storeString "V2EventLink" "links.href" l.Href v).1 },
      (storeString "V2EventLink" "links.href" l.Href v).2)
  else if f = some "text" then
    ({ l with Text := (storeString "V2EventLink" "links.text" l.Text v).1 },
      (storeString "V2EventLink" "links.text" l.Text v).2)
  else (l, none)

/-- One member of an object stored into a `V2EventImage`. -/
def V2EventImage.setField (i : V2EventImage) (key : String) (v : Json) :
    V2EventImage × Option GoError :=
  let f := findField ["src", "href", "alt"] key
  if f = some "src" then
    ({ i with Src := (storeString "V2EventImage" "images.src" i.Src v).1 },
      (storeString "V2EventImage" "images.src" i.Src v).2)
  else if f = some "href" then
    ({ i with Href := (storeString "V2EventImage" "images.href" i.Href v).1 },
      (storeString "V2EventImage" "images.href" i.Href v).2)
  else if f = some "alt" then
    ({ i with Alt := (storeString "V2EventImage" "images.alt" i.Alt v).1 },
      (storeString "V2EventImage" "images.alt" i.Alt v).2)
  else (i, none)

/-- Storing a JSON value into an element of type `V2EventLink`. -/
def storeLink (cur : V2EventLink) : Json → V2EventLink × Option GoError
  | .object ms => decodeMembers V2EventLink.setField cur ms
  | other => (cur, notAnObject "pagerduty.V2EventLink" "V2Event" "links" other)

/-- Storing a JSON value into an element of type `V2EventImage`. -/
def storeImage (cur : V2EventImage) : Json → V2EventImage × Option GoError
  | .object ms => decodeMembers V2EventImage.setField cur ms
  | other => (cur, notAnObject "pagerduty.V2EventImage" "V2Event" "images" other)

/-- The elements of an array stored one by one, each into the element the slice held at
that index before, or into a zero element. -/
def storeElems {α : Type} (store : α → Json → α × Option GoError) (zero : α) :
    List α → List Json → List α × Option GoError
  | _, [] => ([], none)
  | old, j :: js =>
    ((store (old.headD zero) j).1 :: (storeElems store zero old.tail js).1,
      firstError (store (old.headD zero) j).2 (storeElems store zero old.tail js).2)

/-- Storing a JSON value into a field of slice type: an array is decoded element by element,
`null` makes the slice nil, anything else is a type error. -/
def storeSlice {α : Type} (store : α → Json → α × Option GoError) (zero : α)
    (typ field : String) (cur : List α) : Json → List α × Option GoError
  | .null => ([], none)
  | .array xs => storeElems store zero cur xs
  | .bool _ => (cur, some (.unmarshalTypeError "bool" typ "V2Event" field))
  | .number _ => (cur, some (.unmarshalTypeError "number" typ "V2Event" field))
  | .string _ => (cur, some (.unmarshalTypeError "string" typ "V2Event" field))
  | .object _ => (cur, some (.unmarshalTypeError "object" typ "V2Event" field))

/-- The zero `V2Payload`. -/
def zeroPayload : V2Payload Decoded :=
  { Summary := "", Source := "", Severity := "", Timestamp := "", Component := "", Group := "",
    Class := "", Details := .nil }

/-- The JSON names of the fields of `V2Payload`. -/
def payloadFields : List String :=
  ["summary", "source", "severity", "timestamp", "component", "group", "class",
    "custom_details"]

/-- One member of an object stored into a `V2Payload`. -/
def V2Payload.setField (p : V2Payload Decoded) (key : String) (v : Json) :
    V2Payload Decoded × Option GoError :=
  let f := findField payloadFields key
  if f = some "summary" then
    ({ p with Summary := (storeString "V2Payload" "payload.summary" p.Summary v).1 },
      (storeString "V2Payload" "payload.summary" p.Summary v).2)
  else if f = some "source" then
    ({ p with Source := (storeString "V2Payload" "payload.source" p.Source v).1 },
      (storeString "V2Payload" "payload.source" p.Source v).2)
  else if f = some "severity" then
    ({ p with Severity := (storeString "V2Payload" "payload.severity" p.Severity v).1 },
      (storeString "V2Payload" "payload.severity" p.Severity v).2)
  else if f = some "timestamp" then
    ({ p with Timestamp := (storeString "V2Payload" "payload.timestamp" p.Timestamp v).1 },
      (storeString "V2Payload" "payload.timestamp" p.Timestamp v).2)
  else if f = some "component" then
    ({ p with Component := (storeString "V2Payload" "payload.component" p.Component v).1 },
      (storeString "V2Payload" "payload.component" p.Component v).2)
  else if f = some "group" then
    ({ p with Group := (storeString "V2Payload" "payload.group" p.Group v).1 },
      (storeString "V2Payload" "payload.group" p.Group v).2)
  else if f = some "class" then
    ({ p with Class := (storeString "V2Payload" "payload.class" p.Class v).1 },
      (storeString "V2Payload" "payload.class" p.Class v).2)
  else if f = some "custom_details" then
    ({ p with Details := (decodeInterface "V2Payload" "payload.custom_details" v).1 },
      (decodeInterface "V2Payload" "payload.custom_details" v).2)
  else (p, none)

/-- Storing a JSON value into the field `Payload *V2Payload`: `null` makes the pointer nil;
anything else is stored into the payload pointed to, allocated when the pointer is nil. -/
def storePayload (cur : Option (V2Payload Decoded)) :
    Json → Option (V2Payload Decoded) × Option GoError
  | .null => (none, none)
  | .object ms =>
    (some (decodeMembers V2Payload.setField (cur.getD zeroPayload) ms).1,
      (decodeMembers V2Payload.setField (cur.getD zeroPayload) ms).2)
  | other =>
    (some (cur.getD zeroPayload), notAnObject "pagerduty.V2Payload" "V2Event" "payload" other)

/-- The zero `V2Event`. -/
def zeroEvent : V2Event Decoded :=
  { RoutingKey := "", Action := "", DedupKey := "", Images := [], Links := [], Client := "",
    ClientURL := "", Payload := none }

/-- The JSON names of the fields of `V2Event`. -/
def eventFields : List String :=
  ["routing_key", "event_action", "dedup_key", "images", "links", "client", "client_url",
    "payload"]

/-- One member of an object stored into a `V2Event`. -/
def V2Event.setField (e : V2Event Decoded) (key : String) (v : Json) :
    V2Event Decoded × Option GoError :=
  let f := findField eventFields key
  if f = some "routing_key" then
    ({ e with RoutingKey := (storeString "V2Event" "routing_key" e.RoutingKey v).1 },
      (storeString "V2Event" "routing_key" e.RoutingKey v).2)
  else if f = some "event_action" then
    ({ e with Action := (storeString "V2Event" "event_action" e.Action v).1 },
      (storeString "V2Event" "event_action" e.Action v).2)
  else if f = some "dedup_key" then
    ({ e with DedupKey := (storeString "V2Event" "dedup_key" e.DedupKey v).1 },
      (storeString "V2Event" "dedup_key" e.DedupKey v).2)
  else if f = some "images" then
    ({ e with Images := (storeSlice storeImage ⟨"", "", ""⟩ "[]pagerduty.V2EventImage" "images"
          e.Images v).1 },
      (storeSlice storeImage ⟨"", "", ""⟩ "[]pagerduty.V2EventImage" "images" e.Images v).2)
  else if f = some "links" then
    ({ e with Links := (storeSlice storeLink ⟨"", ""⟩ "[]pagerduty.V2EventLink" "links"
          e.Links v).1 },
      (storeSlice storeLink ⟨"", ""⟩ "[]pagerduty.V2EventLink" "links" e.Links v).2)
  else if f = some "client" then
    ({ e with Client := (storeString "V2Event" "client" e.Client v).1 },
      (storeString "V2Event" "client" e.Client v).2)
  else if f = some "client_url" then
    ({ e with ClientURL := (storeString "V2Event" "client_url" e.ClientURL v).1 },
      (storeString "V2Event" "client_url" e.ClientURL v).2)
  else if f = some "payload" then
    ({ e with Payload := (storePayload e.Payload v).1 }, (storePayload e.Payload v).2)
  else (e, none)

/-- Decoding a scanned value into a zero `V2Event`. -/
def unmarshalEvent (j : Json) : Except GoError (V2Event Decoded) :=
  match j with
  | .object ms =>
    match decodeMembers V2Event.setField zeroEvent ms with
    | (e, none) => .ok e
    | (_, some err) => .error err
  | other =>
    match notAnObject "pagerduty.V2Event" "" "" other with
    | none => .ok zeroEvent
    | some err => .error err

/-- The call `json.Unmarshal(data, &e)` on a zero `V2Event`: the text must be one JSON value
with nothing but white space around it. -/
def Unmarshal (data : List Char) : Except GoError (V2Event Decoded) :=
  match scanFirst data with
  | .error (.invalid c context) => .error (invalidCharacter c context)
  | .error .needMore => .error (.syntaxError "unexpected end of JSON input")
  | .error .fuel => .error (.other "scanner budget exhausted")
  | .ok (j, rest) =>
    match skipSpace rest with
    | c :: _ => .error (invalidCharacter c "after top-level value")
    | [] => unmarshalEvent j

/-! ## Measures and conditions for the round trip -/

/-- What may follow a number for the scanner to end it there. -/
def EndsNumber (tail : List Char) : Prop :=
  ∀ c, tail.head? = some c → isDigit c = false ∧ c ≠ '.' ∧ c ≠ 'e' ∧ c ≠ 'E'

mutual
/-- The number of scanner calls a value takes. -/
def Json.size : Json → Nat
  | .array xs => 1 + sizeElems xs
  | .object ms => 1 + sizeMembers ms
  | _ => 1
/-- The number of scanner calls the elements of an array take. -/
def sizeElems : List Json → Nat
  | [] => 0
  | x :: xs => 1 + x.size + sizeElems xs
/-- The number of scanner calls the members of an object take. -/
def sizeMembers : List (String × Json) → Nat
  | [] => 0
  | (_, v) :: ms => 1 + v.size + sizeMembers ms
end

/-- A text that starts like a number and that the scanner reads as one number literal,
whatever ends the number after it. -/
def NumberLiteral (lit : List Char) : Prop :=
  (∃ c cs, lit = c :: cs ∧ (c = '-' ∨ isDigit c = true)) ∧
    ∀ tail, EndsNumber tail → scanNumber (lit ++ tail) = .ok (lit, tail)

mutual
/-- A value whose numbers are number literals and whose containers nest at most `depth`
deep. -/
def Json.Scannable : Nat → Json → Prop
  | _, .number lit => NumberLiteral lit
  | depth, .array xs => 0 < depth ∧ scannableElems (depth - 1) xs
  | depth, .object ms => 0 < depth ∧ scannableMembers (depth - 1) ms
  | _, _ => True
/-- Every element is scannable. -/
def scannableElems : Nat → List Json → Prop
  | _, [] => True
  | depth, x :: xs => x.Scannable depth ∧ scannableElems depth xs
/-- Every member value is scannable. -/
def scannableMembers : Nat → List (String × Json) → Prop
  | _, [] => True
  | depth, (_, v) :: ms => v.Scannable depth ∧ scannableMembers depth ms
end

/-- The float holds exactly the integer `i`. -/
def Float64.EqualsInt (f : Float64) (i : Int) : Prop :=
  f.neg = decide (i < 0) ∧
    if 0 ≤ f.exp then f.mant * 2 ^ f.exp.toNat = i.natAbs
    else f.mant = i.natAbs * 2 ^ (-f.exp).toNat

/-- The keys of a list of entries increase strictly. -/
def keysIncreasing {α : Type} : List (String × α) → Prop
  | [] => True
  | [_] => True
  | (k, _) :: (k', v') :: rest => keyLess k k' = true ∧ keysIncreasing ((k', v') :: rest)

mutual
/-- A value that survives encoding and decoding: built from nil, booleans, integers that
are binary64 values, finite `float64` values, `float32` values whose text denotes, rounded
to binary64, the value itself, strings, byte slices, slices, maps (entries in increasing
key order) and structs (members of different names), nested at most `depth` deep. -/
def GoValue.RoundTrips : Nat → GoValue → Prop
  | _, .nil => True
  | _, .typedNil => True
  | _, .bool _ => True
  | _, .int i => ExactFloat64 i.natAbs
  | _, .float64 f => f.Finite
  | _, .float32 f => readsBack f (float32Text f) = true
  | _, .notFinite _ => False
  | _, .string _ => True
  | _, .bytes _ => True
  | depth, .slice xs => 0 < depth ∧ roundTripsElems (depth - 1) xs
  | depth, .map es => 0 < depth ∧ keysIncreasing es ∧ roundTripsEntries (depth - 1) es
  | depth, .struct fs =>
    0 < depth ∧ (fs.map Prod.fst).Nodup ∧ roundTripsEntries (depth - 1) fs
  | _, .unsupported _ => False
/-- Every element round-trips. -/
def roundTripsElems : Nat → List GoValue → Prop
  | _, [] => True
  | depth, x :: xs => x.RoundTrips depth ∧ roundTripsElems depth xs
/-- Every entry value round-trips. -/
def roundTripsEntries : Nat → List (String × GoValue) → Prop
  | _, [] => True
  | depth, (_, v) :: es => v.RoundTrips depth ∧ roundTripsEntries depth es
end

/-- The value of a key in a decoded map. -/
def lookupDecoded (k : String) : List (String × Decoded) → Option Decoded
  | [] => none
  | (k', v) :: ds => if k' = k then some v else lookupDecoded k ds

mutual
/-- Equality as JSON values of a value handed to `json.Marshal` and a decoded value: nil
and typed nil are `null`, an integer or a float equals the float of the same value, a byte
slice equals the string of its base64 text, slices are compared element by element, maps entry
by entry in key order, and a struct equals the map that holds its members and no more. -/
def JsonEq : GoValue → Decoded → Prop
  | .nil, .nil => True
  | .typedNil, .nil => True
  | .bool b, .bool b' => b = b'
  | .int i, .float64 f => f.EqualsInt i
  | .float64 f, .float64 g => f.SameValue g
  | .float32 f, .float64 g => f.SameValue g
  | .string s, .string s' => s = s'
  | .bytes b, .string s => s = String.mk (base64 b)
  | .slice xs, .slice ys => jsonEqElems xs ys
  | .map es, .map ds => jsonEqEntries es ds
  | .struct fs, .map ds => fs.length = ds.length ∧ jsonEqFields fs ds
  | _, _ => False
/-- Equality as JSON arrays. -/
def jsonEqElems : List GoValue → List Decoded → Prop
  | [], [] => True
  | x :: xs, y :: ys => JsonEq x y ∧ jsonEqElems xs ys
  | _, _ => False
/-- Equality as JSON objects, entries in key order. -/
def jsonEqEntries : List (String × GoValue) → List (String × Decoded) → Prop
  | [], [] => True
  | (k, x) :: es, (k', y) :: ds => k = k' ∧ JsonEq x y ∧ jsonEqEntries es ds
  | _, _ => False
/-- Every member of the struct is in the map, with an equal value. -/
def jsonEqFields : List (String × GoValue) → List (String × Decoded) → Prop
  | [], _ => True
  | (k, x) :: fs, ds => (∃ y, lookupDecoded k ds = some y ∧ JsonEq x y) ∧ jsonEqFields fs ds
end

/-- Every field of the decoded payload equals the field of the original, the custom
details as JSON values. -/
def V2Payload.SameAs (p : V2Payload GoValue) (p' : V2Payload Decoded) : Prop :=
  p'.Summary = p.Summary ∧ p'.Source = p.Source ∧ p'.Severity = p.Severity ∧
  p'.Timestamp = p.Timestamp ∧ p'.Component = p.Component ∧ p'.Group = p.Group ∧
  p'.Class = p.Class ∧ JsonEq p.Details p'.Details

/-- Both payload pointers are nil, or both point to payloads with the same fields. -/
def payloadSameAs : Option (V2Payload GoValue) → Option (V2Payload Decoded) → Prop
  | none, none => True
  | some p, some p' => p.SameAs p'
  | _, _ => False

/-- Every field of the decoded event equals the field of the original. -/
def V2Event.SameAs (e : V2Event GoValue) (e' : V2Event Decoded) : Prop :=
  e'.RoutingKey = e.RoutingKey ∧ e'.Action = e.Action ∧ e'.DedupKey = e.DedupKey ∧
  e'.Images = e.Images ∧ e'.Links = e.Links ∧ e'.Client = e.Client ∧
  e'.ClientURL = e.ClientURL ∧ payloadSameAs e.Payload e'.Payload

/-- All optional fields of the event are populated. -/
def V2Event.Populated (e : V2Event GoValue) : Prop :=
  e.DedupKey ≠ "" ∧ e.Client ≠ "" ∧ e.ClientURL ≠ "" ∧ e.Images ≠ [] ∧ e.Links ≠ [] ∧
  ∃ p, e.Payload = some p ∧ p.Timestamp ≠ "" ∧ p.Component ≠ "" ∧ p.Group ≠ "" ∧
    p.Class ≠ "" ∧ p.Details ≠ .nil

/-- The custom details of the event, if it has a payload, round-trip within the nesting
the scanner allows below the event and payload objects. -/
def V2Event.DetailsRoundTrip (e : V2Event GoValue) : Prop :=
  ∀ p, e.Payload = some p → p.Details.RoundTrips (maxNestingDepth - 2)

/-- The value encodes to a scannable JSON value that decodes, without error, to a value
equal to it as JSON. -/
def EncodesFaithfully (v : GoValue) (depth : Nat) : Prop :=
  ∃ j, v.encode = .ok j ∧ j.Scannable depth ∧
    ∀ s f, (decodeInterface s f j).2 = none ∧ JsonEq v (decodeInterface s f j).1

/-- The elements encode to scannable JSON values that decode to values equal to them. -/
def ElemsEncodeFaithfully (xs : List GoValue) (depth : Nat) : Prop :=
  ∃ js, encodeElems xs = .ok js ∧ scannableElems depth js ∧
    ∀ s f, (decodeInterfaceElems s f js).2 = none ∧
      jsonEqElems xs (decodeInterfaceElems s f js).1

/-- The entries encode to scannable members that decode to entries equal to them. -/
def EntriesEncodeFaithfully (es : List (String × GoValue)) (depth : Nat) : Prop :=
  ∃ ms, sequenceMembers (encodeEntries es) = .ok ms ∧ scannableMembers depth ms ∧
    ∀ s f, (decodeInterfaceMembers s f ms).2 = none ∧
      jsonEqEntries es (decodeInterfaceMembers s f ms).1

/-- The members of a struct encode to scannable members that decode to a map holding
every member with an equal value, and no other key. -/
def FieldsEncodeFaithfully (fs : List (String × GoValue)) (depth : Nat) : Prop :=
  ∃ ms, sequenceMembers (encodeEntries fs) = .ok ms ∧ scannableMembers depth ms ∧
    ∀ s f, (decodeInterfaceMembers s f ms).2 = none ∧
      (decodeInterfaceMembers s f ms).1.length = fs.length ∧
      jsonEqFields fs (decodeInterfaceMembers s f ms).1 ∧
      ∀ k, k ∉ fs.map Prod.fst → lookupDecoded k (decodeInterfaceMembers s f ms).1 = none

/-! ## Sample values -/

/-- An acknowledgment body as the remote service writes it. -/
def sampleAckBody : List Char :=
  "\x7b\"routing_key\":\"R\",\"dedup_key\":\"D\",\"event_action\":\"trigger\"\x7d".data

/-- A trigger event without optional fields. -/
def sampleEvent : V2Event GoValue :=
  { RoutingKey := "key", Action := "trigger", DedupKey := "", Images := [], Links := [],
    Client := "", ClientURL := "", Payload := none }

/-- An event no validation would pass: empty routing key, unknown action, no payload. -/
def sampleInvalidEvent : V2Event GoValue :=
  { RoutingKey := "", Action := "explode", DedupKey := "", Images := [], Links := [],
    Client := "", ClientURL := "", Payload := none }

/-- An event whose custom details hold a channel, which has no JSON encoding. -/
def sampleUnencodableEvent : V2Event GoValue :=
  { RoutingKey := "key", Action := "trigger", DedupKey := "", Images := [], Links := [],
    Client := "", ClientURL := "",
    Payload := some
      { Summary := "s", Source := "src", Severity := "info", Timestamp := "",
        Component := "", Group := "", Class := "", Details := .unsupported "chan int" } }

/-- A transport that answers every request with the given status and body. -/
def answerWith (code : Int) (body : ResponseBody) : Request → Except GoError Response :=
  fun _ => .ok ⟨code, body⟩

/-- A transport that fails every request with the given error. -/
def failWith (t : GoError) : Request → Except GoError Response :=
  fun _ => .error t

/-- An event with every optional field populated and the given custom details. -/
def populatedEvent (details : GoValue) : V2Event GoValue :=
  { RoutingKey := "key", Action := "trigger", DedupKey := "dedup",
    Images := [⟨"https://example.com/a.png", "https://example.com", "graph"⟩],
    Links := [⟨"https://example.com/runbook", "runbook"⟩],
    Client := "monitor", ClientURL := "https://example.com/monitor",
    Payload := some
      { Summary := "disk <full>", Source := "host-1", Severity := "critical",
        Timestamp := "2020-01-01T00:00:00Z", Component := "disk", Group := "storage",
        Class := "capacity", Details := details } }

/-- Custom details with a map, a slice, a struct, a byte slice, strings, a boolean, nil,
integers (one of them `2^54`) and floats (1.5, the `float32` 1.25 and -0.25). -/
def sampleDetails : GoValue :=
  .map [("free", .int 0), ("limit", .int 18014398509481984),
    ("load", .float64 ⟨false, 3, -1⟩), ("load5", .float32 ⟨false, 5, -2⟩),
    ("mounts", .slice [.string "/", .string "/var\n", .nil, .bool true, .int (-17),
      .float64 ⟨true, 1, -2⟩]),
    ("owner", .struct [("team", .string "ops"), ("id", .int 7)]),
    ("token", .bytes [1, 2, 255, 64])]

/-- The decoded event for `populatedEvent` with the given decoded custom details. -/
def populatedDecoded (details : Decoded) : V2Event Decoded :=
  { RoutingKey := "key", Action := "trigger", DedupKey := "dedup",
    Images := [⟨"https://example.com/a.png", "https://example.com", "graph"⟩],
    Links := [⟨"https://example.com/runbook", "runbook"⟩],
    Client := "monitor", ClientURL := "https://example.com/monitor",
    Payload := some
      { Summary := "disk <full>", Source := "host-1", Severity := "critical",
        Timestamp := "2020-01-01T00:00:00Z", Component := "disk", Group := "storage",
        Class := "capacity", Details := details } }

/-- The text `json.Marshal` returns for an event, empty when it fails. -/
def marshalled (e : V2Event GoValue) : List Char :=
  match Marshal e with
  | .ok data => data
  | .error _ => []

/-- Slices nested `n + 1` deep, the innermost empty. -/
def nestedSlices : Nat → GoValue
  | 0 => .slice []
  | n + 1 => .slice [nestedSlices n]

/-- Arrays nested `n + 1` deep, the innermost empty. -/
def nestedArrays : Nat → Json
  | 0 => .array []
  | n + 1 => .array [nestedArrays n]

/-- The text of the members of an object that are followed by another member: each with
its comma. -/
def openMembers : List (String × Json) → List Char
  | [] => []
  | (k, v) :: ms => renderString k ++ ':' :: (v.render ++ ',' :: openMembers ms)

/-- The members `populatedEvent` is encoded to, without the payload. -/
def populatedEventMembers : List (String × Json) :=
  [("routing_key", .string "key"), ("event_action", .string "trigger"),
    ("dedup_key", .string "dedup"),
    ("images", .array [.object [("src", .string "https://example.com/a.png"),
      ("href", .string "https://example.com"), ("alt", .string "graph")]]),
    ("links", .array [.object [("href", .string "https://example.com/runbook"),
      ("text", .string "runbook")]]),
    ("client", .string "monitor"), ("client_url", .string "https://example.com/monitor")]

/-- The members the payload of `populatedEvent` is encoded to, without the custom
details. -/
def populatedPayloadMembers : List (String × Json) :=
  [("summary", .string "disk <full>"), ("source", .string "host-1"),
    ("severity", .string "critical"), ("timestamp", .string "2020-01-01T00:00:00Z"),
    ("component", .string "disk"), ("group", .string "storage"),
    ("class", .string "capacity")]

/-! ## Theorems -/

/-! ### The step budget of the scanner is never used up -/

section Lemmas

theorem skipSpace_length (l : List Char) : (skipSpace l).length ≤ l.length := by
  induction l with
  | nil => simp [skipSpace]
  | cons c cs ih =>
    simp only [skipSpace]
    split
    · simp only [List.length_cons]; omega
    · simp

theorem scanHex_length (n : Nat) : ∀ (acc : Nat) (input : List Char) (v : Nat)
    (rest : List Char), scanHex n acc input = .ok (v, rest) → rest.length ≤ input.length := by
  induction n with
  | zero =>
    intro acc input v rest h
    simp only [scanHex] at h
    cases h
    exact Nat.le_refl _
  | succ n ih =>
    intro acc input v rest h
    cases input with
    | nil => simp [scanHex] at h
    | cons c cs =>
      simp only [scanHex] at h
      split at h
      · cases h
      · have := ih _ _ _ _ h
        simp only [List.length_cons]; omega

theorem scanHex_ne_fuel (n : Nat) : ∀ (acc : Nat) (input : List Char),
    scanHex n acc input ≠ .error .fuel := by
  induction n with
  | zero => intro acc input h; simp [scanHex] at h
  | succ n ih =>
    intro acc input h
    cases input with
    | nil => simp [scanHex] at h
    | cons c cs =>
      simp only [scanHex] at h
      split at h
      · cases h
      · exact ih _ _ h

theorem getu4_length (input : List Char) (v : Nat) (rest : List Char)
    (h : getu4 input = some (v, rest)) : rest.length ≤ input.length := by
  unfold getu4 at h
  split at h
  · next rest0 =>
    split at h
    · next r hr =>
      cases h
      have := scanHex_length 4 0 rest0 v rest hr
      simp only [List.length_cons]; omega
    · cases h
  · cases h

theorem decodeEscapedRune_length (rr : Nat) (rest : List Char) :
    (decodeEscapedRune rr rest).2.length ≤ rest.length := by
  unfold decodeEscapedRune
  split
  · split
    · next rr1 rest1 hg =>
      have := getu4_length rest rr1 rest1 hg
      split
      · exact this
      · exact Nat.le_refl _
    · exact Nat.le_refl _
  · exact Nat.le_refl _

theorem scanEscape_length (input : List Char) (c : Char) (rest : List Char)
    (h : scanEscape input = .ok (c, rest)) : rest.length < input.length := by
  cases input with
  | nil => simp [scanEscape] at h
  | cons x xs =>
    simp only [scanEscape] at h
    split at h
    · split at h
      · cases h
      · next rr r1 hr =>
        simp only [Except.ok.injEq] at h
        have h1 := scanHex_length 4 0 xs rr r1 hr
        have h2 := decodeEscapedRune_length rr r1
        rw [h] at h2
        simp only [List.length_cons] at h2 ⊢; omega
    · repeat' split at h
      all_goals first
        | (cases h; simp)
        | cases h

theorem scanEscape_ne_fuel (input : List Char) : scanEscape input ≠ .error .fuel := by
  intro h
  cases input with
  | nil => simp [scanEscape] at h
  | cons x xs =>
    simp only [scanEscape] at h
    split at h
    · split at h
      · next e he =>
        cases h
        exact scanHex_ne_fuel _ _ _ he
      · cases h
    · repeat' split at h
      all_goals cases h

theorem scanString_length (fuel : Nat) : ∀ (input s rest : List Char),
    scanString fuel input = .ok (s, rest) → rest.length < input.length := by
  induction fuel with
  | zero => intro input s rest h; simp [scanString] at h
  | succ fuel ih =>
    intro input s rest h
    cases input with
    | nil => simp [scanString] at h
    | cons c cs =>
      simp only [scanString] at h
      split at h
      · cases h; simp
      · split at h
        · split at h
          · cases h
          · next ch r1 he =>
            have h1 := scanEscape_length cs ch r1 he
            split at h
            · cases h
            · next s1 r2 hs =>
              cases h
              have h2 := ih _ _ _ hs
              simp only [List.length_cons]; omega
        · split at h
          · cases h
          · split at h
            · cases h
            · next s1 r2 hs =>
              cases h
              have h2 := ih _ _ _ hs
              simp only [List.length_cons]; omega

theorem scanString_ne_fuel (fuel : Nat) : ∀ (input : List Char), input.length < fuel →
    scanString fuel input ≠ .error .fuel := by
  induction fuel with
  | zero => intro input h; omega
  | succ fuel ih =>
    intro input hlen h
    cases input with
    | nil => simp [scanString] at h
    | cons c cs =>
      simp only [List.length_cons] at hlen
      simp only [scanString] at h
      split at h
      · cases h
      · split at h
        · split at h
          · next e he =>
            cases h
            exact scanEscape_ne_fuel _ he
          · next ch r1 he =>
            have h1 := scanEscape_length cs ch r1 he
            split at h
            · next e hs =>
              cases h
              exact ih r1 (by omega) hs
            · cases h
        · split at h
          · cases h
          · split at h
            · next e hs =>
              cases h
              exact ih cs (by omega) hs
            · cases h

theorem takeDigits_length (l : List Char) : (takeDigits l).2.length ≤ l.length := by
  induction l with
  | nil => simp [takeDigits]
  | cons c cs ih =>
    simp only [takeDigits]
    split
    · simp only [List.length_cons]; omega
    · simp

theorem scanDigits_spec (context : String) (input : List Char) :
    scanDigits context input ≠ .error .fuel ∧
    ∀ ds rest, scanDigits context input = .ok (ds, rest) → rest.length < input.length := by
  cases input with
  | nil => simp [scanDigits]
  | cons c cs =>
    simp only [scanDigits]
    split
    · refine ⟨by simp, ?_⟩
      intro ds rest h
      cases h
      have := takeDigits_length cs
      simp only [List.length_cons]; omega
    · simp

theorem scanExponent_spec (input : List Char) :
    scanExponent input ≠ .error .fuel ∧
    ∀ ds rest, scanExponent input = .ok (ds, rest) → rest.length ≤ input.length := by
  cases input with
  | nil => simp [scanExponent]
  | cons c cs =>
    simp only [scanExponent]
    split
    · cases cs with
      | nil => simp
      | cons s cs1 =>
        simp only
        split
        · have hd := scanDigits_spec "in exponent of numeric literal" cs1
          split
          · next e he =>
            refine ⟨?_, by simp⟩
            intro h; cases h; exact hd.1 he
          · next ds r he =>
            refine ⟨by simp, ?_⟩
            intro ds' rest h
            cases h
            have := hd.2 _ _ he
            simp only [List.length_cons]; omega
        · have hd := scanDigits_spec "in exponent of numeric literal" (s :: cs1)
          split
          · next e he =>
            refine ⟨?_, by simp⟩
            intro h; cases h; exact hd.1 he
          · next ds r he =>
            refine ⟨by simp, ?_⟩
            intro ds' rest h
            cases h
            have := hd.2 _ _ he
            simp only [List.length_cons] at this ⊢; omega
    · simp

theorem scanFraction_spec (input : List Char) :
    scanFraction input ≠ .error .fuel ∧
    ∀ ds rest, scanFraction input = .ok (ds, rest) → rest.length ≤ input.length := by
  cases input with
  | nil => simp [scanFraction]
  | cons c cs =>
    simp only [scanFraction]
    split
    · have hd := scanDigits_spec "after decimal point in numeric literal" cs
      split
      · next e he =>
        refine ⟨?_, by simp⟩
        intro h; cases h; exact hd.1 he
      · next ds r he =>
        have hx := scanExponent_spec r
        have hr := hd.2 _ _ he
        split
        · next e hee =>
          refine ⟨?_, by simp⟩
          intro h; cases h; exact hx.1 hee
        · next ex r1 hee =>
          refine ⟨by simp, ?_⟩
          intro ds' rest h
          cases h
          have := hx.2 _ _ hee
          simp only [List.length_cons]; omega
    · exact scanExponent_spec (c :: cs)

theorem scanUnsigned_spec (input : List Char) :
    scanUnsigned input ≠ .error .fuel ∧
    ∀ ds rest, scanUnsigned input = .ok (ds, rest) → rest.length < input.length := by
  cases input with
  | nil => simp [scanUnsigned]
  | cons c cs =>
    simp only [scanUnsigned]
    split
    · have hf := scanFraction_spec cs
      split
      · next e he =>
        refine ⟨?_, by simp⟩
        intro h; cases h; exact hf.1 he
      · next t r he =>
        refine ⟨by simp, ?_⟩
        intro ds rest h
        cases h
        have := hf.2 _ _ he
        simp only [List.length_cons]; omega
    · split
      · have hf := scanFraction_spec (takeDigits cs).2
        have ht := takeDigits_length cs
        split
        · next e he =>
          refine ⟨?_, by simp⟩
          intro h; cases h; exact hf.1 he
        · next t r he =>
          refine ⟨by simp, ?_⟩
          intro ds rest h
          cases h
          have := hf.2 _ _ he
          simp only [List.length_cons]; omega
      · simp

theorem scanNumber_spec (input : List Char) :
    scanNumber input ≠ .error .fuel ∧
    ∀ ds rest, scanNumber input = .ok (ds, rest) → rest.length < input.length := by
  cases input with
  | nil => simp [scanNumber]
  | cons c cs =>
    simp only [scanNumber]
    split
    · have hu := scanUnsigned_spec cs
      split
      · next e he =>
        refine ⟨?_, by simp⟩
        intro h; cases h; exact hu.1 he
      · next t r he =>
        refine ⟨by simp, ?_⟩
        intro ds rest h
        cases h
        have := hu.2 _ _ he
        simp only [List.length_cons]; omega
    · exact scanUnsigned_spec (c :: cs)

theorem expectChars_spec (name : String) (expected : List Char) : ∀ input : List Char,
    expectChars name expected input ≠ .error .fuel ∧
    ∀ rest, expectChars name expected input = .ok rest → rest.length ≤ input.length := by
  induction expected with
  | nil => intro input; simp [expectChars]
  | cons e es ih =>
    intro input
    cases input with
    | nil => simp [expectChars]
    | cons c cs =>
      simp only [expectChars]
      split
      · refine ⟨(ih cs).1, ?_⟩
        intro rest h
        have := (ih cs).2 rest h
        simp only [List.length_cons]; omega
      · simp

end Lemmas

section Lemmas

/-- With a budget of more than twice the input length the scanner does not run out of
steps, and what it leaves after a value is shorter than its input. -/
theorem scan_budget (fuel : Nat) :
    (∀ (depth : Nat) (input : List Char),
      (∀ j rest, scanValue fuel depth input = .ok (j, rest) → rest.length < input.length) ∧
      (2 * input.length < fuel → scanValue fuel depth input ≠ .error .fuel)) ∧
    (∀ (depth : Nat) (input : List Char),
      (∀ ms rest, scanMembers fuel depth input = .ok (ms, rest) →
        rest.length < input.length) ∧
      (2 * input.length + 1 < fuel → scanMembers fuel depth input ≠ .error .fuel)) ∧
    (∀ (depth : Nat) (input : List Char),
      (∀ xs rest, scanElems fuel depth input = .ok (xs, rest) →
        rest.length < input.length) ∧
      (2 * input.length + 1 < fuel → scanElems fuel depth input ≠ .error .fuel)) := by
  induction fuel with
  | zero =>
    refine ⟨fun depth input => ⟨?_, ?_⟩, fun depth input => ⟨?_, ?_⟩,
      fun depth input => ⟨?_, ?_⟩⟩
    · intro j rest h; simp [scanValue] at h
    · intro h; omega
    · intro j rest h; simp [scanMembers] at h
    · intro h; omega
    · intro j rest h; simp [scanElems] at h
    · intro h; omega
  | succ fuel ih =>
    obtain ⟨ihv, ihm, ihe⟩ := ih
    refine ⟨fun depth input => ⟨?_, ?_⟩, fun depth input => ⟨?_, ?_⟩,
      fun depth input => ⟨?_, ?_⟩⟩
    · -- scanValue, what is left
      intro j rest h
      simp only [scanValue] at h
      split at h
      · cases h
      · next c cs heq =>
        have h1 := skipSpace_length input
        rw [heq] at h1
        simp only [List.length_cons] at h1
        split at h
        · split at h
          · cases h
          · split at h
            · cases h
            · next c1 cs1 heq2 =>
              have h2 := skipSpace_length cs
              rw [heq2] at h2
              simp only [List.length_cons] at h2
              split at h
              · cases h; omega
              · split at h
                · cases h
                · next ms r hm =>
                  cases h
                  have := (ihm (depth - 1) (c1 :: cs1)).1 _ _ hm
                  simp only [List.length_cons] at this; omega
        · split at h
          · split at h
            · cases h
            · split at h
              · cases h
              · next c1 cs1 heq2 =>
                have h2 := skipSpace_length cs
                rw [heq2] at h2
                simp only [List.length_cons] at h2
                split at h
                · cases h; omega
                · split at h
                  · cases h
                  · next xs r hm =>
                    cases h
                    have := (ihe (depth - 1) (c1 :: cs1)).1 _ _ hm
                    simp only [List.length_cons] at this; omega
          · split at h
            · split at h
              · cases h
              · next s r hs =>
                cases h
                have := scanString_length _ _ _ _ hs
                omega
            · split at h
              · split at h
                · cases h
                · next lit r hs =>
                  cases h
                  have := (scanNumber_spec (c :: cs)).2 _ _ hs
                  simp only [List.length_cons] at this; omega
              · split at h
                · split at h
                  · cases h
                  · next r hs =>
                    cases h
                    have := (expectChars_spec _ _ cs).2 _ hs
                    omega
                · split at h
                  · split at h
                    · cases h
                    · next r hs =>
                      cases h
                      have := (expectChars_spec _ _ cs).2 _ hs
                      omega
                  · split at h
                    · split at h
                      · cases h
                      · next r hs =>
                        cases h
                        have := (expectChars_spec _ _ cs).2 _ hs
                        omega
                    · cases h
    · -- scanValue, the budget
      intro hlen h
      simp only [scanValue] at h
      split at h
      · cases h
      · next c cs heq =>
        have h1 := skipSpace_length input
        rw [heq] at h1
        simp only [List.length_cons] at h1
        split at h
        · split at h
          · cases h
          · split at h
            · cases h
            · next c1 cs1 heq2 =>
              have h2 := skipSpace_length cs
              rw [heq2] at h2
              simp only [List.length_cons] at h2
              split at h
              · cases h
              · split at h
                · next e hm =>
                  cases h
                  exact (ihm (depth - 1) (c1 :: cs1)).2
                    (by simp only [List.length_cons]; omega) hm
                · cases h
        · split at h
          · split at h
            · cases h
            · split at h
              · cases h
              · next c1 cs1 heq2 =>
                have h2 := skipSpace_length cs
                rw [heq2] at h2
                simp only [List.length_cons] at h2
                split at h
                · cases h
                · split at h
                  · next e hm =>
                    cases h
                    exact (ihe (depth - 1) (c1 :: cs1)).2
                      (by simp only [List.length_cons]; omega) hm
                  · cases h
          · split at h
            · split at h
              · next e hs =>
                cases h
                exact scanString_ne_fuel _ _ (Nat.lt_succ_self _) hs
              · cases h
            · split at h
              · split at h
                · next e hs =>
                  cases h
                  exact (scanNumber_spec (c :: cs)).1 hs
                · cases h
              · split at h
                · split at h
                  · next e hs =>
                    cases h
                    exact (expectChars_spec _ _ cs).1 hs
                  · cases h
                · split at h
                  · split at h
                    · next e hs =>
                      cases h
                      exact (expectChars_spec _ _ cs).1 hs
                    · cases h
                  · split at h
                    · split at h
                      · next e hs =>
                        cases h
                        exact (expectChars_spec _ _ cs).1 hs
                      · cases h
                    · cases h
    · -- scanMembers, what is left
      intro ms rest h
      cases input with
      | nil => simp [scanMembers] at h
      | cons c cs =>
        simp only [scanMembers] at h
        split at h
        · split at h
          · cases h
          · next k r1 hs =>
            have h1 := scanString_length _ _ _ _ hs
            split at h
            · cases h
            · next c2 r2 heq2 =>
              have h2 := skipSpace_length r1
              rw [heq2] at h2
              simp only [List.length_cons] at h2
              split at h
              · split at h
                · cases h
                · next v r3 hv =>
                  have h3 := (ihv depth r2).1 _ _ hv
                  split at h
                  · cases h
                  · next c4 r4 heq4 =>
                    have h4 := skipSpace_length r3
                    rw [heq4] at h4
                    simp only [List.length_cons] at h4
                    split at h
                    · cases h
                      simp only [List.length_cons]; omega
                    · split at h
                      · split at h
                        · cases h
                        · next ms' r5 hm =>
                          cases h
                          have h5 := (ihm depth (skipSpace r4)).1 _ _ hm
                          have h6 := skipSpace_length r4
                          simp only [List.length_cons]; omega
                      · cases h
              · cases h
        · cases h
    · -- scanMembers, the budget
      intro hlen h
      cases input with
      | nil => simp [scanMembers] at h
      | cons c cs =>
        simp only [List.length_cons] at hlen
        simp only [scanMembers] at h
        split at h
        · split at h
          · next e hs =>
            cases h
            exact scanString_ne_fuel _ _ (Nat.lt_succ_self _) hs
          · next k r1 hs =>
            have h1 := scanString_length _ _ _ _ hs
            split at h
            · cases h
            · next c2 r2 heq2 =>
              have h2 := skipSpace_length r1
              rw [heq2] at h2
              simp only [List.length_cons] at h2
              split at h
              · split at h
                · next e hv =>
                  cases h
                  exact (ihv depth r2).2 (by omega) hv
                · next v r3 hv =>
                  have h3 := (ihv depth r2).1 _ _ hv
                  split at h
                  · cases h
                  · next c4 r4 heq4 =>
                    have h4 := skipSpace_length r3
                    rw [heq4] at h4
                    simp only [List.length_cons] at h4
                    split at h
                    · cases h
                    · split at h
                      · split at h
                        · next e hm =>
                          cases h
                          have h6 := skipSpace_length r4
                          exact (ihm depth (skipSpace r4)).2 (by omega) hm
                        · cases h
                      · cases h
              · cases h
        · cases h
    · -- scanElems, what is left
      intro xs rest h
      simp only [scanElems] at h
      split at h
      · cases h
      · next v r1 hv =>
        have h1 := (ihv depth input).1 _ _ hv
        split at h
        · cases h
        · next c2 r2 heq2 =>
          have h2 := skipSpace_length r1
          rw [heq2] at h2
          simp only [List.length_cons] at h2
          split at h
          · cases h; omega
          · split at h
            · split at h
              · cases h
              · next xs' r3 he =>
                cases h
                have := (ihe depth r2).1 _ _ he
                omega
            · cases h
    · -- scanElems, the budget
      intro hlen h
      simp only [scanElems] at h
      split at h
      · next e hv =>
        cases h
        exact (ihv depth input).2 (by omega) hv
      · next v r1 hv =>
        have h1 := (ihv depth input).1 _ _ hv
        split at h
        · cases h
        · next c2 r2 heq2 =>
          have h2 := skipSpace_length r1
          rw [heq2] at h2
          simp only [List.length_cons] at h2
          split at h
          · cases h
          · split at h
            · split at h
              · next e he =>
                cases h
                exact (ihe depth r2).2 (by omega) he
              · cases h
            · cases h

/-- Scanning a text never ends for lack of steps. -/
theorem scanFirst_ne_fuel (input : List Char) : scanFirst input ≠ .error .fuel :=
  ((scan_budget (2 * input.length + 1)).1 maxNestingDepth input).2 (Nat.lt_succ_self _)

end Lemmas


section Lemmas

theorem lookupKey_append (k : String) (xs ys : List (String × Json)) :
    lookupKey k (xs ++ ys) = (lookupKey k xs).orElse (fun _ => lookupKey k ys) := by
  induction xs with
  | nil => simp [lookupKey]
  | cons x xs ih =>
    obtain ⟨k', v⟩ := x
    by_cases h : k' = k <;> simp [lookupKey, h, ih]

theorem lookupKey_omitEmptyString (k key s : String) :
    lookupKey k (omitEmptyString key s) =
      if key = k ∧ s ≠ "" then some (.string s) else none := by
  unfold omitEmptyString
  by_cases hs : s = "" <;> by_cases hk : key = k <;> simp [lookupKey, hs, hk]

theorem lookupKey_encodeImages (k : String) (imgs : List V2EventImage) :
    lookupKey k (encodeImages imgs) =
      if "images" = k ∧ imgs ≠ [] then some (.array (imgs.map V2EventImage.encode))
      else none := by
  unfold encodeImages
  by_cases hs : imgs = [] <;> by_cases hk : "images" = k <;> simp [lookupKey, hs, hk]

theorem lookupKey_encodeLinks (k : String) (links : List V2EventLink) :
    lookupKey k (encodeLinks links) =
      if "links" = k ∧ links ≠ [] then some (.array (links.map V2EventLink.encode))
      else none := by
  unfold encodeLinks
  by_cases hs : links = [] <;> by_cases hk : "links" = k <;> simp [lookupKey, hs, hk]

end Lemmas

section Lemmas

theorem encodeDetails_ok (d : GoValue) (ms : List (String × Json))
    (h : encodeDetails d = .ok ms) :
    (d = .nil → ms = []) ∧
    (d ≠ .nil → ∃ dj, d.encode = .ok dj ∧ ms = [("custom_details", dj)]) := by
  cases d <;> simp only [encodeDetails] at h
  case nil => cases h; simp
  all_goals
    refine ⟨fun hd => (by cases hd), fun _ => ?_⟩
    split at h
    · cases h
    · next j hj => cases h; exact ⟨j, hj, rfl⟩

theorem encodeDetails_keys (d : GoValue) (ms : List (String × Json))
    (h : encodeDetails d = .ok ms) (k : String) (hk : "custom_details" ≠ k) :
    lookupKey k ms = none := by
  by_cases hd : d = .nil
  · rw [(encodeDetails_ok d ms h).1 hd]; rfl
  · obtain ⟨dj, _, rfl⟩ := (encodeDetails_ok d ms h).2 hd
    simp [lookupKey, hk]

theorem encodePayload_keys (p : Option (V2Payload GoValue)) (ms : List (String × Json))
    (h : encodePayload p = .ok ms) (k : String) (hk : "payload" ≠ k) :
    lookupKey k ms = none := by
  cases p with
  | none => simp only [encodePayload] at h; cases h; rfl
  | some p =>
    simp only [encodePayload] at h
    split at h
    · cases h
    · cases h; simp [lookupKey, hk]

theorem payload_encode_ok (p : V2Payload GoValue) (pj : Json) (h : p.encode = .ok pj) :
    ∃ pms, pj = .object pms ∧
      lookupKey "timestamp" pms =
        (if p.Timestamp = "" then none else some (.string p.Timestamp)) ∧
      lookupKey "component" pms =
        (if p.Component = "" then none else some (.string p.Component)) ∧
      lookupKey "group" pms = (if p.Group = "" then none else some (.string p.Group)) ∧
      lookupKey "class" pms = (if p.Class = "" then none else some (.string p.Class)) ∧
      (p.Details = .nil → lookupKey "custom_details" pms = none) ∧
      (p.Details ≠ .nil →
        ∃ dj, p.Details.encode = .ok dj ∧ lookupKey "custom_details" pms = some dj) := by
  unfold V2Payload.encode at h
  split at h
  · cases h
  · next details hd =>
    cases h
    obtain ⟨hnil, hset⟩ := encodeDetails_ok _ _ hd
    have hkeys := encodeDetails_keys _ _ hd
    refine ⟨_, rfl, ?_, ?_, ?_, ?_, ?_, ?_⟩
    · by_cases h1 : p.Timestamp = "" <;>
        simp [lookupKey, lookupKey_append, lookupKey_omitEmptyString, h1, hkeys]
    · by_cases h1 : p.Component = "" <;>
        simp [lookupKey, lookupKey_append, lookupKey_omitEmptyString, h1, hkeys]
    · by_cases h1 : p.Group = "" <;>
        simp [lookupKey, lookupKey_append, lookupKey_omitEmptyString, h1, hkeys]
    · by_cases h1 : p.Class = "" <;>
        simp [lookupKey, lookupKey_append, lookupKey_omitEmptyString, h1, hkeys]
    · intro hd0
      simp [lookupKey, lookupKey_append, lookupKey_omitEmptyString, hnil hd0]
    · intro hd0
      obtain ⟨dj, hdj, hms⟩ := hset hd0
      exact ⟨dj, hdj, by simp [lookupKey, lookupKey_append, lookupKey_omitEmptyString, hms]⟩

end Lemmas

/-- C1. Whenever `json.Marshal` succeeds on an event, its output is the text of an object
in which `dedup_key`, `client` and `client_url` occur exactly when the field is a
non-empty string (and then hold that string), `images` and `links` exactly when the list
is non-empty (and then hold the array of its encoded elements), and `payload` exactly when
the pointer is non-nil (and then holds an object). Inside the payload `timestamp`,
`component`, `group` and `class` occur exactly when non-empty, and `custom_details`
exactly when `Details` is not the nil interface; inside each image `href` and `alt` occur
exactly when non-empty. -/
theorem marshal_omits_unset_fields (e : V2Event GoValue) (data : List Char)
    (h : Marshal e = .ok data) :
    ∃ ms, e.encode = .ok (.object ms) ∧ data = (Json.object ms).render ∧
      lookupKey "dedup_key" ms =
        (if e.DedupKey = "" then none else some (.string e.DedupKey)) ∧
      lookupKey "images" ms =
        (if e.Images = [] then none
         else some (.array (e.Images.map V2EventImage.encode))) ∧
      lookupKey "links" ms =
        (if e.Links = [] then none else some (.array (e.Links.map V2EventLink.encode))) ∧
      lookupKey "client" ms = (if e.Client = "" then none else some (.string e.Client)) ∧
      lookupKey "client_url" ms =
        (if e.ClientURL = "" then none else some (.string e.ClientURL)) ∧
      (e.Payload = none → lookupKey "payload" ms = none) ∧
      (∀ p, e.Payload = some p →
        ∃ pms, lookupKey "payload" ms = some (.object pms) ∧
          lookupKey "timestamp" pms =
            (if p.Timestamp = "" then none else some (.string p.Timestamp)) ∧
          lookupKey "component" pms =
            (if p.Component = "" then none else some (.string p.Component)) ∧
          lookupKey "group" pms = (if p.Group = "" then none else some (.string p.Group)) ∧
          lookupKey "class" pms = (if p.Class = "" then none else some (.string p.Class)) ∧
          (p.Details = .nil → lookupKey "custom_details" pms = none) ∧
          (p.Details ≠ .nil →
            ∃ dj, p.Details.encode = .ok dj ∧ lookupKey "custom_details" pms = some dj)) ∧
      (∀ img ∈ e.Images, ∃ ims, img.encode = .object ims ∧
          lookupKey "href" ims = (if img.Href = "" then none else some (.string img.Href)) ∧
          lookupKey "alt" ims = (if img.Alt = "" then none else some (.string img.Alt))) := by
  unfold Marshal at h
  split at h
  · cases h
  · next j hj =>
    cases h
    unfold V2Event.encode at hj
    split at hj
    · cases hj
    · next payload hp =>
      cases hj
      have hkeys := encodePayload_keys _ _ hp
      refine ⟨_, by rw [V2Event.encode, hp], rfl, ?_, ?_, ?_, ?_, ?_, ?_, ?_, ?_⟩
      · by_cases h1 : e.DedupKey = "" <;>
          simp [lookupKey, lookupKey_append, lookupKey_omitEmptyString,
            lookupKey_encodeImages, lookupKey_encodeLinks, h1, hkeys]
      · by_cases h1 : e.Images = [] <;>
          simp [lookupKey, lookupKey_append, lookupKey_omitEmptyString,
            lookupKey_encodeImages, lookupKey_encodeLinks, h1, hkeys]
      · by_cases h1 : e.Links = [] <;>
          simp [lookupKey, lookupKey_append, lookupKey_omitEmptyString,
            lookupKey_encodeImages, lookupKey_encodeLinks, h1, hkeys]
      · by_cases h1 : e.Client = "" <;>
          simp [lookupKey, lookupKey_append, lookupKey_omitEmptyString,
            lookupKey_encodeImages, lookupKey_encodeLinks, h1, hkeys]
      · by_cases h1 : e.ClientURL = "" <;>
          simp [lookupKey, lookupKey_append, lookupKey_omitEmptyString,
            lookupKey_encodeImages, lookupKey_encodeLinks, h1, hkeys]
      · intro hnone
        rw [hnone] at hp
        simp only [encodePayload] at hp
        cases hp
        simp [lookupKey, lookupKey_append, lookupKey_omitEmptyString,
          lookupKey_encodeImages, lookupKey_encodeLinks]
      · intro p hsome
        rw [hsome] at hp
        simp only [encodePayload] at hp
        split at hp
        · cases hp
        · next pj hpj =>
          cases hp
          obtain ⟨pms, rfl, h1, h2, h3, h4, h5, h6⟩ := payload_encode_ok p pj hpj
          refine ⟨pms, ?_, h1, h2, h3, h4, h5, h6⟩
          simp [lookupKey, lookupKey_append, lookupKey_omitEmptyString,
            lookupKey_encodeImages, lookupKey_encodeLinks]
      · intro img _
        refine ⟨_, rfl, ?_, ?_⟩
        · by_cases h1 : img.Href = "" <;>
            simp [lookupKey, lookupKey_append, lookupKey_omitEmptyString, h1]
        · by_cases h1 : img.Alt = "" <;>
            simp [lookupKey, lookupKey_append, lookupKey_omitEmptyString, h1]

/-- An event with a non-empty dedup key and an image without link marshals to an object
that has `dedup_key` and `images` and no `links`, `client`, `client_url` or `payload`. -/
theorem marshal_omits_unset_fields_witness :
    ∃ data, Marshal { sampleEvent with DedupKey := "d", Images := [⟨"s", "", "alt"⟩] }
        = .ok data ∧
      data = ("\x7b\"routing_key\":\"key\",\"event_action\":\"trigger\",\"dedup_key\":\"d\"," ++
        "\"images\":[\x7b\"src\":\"s\",\"alt\":\"alt\"\x7d]\x7d").data ∧
      ∃ ms, data = (Json.object ms).render ∧ lookupKey "links" ms = none ∧
        lookupKey "payload" ms = none ∧ lookupKey "dedup_key" ms = some (.string "d") :=
  ⟨_, rfl, by decide,
    (marshal_omits_unset_fields { sampleEvent with DedupKey := "d", Images := [⟨"s", "", "alt"⟩] }
      _ rfl).elim fun ms hms =>
      ⟨ms, hms.2.1, by simpa [sampleEvent] using hms.2.2.2.2.1,
        hms.2.2.2.2.2.2.2.1 rfl, by simpa [sampleEvent] using hms.2.2.1⟩⟩

section Lemmas

theorem storeString_error (struct field cur : String) (v : Json) (e : GoError)
    (h : (storeString struct field cur v).2 = some e) :
    ∃ value, e = .unmarshalTypeError value "string" struct field := by
  cases v <;> simp [storeString] at h <;> exact ⟨_, h.symm⟩

theorem setField_error (r : V2EventResponse) (k : String) (v : Json) (e : GoError)
    (h : (r.setField k v).2 = some e) : ∃ value typ struct field,
      e = .unmarshalTypeError value typ struct field := by
  unfold V2EventResponse.setField at h
  simp only at h
  split at h
  · obtain ⟨value, hv⟩ := storeString_error _ _ _ _ _ h
    exact ⟨_, _, _, _, hv⟩
  · split at h
    · obtain ⟨value, hv⟩ := storeString_error _ _ _ _ _ h
      exact ⟨_, _, _, _, hv⟩
    · split at h
      · obtain ⟨value, hv⟩ := storeString_error _ _ _ _ _ h
        exact ⟨_, _, _, _, hv⟩
      · cases h

theorem decodeResponseMembers_error (ms : List (String × Json)) :
    ∀ (r : V2EventResponse) (e : GoError),
      (decodeMembers V2EventResponse.setField r ms).2 = some e →
      ∃ value typ struct field, e = .unmarshalTypeError value typ struct field := by
  induction ms with
  | nil => intro r e h; cases h
  | cons m ms ih =>
    intro r e h
    obtain ⟨k, v⟩ := m
    simp only [decodeMembers] at h
    cases h1 : (r.setField k v).2 with
    | some e1 =>
      rw [h1] at h
      simp only [firstError] at h
      cases h
      exact setField_error r k v _ h1
    | none =>
      rw [h1] at h
      simp only [firstError] at h
      exact ih _ _ h

theorem unmarshalResponse_error (j : Json) (e : GoError) (h : unmarshalResponse j = .error e) :
    ∃ value typ struct field, e = .unmarshalTypeError value typ struct field := by
  cases j <;> simp only [unmarshalResponse, notAnObject] at h
  case null => cases h
  case object ms =>
    split at h
    · cases h
    · next r e1 he =>
      cases h
      exact decodeResponseMembers_error ms _ _ (by rw [he])
  all_goals
    cases h
    exact ⟨_, _, _, _, rfl⟩

/-- The errors `Decode` returns on a body that is read to its end. -/
theorem decode_error_cases (b : List Char) (d : GoError)
    (h : Decode ⟨b, none⟩ = .error d) :
    (∃ value typ struct field, d = .unmarshalTypeError value typ struct field) ∨
    (∃ c context, d = invalidCharacter c context) ∨ d = EOF ∨ d = ErrUnexpectedEOF := by
  unfold Decode at h
  split at h
  · split at h
    · exact Or.inl (unmarshalResponse_error _ _ h)
    · exact Or.inl (unmarshalResponse_error _ _ h)
  · cases h; exact Or.inr (Or.inl ⟨_, _, rfl⟩)
  · simp only at h
    split at h
    · cases h; exact Or.inr (Or.inr (Or.inl rfl))
    · cases h; exact Or.inr (Or.inr (Or.inr rfl))
  · next hf => exact absurd hf (scanFirst_ne_fuel _)

theorem head_of_isPrefix (p l : List Char) (c : Char) (hp : p.head? = some c)
    (h : p <+: l) : l.head? = some c := by
  obtain ⟨t, rfl⟩ := h
  cases p with
  | nil => cases hp
  | cons x xs => simpa using hp

/-- No error of the decoder has a message of the form `HTTP Status Code: ...`. -/
theorem decode_error_not_status (b : List Char) (d : GoError)
    (h : Decode ⟨b, none⟩ = .error d) : ¬ ("HTTP Status Code: ".data <+: d.Error.data) := by
  intro hp
  have hh := head_of_isPrefix "HTTP Status Code: ".data _ 'H' rfl hp
  rcases decode_error_cases b d h with ⟨v, t, s, f, rfl⟩ | ⟨c, ctx, rfl⟩ | rfl | rfl
  · simp only [GoError.Error] at hh
    split at hh <;> simp [String.data_append] at hh
  · simp [GoError.Error, invalidCharacter, String.data_append] at hh
  · revert hh; decide
  · revert hh; decide

end Lemmas

/-- C3. On an event whose serialization succeeds, when the transport answers with status
202 and a body whose first JSON value is the object with the members `routing_key` = R,
`dedup_key` = D and `event_action` = A, `ManageEvent` returns a nil error and the response
with exactly these three values, whatever the event holds. (The compact text of that
object is such a body for all R, D, A: `acknowledgment_scans`.) -/
theorem manageEvent_accepted (Do : Request → Except GoError Response) (e : V2Event GoValue)
    (data : List Char) (hm : Marshal e = .ok data) (resp : Response)
    (hd : Do (buildRequest data) = .ok resp) (hs : resp.StatusCode = 202)
    (R D A : String) (rest : List Char)
    (hb : scanFirst resp.Body.data = .ok (.object [("routing_key", .string R),
      ("dedup_key", .string D), ("event_action", .string A)], rest)) :
    (ManageEvent Do e).err = none ∧
    (ManageEvent Do e).response = some { RoutingKey := R, DedupKey := D, EventAction := A } := by
  have hdec : Decode resp.Body = .ok { RoutingKey := R, DedupKey := D, EventAction := A } := by
    unfold Decode
    rw [hb]
    simp only [Json.isContainer, true_or, if_true]
    rfl
  simp [ManageEvent, hm, hd, hs, StatusAccepted, hdec]

/-- The sample event against a transport answering 202 with the sample acknowledgment. -/
theorem manageEvent_accepted_witness :
    (ManageEvent (answerWith 202 ⟨sampleAckBody, none⟩) sampleEvent).err = none ∧
    (ManageEvent (answerWith 202 ⟨sampleAckBody, none⟩) sampleEvent).response =
      some { RoutingKey := "R", DedupKey := "D", EventAction := "trigger" } :=
  manageEvent_accepted (answerWith 202 ⟨sampleAckBody, none⟩) sampleEvent _ rfl
    ⟨202, ⟨sampleAckBody, none⟩⟩ rfl rfl "R" "D" "trigger" [] rfl

/-- C4. On an event whose serialization succeeds, when the transport answers with a status
code other than 202 and a body that is read without error, `ManageEvent` returns a nil
response and the error whose message is exactly `HTTP Status Code: <c>, Message: <b>`; the
message contains the decimal rendering of the code and the text of the body, and the body
is not decoded. -/
theorem manageEvent_status_error (Do : Request → Except GoError Response)
    (e : V2Event GoValue) (data : List Char) (hm : Marshal e = .ok data) (resp : Response)
    (hd : Do (buildRequest data) = .ok resp) (hs : resp.StatusCode ≠ 202)
    (b : List Char) (hb : ReadAll resp.Body = .ok b) :
    (ManageEvent Do e).response = none ∧
    (ManageEvent Do e).err = some (statusMessageError resp.StatusCode b) ∧
    (statusMessageError resp.StatusCode b).Error =
      "HTTP Status Code: " ++ String.mk (formatInt resp.StatusCode) ++ ", Message: " ++
        String.mk b ∧
    (∃ pre post, (statusMessageError resp.StatusCode b).Error.data =
      pre ++ formatInt resp.StatusCode ++ post) ∧
    (∃ pre post, (statusMessageError resp.StatusCode b).Error.data = pre ++ b ++ post) := by
  refine ⟨?_, ?_, rfl, ?_, ?_⟩
  · simp [ManageEvent, hm, hd, hs, StatusAccepted, hb]
  · simp [ManageEvent, hm, hd, hs, StatusAccepted, hb]
  · exact ⟨"HTTP Status Code: ".data, ", Message: ".data ++ b, by
      simp [statusMessageError, GoError.Error, String.data_append]⟩
  · exact ⟨"HTTP Status Code: ".data ++ formatInt resp.StatusCode ++ ", Message: ".data, [], by
      simp [statusMessageError, GoError.Error, String.data_append]⟩

/-- The sample event against a transport answering 400 with the body `invalid event`, and
against one answering 200 with a well-formed acknowledgment. -/
theorem manageEvent_status_error_witness :
    ((ManageEvent (answerWith 400 ⟨"invalid event".data, none⟩) sampleEvent).err =
      some (.errorString "HTTP Status Code: 400, Message: invalid event")) ∧
    (ManageEvent (answerWith 200 ⟨sampleAckBody, none⟩) sampleEvent).response = none :=
  ⟨(manageEvent_status_error (answerWith 400 ⟨"invalid event".data, none⟩) sampleEvent _ rfl
      ⟨400, ⟨"invalid event".data, none⟩⟩ rfl (by decide) _ rfl).2.1,
   (manageEvent_status_error (answerWith 200 ⟨sampleAckBody, none⟩) sampleEvent _ rfl
      ⟨200, ⟨sampleAckBody, none⟩⟩ rfl (by decide) _ rfl).1⟩

/-- C5. On an event whose serialization succeeds, when the transport answers with status
202 and a body, read to its end, that the decoder rejects with error `d`, `ManageEvent`
returns a nil response and `d` itself; `d` is none of the errors built for a status other
than 202 and its message does not start with `HTTP Status Code: `. -/
theorem manageEvent_decode_error (Do : Request → Except GoError Response)
    (e : V2Event GoValue) (data : List Char) (hm : Marshal e = .ok data) (resp : Response)
    (hd : Do (buildRequest data) = .ok resp) (hs : resp.StatusCode = 202)
    (b : List Char) (hb : resp.Body = ⟨b, none⟩) (d : GoError)
    (hdec : Decode resp.Body = .error d) :
    (ManageEvent Do e).response = none ∧ (ManageEvent Do e).err = some d ∧
    (∀ c, d ≠ statusError c) ∧ (∀ c m, d ≠ statusMessageError c m) ∧
    ¬ ("HTTP Status Code: ".data <+: d.Error.data) := by
  have hnot : ¬ ("HTTP Status Code: ".data <+: d.Error.data) :=
    decode_error_not_status b d (by rw [← hb]; exact hdec)
  refine ⟨?_, ?_, ?_, ?_, hnot⟩
  · simp [ManageEvent, hm, hd, hs, StatusAccepted, hdec]
  · simp [ManageEvent, hm, hd, hs, StatusAccepted, hdec]
  · intro c hc
    apply hnot
    rw [hc]
    exact ⟨formatInt c, by simp [statusError, GoError.Error, String.data_append]⟩
  · intro c m hc
    apply hnot
    rw [hc]
    exact ⟨formatInt c ++ ", Message: ".data ++ m, by
      simp [statusMessageError, GoError.Error, String.data_append]⟩

/-- The sample event against a transport answering 202 with a body that is not JSON. -/
theorem manageEvent_decode_error_witness :
    (ManageEvent (answerWith 202 ⟨"not json".data, none⟩) sampleEvent).response = none ∧
    (ManageEvent (answerWith 202 ⟨"not json".data, none⟩) sampleEvent).err =
      some (.syntaxError "invalid character 'o' in literal null (expecting 'u')") :=
  ⟨(manageEvent_decode_error (answerWith 202 ⟨"not json".data, none⟩) sampleEvent _ rfl
      ⟨202, ⟨"not json".data, none⟩⟩ rfl rfl _ rfl _ rfl).1,
   (manageEvent_decode_error (answerWith 202 ⟨"not json".data, none⟩) sampleEvent _ rfl
      ⟨202, ⟨"not json".data, none⟩⟩ rfl rfl _ rfl _ rfl).2.1⟩

/-- C6. When serialization of the event fails with error `err`, `ManageEvent` returns a nil
response and `err`, and hands no request to the transport. -/
theorem manageEvent_marshal_error (Do : Request → Except GoError Response)
    (e : V2Event GoValue) (err : GoError) (hm : Marshal e = .error err) :
    (ManageEvent Do e).response = none ∧ (ManageEvent Do e).err = some err ∧
    (ManageEvent Do e).calls = [] := by
  simp [ManageEvent, hm]

/-- An event whose custom details hold a channel fails to serialize with an unsupported
type error, which `ManageEvent` returns without calling the transport. -/
theorem manageEvent_marshal_error_witness :
    Marshal sampleUnencodableEvent = .error (.unsupportedType "chan int") ∧
    (ManageEvent (answerWith 202 ⟨sampleAckBody, none⟩) sampleUnencodableEvent).err =
      some (.unsupportedType "chan int") ∧
    (ManageEvent (answerWith 202 ⟨sampleAckBody, none⟩) sampleUnencodableEvent).calls = [] :=
  ⟨rfl, (manageEvent_marshal_error (answerWith 202 ⟨sampleAckBody, none⟩)
    sampleUnencodableEvent _ rfl).2⟩

/-- C7, as stated, fails: on an event whose custom details cannot be serialized
`ManageEvent` returns before it builds a request, so `http.DefaultClient.Do` is not called
and no network call is made: zero, not one. -/
theorem manageEvent_calls_counterexample :
    ¬ (∀ (Do : Request → Except GoError Response) (e : V2Event GoValue),
        (ManageEvent Do e).calls.length = 1) := by
  intro h
  have h0 := h (answerWith 202 ⟨sampleAckBody, none⟩) sampleUnencodableEvent
  revert h0
  decide

/-- The requests handed to the transport: the one built from the serialized event, or none
when serialization fails. -/
theorem manageEvent_calls_eq (Do : Request → Except GoError Response) (e : V2Event GoValue) :
    (ManageEvent Do e).calls =
      match Marshal e with
      | .ok data => [buildRequest data]
      | .error _ => [] := by
  unfold ManageEvent
  cases hm : Marshal e with
  | error err => rfl
  | ok data =>
    simp only
    cases hd : Do (buildRequest data) with
    | error t => rfl
    | ok resp =>
      simp only
      split
      · split <;> rfl
      · split <;> rfl

/-- C7, amended. Every invocation of `ManageEvent` calls `http.DefaultClient.Do` at most
once, and not again after a failure: exactly once, with the request built from the
serialized event, when serialization succeeds, whatever `Do` returns, and not at all when
serialization fails. The requests the client itself sends within one call of `Do`, as when
it follows a redirect, are not counted. -/
theorem manageEvent_calls (Do : Request → Except GoError Response) (e : V2Event GoValue) :
    (ManageEvent Do e).calls.length ≤ 1 ∧
    (∀ data, Marshal e = .ok data → (ManageEvent Do e).calls = [buildRequest data]) ∧
    (∀ err, Marshal e = .error err → (ManageEvent Do e).calls = []) := by
  have h := manageEvent_calls_eq Do e
  refine ⟨?_, ?_, ?_⟩
  · rw [h]; split <;> simp
  · intro data hm; rw [h, hm]
  · intro err hm; rw [h, hm]

/-- C8. On every event whose serialization succeeds, whatever it holds, `ManageEvent` hands
the transport one request with method POST, the fixed endpoint URL, the single header
`Content-Type: application/json` and the serialized event as its body. -/
theorem manageEvent_request (Do : Request → Except GoError Response) (e : V2Event GoValue)
    (data : List Char) (hm : Marshal e = .ok data) :
    ∃ req, (ManageEvent Do e).calls = [req] ∧ req.Method = "POST" ∧
      req.URL = "https://events.pagerduty.com/v2/enqueue" ∧
      req.Header = [("Content-Type", "application/json")] ∧ req.Body = data :=
  ⟨buildRequest data, by rw [manageEvent_calls_eq, hm], rfl, rfl, rfl, rfl⟩

/-- An event with empty routing key, an unknown action and no payload is serialized and
posted like any other. -/
theorem manageEvent_request_witness :
    ∃ req, (ManageEvent (failWith (.other "timeout")) sampleInvalidEvent).calls = [req] ∧
      req.Method = "POST" ∧ req.URL = "https://events.pagerduty.com/v2/enqueue" ∧
      req.Header = [("Content-Type", "application/json")] ∧
      req.Body = "\x7b\"routing_key\":\"\",\"event_action\":\"explode\"\x7d".data :=
  manageEvent_request (failWith (.other "timeout")) sampleInvalidEvent
    "\x7b\"routing_key\":\"\",\"event_action\":\"explode\"\x7d".data rfl

/-- C9. On an event whose serialization succeeds, when the transport fails with error `t`,
`ManageEvent` returns a nil response and `t` itself, having called the transport once. -/
theorem manageEvent_transport_error (Do : Request → Except GoError Response)
    (e : V2Event GoValue) (data : List Char) (hm : Marshal e = .ok data) (t : GoError)
    (hd : Do (buildRequest data) = .error t) :
    (ManageEvent Do e).response = none ∧ (ManageEvent Do e).err = some t ∧
    (ManageEvent Do e).calls = [buildRequest data] := by
  simp [ManageEvent, hm, hd]

/-- The sample event against a transport that times out. -/
theorem manageEvent_transport_error_witness :
    (ManageEvent (failWith (.other "timeout")) sampleEvent).response = none ∧
    (ManageEvent (failWith (.other "timeout")) sampleEvent).err = some (.other "timeout") ∧
    (ManageEvent (failWith (.other "timeout")) sampleEvent).calls.length = 1 :=
  ⟨(manageEvent_transport_error (failWith (.other "timeout")) sampleEvent _ rfl
      (.other "timeout") rfl).1,
   (manageEvent_transport_error (failWith (.other "timeout")) sampleEvent _ rfl
      (.other "timeout") rfl).2.1, rfl⟩

/-- C10. On an event whose serialization succeeds, when the transport answers with a
status code other than 202 and reading the body fails, `ManageEvent` returns a nil response
and the error whose message is exactly `HTTP Status Code: <c>`; the read error is not
returned. -/
theorem manageEvent_unreadable_body (Do : Request → Except GoError Response)
    (e : V2Event GoValue) (data : List Char) (hm : Marshal e = .ok data) (resp : Response)
    (hd : Do (buildRequest data) = .ok resp) (hs : resp.StatusCode ≠ 202)
    (readErr : GoError) (hb : ReadAll resp.Body = .error readErr) :
    (ManageEvent Do e).response = none ∧
    (ManageEvent Do e).err = some (statusError resp.StatusCode) ∧
    (statusError resp.StatusCode).Error =
      "HTTP Status Code: " ++ String.mk (formatInt resp.StatusCode) := by
  simp [ManageEvent, hm, hd, hs, StatusAccepted, hb, statusError, GoError.Error]

/-- The sample event against a transport answering 500 with a body whose read fails. -/
theorem manageEvent_unreadable_body_witness :
    (ManageEvent (answerWith 500 ⟨"partial".data, some (.other "connection reset")⟩)
      sampleEvent).response = none ∧
    (ManageEvent (answerWith 500 ⟨"partial".data, some (.other "connection reset")⟩)
      sampleEvent).err = some (.errorString "HTTP Status Code: 500") :=
  ⟨(manageEvent_unreadable_body
      (answerWith 500 ⟨"partial".data, some (.other "connection reset")⟩) sampleEvent _ rfl
      ⟨500, ⟨"partial".data, some (.other "connection reset")⟩⟩ rfl (by decide)
      (.other "connection reset") rfl).1,
   (manageEvent_unreadable_body
      (answerWith 500 ⟨"partial".data, some (.other "connection reset")⟩) sampleEvent _ rfl
      ⟨500, ⟨"partial".data, some (.other "connection reset")⟩⟩ rfl (by decide)
      (.other "connection reset") rfl).2.1⟩

/-! ### Scanning back what `json.Marshal` wrote -/

section Lemmas

theorem hexValue_hexDigit (k : Nat) (h : k < 16) : hexValue (hexDigit k) = some k := by
  interval_cases k <;> rfl

theorem scanHex_escape (n : Nat) (h : n < 256) (tail : List Char) :
    scanHex 4 0 ('0' :: '0' :: hexDigit (n / 16) :: hexDigit (n % 16) :: tail) =
      .ok (n, tail) := by
  have h0 : hexValue '0' = some 0 := rfl
  have h1 : hexValue (hexDigit (n / 16)) = some (n / 16) := hexValue_hexDigit _ (by omega)
  have h2 : hexValue (hexDigit (n % 16)) = some (n % 16) := hexValue_hexDigit _ (by omega)
  simp only [scanHex, h0, h1, h2]
  congr 2
  omega

theorem scanString_backslash (fuel : Nat) (x c : Char) (cs tail : List Char)
    (h : scanEscape (x :: cs) = .ok (c, tail)) :
    scanString (fuel + 1) ('\\' :: x :: cs) =
      match scanString fuel tail with
      | .error e => .error e
      | .ok (s, r) => .ok (c :: s, r) := by
  simp [scanString, h]

theorem scanString_escapeChar (c : Char) (fuel : Nat) (tail : List Char) :
    scanString (fuel + 1) (escapeChar c ++ tail) =
      match scanString fuel tail with
      | .error e => .error e
      | .ok (s, r) => .ok (c :: s, r) := by
  unfold escapeChar
  by_cases h1 : c = '"'
  · subst h1; exact scanString_backslash _ _ _ _ _ (by simp [scanEscape])
  by_cases h2 : c = '\\'
  · subst h2; exact scanString_backslash _ _ _ _ _ (by simp [scanEscape])
  by_cases h3 : c = '\x08'
  · subst h3; exact scanString_backslash _ _ _ _ _ (by simp [scanEscape])
  by_cases h4 : c = '\x0c'
  · subst h4; exact scanString_backslash _ _ _ _ _ (by simp [scanEscape])
  by_cases h5 : c = '\n'
  · subst h5; exact scanString_backslash _ _ _ _ _ (by simp [scanEscape])
  by_cases h6 : c = '\r'
  · subst h6; exact scanString_backslash _ _ _ _ _ (by simp [scanEscape])
  by_cases h7 : c = '\t'
  · subst h7; exact scanString_backslash _ _ _ _ _ (by simp [scanEscape])
  simp only [h1, h2, h3, h4, h5, h6, h7, if_false]
  by_cases h8 : c.toNat < 32 ∨ c = '<' ∨ c = '>' ∨ c = '&'
  · have hn : c.toNat < 256 := by
      rcases h8 with h | h | h | h
      · omega
      · subst h; decide
      · subst h; decide
      · subst h; decide
    have hne : ¬ (0xD800 ≤ c.toNat ∧ c.toNat < 0xE000) := by omega
    rw [if_pos h8]
    refine scanString_backslash _ _ _ _ _ ?_
    simp [scanEscape, scanHex_escape c.toNat hn, decodeEscapedRune, hne, Char.ofNat_toNat]
  rw [if_neg h8]
  by_cases h9 : c = '\u2028'
  · subst h9; exact scanString_backslash _ _ _ _ _ (by rfl)
  by_cases h10 : c = '\u2029'
  · subst h10; exact scanString_backslash _ _ _ _ _ (by rfl)
  have hlt : ¬ c.toNat < 32 := fun h => h8 (Or.inl h)
  simp [scanString, h1, h2, h9, h10, hlt]

theorem escapeChar_length (c : Char) : 1 ≤ (escapeChar c).length := by
  unfold escapeChar
  repeat' split
  all_goals exact Nat.succ_le_succ (Nat.zero_le _)

theorem escapeChars_length (s : List Char) : s.length ≤ (escapeChars s).length := by
  induction s with
  | nil => simp [escapeChars]
  | cons c cs ih =>
    have := escapeChar_length c
    simp only [escapeChars, List.length_append, List.length_cons]
    omega

theorem scanString_escapeChars (s : List Char) :
    ∀ (fuel : Nat) (tail : List Char), s.length < fuel →
      scanString fuel (escapeChars s ++ '"' :: tail) = .ok (s, tail) := by
  induction s with
  | nil =>
    intro fuel tail h
    obtain ⟨f, rfl⟩ : ∃ f, fuel = f + 1 := ⟨fuel - 1, by omega⟩
    simp [escapeChars, scanString]
  | cons c cs ih =>
    intro fuel tail h
    obtain ⟨f, rfl⟩ : ∃ f, fuel = f + 1 := ⟨fuel - 1, by omega⟩
    simp only [escapeChars, List.append_assoc]
    rw [scanString_escapeChar, ih f tail (by simpa using h)]

/-- Scanning a rendered string literal gives the string back. -/
theorem scanString_renderString (s : String) (tail : List Char) (fuel : Nat)
    (h : (escapeChars s.data ++ '"' :: tail).length < fuel) :
    scanString fuel (escapeChars s.data ++ '"' :: tail) = .ok (s.data, tail) := by
  apply scanString_escapeChars
  have := escapeChars_length s.data
  simp only [List.length_append, List.length_cons] at h
  omega

end Lemmas

section Lemmas

theorem isDigit_iff (c : Char) : isDigit c = true ↔ 48 ≤ c.toNat ∧ c.toNat ≤ 57 := by
  simp [isDigit]

theorem digitChar_toNat (d : Nat) (h : d < 10) : (digitChar d).toNat = 48 + d := by
  interval_cases d <;> rfl

theorem isDigit_digitChar (d : Nat) (h : d < 10) : isDigit (digitChar d) = true := by
  rw [isDigit_iff, digitChar_toNat d h]; omega

theorem digitChar_eq_zero (d : Nat) (h : d < 10) (h0 : digitChar d = '0') : d = 0 := by
  have := digitChar_toNat d h
  rw [h0] at this
  have h48 : ('0' : Char).toNat = 48 := rfl
  omega

theorem digitsValue_snoc (l : List Char) (x : Char) :
    digitsValue (l ++ [x]) = 10 * digitsValue l + (x.toNat - 48) := by
  simp [digitsValue, List.foldl_append]

/-- The shape of a rendered natural number: digits only, a leading zero only for zero
itself, and the digits denote the number. -/
theorem formatNatAux_spec (fuel : Nat) : ∀ (n : Nat) (acc : List Char), n ≤ fuel →
    ∃ d ds, formatNatAux fuel n acc = d :: (ds ++ acc) ∧ isDigit d = true ∧
      (∀ c ∈ ds, isDigit c = true) ∧ (d = '0' → n = 0 ∧ ds = []) ∧
      digitsValue (d :: ds) = n := by
  induction fuel with
  | zero =>
    intro n acc h
    have hn : n = 0 := by omega
    subst hn
    exact ⟨'0', [], rfl, rfl, by simp, fun _ => ⟨rfl, rfl⟩, rfl⟩
  | succ fuel ih =>
    intro n acc h
    by_cases h10 : n < 10
    · refine ⟨digitChar n, [], by simp [formatNatAux, h10], isDigit_digitChar n h10, by simp,
        fun h0 => ⟨digitChar_eq_zero n h10 h0, rfl⟩, ?_⟩
      simp [digitsValue, digitChar_toNat n h10]
    · obtain ⟨d, ds, hf, hd, hds, h0, hv⟩ :=
        ih (n / 10) (digitChar (n % 10) :: acc) (by omega)
      have hmod : n % 10 < 10 := Nat.mod_lt _ (by decide)
      refine ⟨d, ds ++ [digitChar (n % 10)], ?_, hd, ?_, ?_, ?_⟩
      · simp [formatNatAux, h10, hf]
      · intro c hc
        rcases List.mem_append.mp hc with hc | hc
        · exact hds c hc
        · rw [List.mem_singleton.mp hc]; exact isDigit_digitChar _ hmod
      · intro hz
        have := (h0 hz).1
        omega
      · have : d :: (ds ++ [digitChar (n % 10)]) = (d :: ds) ++ [digitChar (n % 10)] := rfl
        rw [this, digitsValue_snoc, hv, digitChar_toNat _ hmod]
        omega

theorem formatNat_spec (n : Nat) :
    ∃ d ds, formatNat n = d :: ds ∧ isDigit d = true ∧
      (∀ c ∈ ds, isDigit c = true) ∧ (d = '0' → n = 0 ∧ ds = []) ∧
      digitsValue (d :: ds) = n := by
  obtain ⟨d, ds, hf, h⟩ := formatNatAux_spec n n [] (Nat.le_refl n)
  exact ⟨d, ds, by simpa [formatNat] using hf, h⟩

theorem takeDigits_append (ds tail : List Char) (hds : ∀ c ∈ ds, isDigit c = true)
    (ht : ∀ c, tail.head? = some c → isDigit c = false) :
    takeDigits (ds ++ tail) = (ds, tail) := by
  induction ds with
  | nil =>
    cases tail with
    | nil => rfl
    | cons c cs => simp [takeDigits, ht c rfl]
  | cons d ds ih =>
    have hd := hds d (List.mem_cons_self _ _)
    have := ih (fun c hc => hds c (List.mem_cons_of_mem _ hc))
    simp [takeDigits, hd, this]

theorem scanFraction_end (tail : List Char) (h : EndsNumber tail) :
    scanFraction tail = .ok ([], tail) := by
  cases tail with
  | nil => rfl
  | cons c cs =>
    obtain ⟨_, h1, h2, h3⟩ := h c rfl
    simp [scanFraction, scanExponent, h1, h2, h3]

theorem scanUnsigned_formatNat (n : Nat) (tail : List Char) (h : EndsNumber tail) :
    scanUnsigned (formatNat n ++ tail) = .ok (formatNat n, tail) := by
  obtain ⟨d, ds, hf, hd, hds, h0, _⟩ := formatNat_spec n
  rw [hf]
  by_cases hz : d = '0'
  · obtain ⟨_, rfl⟩ := h0 hz
    subst hz
    simp [scanUnsigned, scanFraction_end tail h]
  · have ht : takeDigits (ds ++ tail) = (ds, tail) :=
      takeDigits_append ds tail hds (fun c hc => (h c hc).1)
    simp [scanUnsigned, hz, hd, ht, scanFraction_end tail h]

theorem scanNumber_formatInt (i : Int) (tail : List Char) (h : EndsNumber tail) :
    scanNumber (formatInt i ++ tail) = .ok (formatInt i, tail) := by
  cases i with
  | ofNat n =>
    obtain ⟨d, ds, hf, hd, _⟩ := formatNat_spec n
    have hne : d ≠ '-' := by
      intro hm; subst hm; exact absurd hd (by decide)
    have := scanUnsigned_formatNat n tail h
    simp only [formatInt]
    rw [hf] at this ⊢
    simp only [List.cons_append, scanNumber, hne, if_false]
    exact this
  | negSucc n =>
    simp [formatInt, scanNumber, scanUnsigned_formatNat (n + 1) tail h]

/-- The first character of a rendered integer: a minus sign or a digit. -/
theorem formatInt_head (i : Int) :
    ∃ c cs, formatInt i = c :: cs ∧ (c = '-' ∨ isDigit c = true) := by
  cases i with
  | ofNat n =>
    obtain ⟨d, ds, hf, hd, _⟩ := formatNat_spec n
    exact ⟨d, ds, hf, Or.inr hd⟩
  | negSucc n => exact ⟨'-', _, rfl, Or.inl rfl⟩

end Lemmas

section Lemmas

theorem skipSpace_cons (c : Char) (cs : List Char) (h : isSpace c = false) :
    skipSpace (c :: cs) = c :: cs := by
  simp [skipSpace, h]

theorem isDigit_ne (c : Char) (h : isDigit c = true) :
    isSpace c = false ∧ c ≠ '{' ∧ c ≠ '[' ∧ c ≠ '"' ∧ c ≠ ']' ∧ c ≠ '}' := by
  rw [isDigit_iff] at h
  refine ⟨?_, ?_, ?_, ?_, ?_, ?_⟩
  · simp only [isSpace, Bool.or_eq_false_iff, decide_eq_false_iff_not]
    refine ⟨⟨⟨?_, ?_⟩, ?_⟩, ?_⟩ <;> (intro hc; subst hc; revert h; decide)
  all_goals (intro hc; subst hc; revert h; decide)

/-- The first character of a rendered value opens a value. -/
theorem render_head (j : Json) (depth : Nat) (h : j.Scannable depth) :
    ∃ c cs, j.render = c :: cs ∧ isSpace c = false ∧ c ≠ ']' ∧ c ≠ '}' := by
  cases j with
  | null => exact ⟨_, _, rfl, by decide, by decide, by decide⟩
  | bool b => cases b <;> exact ⟨_, _, rfl, by decide, by decide, by decide⟩
  | number lit =>
    obtain ⟨⟨c, cs, hf, hc⟩, _⟩ := h
    refine ⟨c, cs, by simpa [Json.render] using hf, ?_⟩
    rcases hc with rfl | hd
    · exact ⟨by decide, by decide, by decide⟩
    · exact ⟨(isDigit_ne c hd).1, (isDigit_ne c hd).2.2.2.2.1, (isDigit_ne c hd).2.2.2.2.2⟩
  | string s => exact ⟨_, _, rfl, by decide, by decide, by decide⟩
  | array xs => cases xs <;> exact ⟨_, _, rfl, by decide, by decide, by decide⟩
  | object ms =>
    cases ms with
    | nil => exact ⟨_, _, rfl, by decide, by decide, by decide⟩
    | cons m ms => exact ⟨_, _, rfl, by decide, by decide, by decide⟩

theorem endsNumber_cons (c : Char) (cs : List Char)
    (h : isDigit c = false ∧ c ≠ '.' ∧ c ≠ 'e' ∧ c ≠ 'E') : EndsNumber (c :: cs) := by
  intro c' hc'
  simp only [List.head?_cons, Option.some.injEq] at hc'
  subst hc'
  exact h

theorem endsNumber_nil : EndsNumber [] := by
  intro c hc; cases hc

theorem endsNumber_renderElems (xs : List Json) (tail : List Char) :
    EndsNumber (renderElems xs ++ tail) := by
  cases xs with
  | nil => exact endsNumber_cons _ _ (by decide)
  | cons x xs => exact endsNumber_cons _ _ (by decide)

theorem endsNumber_renderMembers (ms : List (String × Json)) (tail : List Char) :
    EndsNumber (renderMembers ms ++ tail) := by
  cases ms with
  | nil => exact endsNumber_cons _ _ (by decide)
  | cons m ms => exact endsNumber_cons _ _ (by decide)

theorem scanString_key (k : String) (tail : List Char) :
    scanString ((escapeChars k.data ++ '"' :: tail).length + 1)
      (escapeChars k.data ++ '"' :: tail) = .ok (k.data, tail) :=
  scanString_renderString k tail _ (Nat.lt_succ_self _)

theorem scanValue_scalar_string (fuel depth : Nat) (s : String) (tail : List Char) :
    scanValue (fuel + 1) depth ((Json.string s).render ++ tail) = .ok (.string s, tail) := by
  have h : (Json.string s).render ++ tail = '"' :: (escapeChars s.data ++ '"' :: tail) := by
    simp [Json.render, renderString]
  have hk : scanString ((escapeChars s.data).length + (tail.length + 1) + 1)
      (escapeChars s.data ++ '"' :: tail) = .ok (s.data, tail) :=
    scanString_renderString s tail _ (by simp)
  rw [h, scanValue, skipSpace_cons _ _ (by decide)]
  simp [hk]

theorem scanValue_number (fuel depth : Nat) (lit : List Char) (hl : NumberLiteral lit)
    (tail : List Char) (ht : EndsNumber tail) :
    scanValue (fuel + 1) depth ((Json.number lit).render ++ tail) =
      .ok (.number lit, tail) := by
  have hs := hl.2 tail ht
  obtain ⟨c, cs, hf, hc⟩ := hl.1
  simp only [Json.render]
  rw [hf] at hs ⊢
  rcases hc with rfl | hd
  · rw [List.cons_append, scanValue, skipSpace_cons _ _ (by decide)]
    rw [List.cons_append] at hs
    simp [hs]
  · obtain ⟨h1, h2, h3, h4, _, _⟩ := isDigit_ne c hd
    rw [List.cons_append, scanValue, skipSpace_cons _ _ h1]
    rw [List.cons_append] at hs
    simp [h2, h3, h4, hd, hs]

theorem scanMembers_step (fuel depth : Nat) (k : String) (rest : List Char) :
    scanMembers (fuel + 1) depth ('"' :: (escapeChars k.data ++ '"' :: ':' :: rest)) =
      match scanValue fuel depth rest with
      | .error e => .error e
      | .ok (v, r3) =>
        match skipSpace r3 with
        | [] => .error .needMore
        | c4 :: r4 =>
          if c4 = '}' then .ok ([(k, v)], r4)
          else if c4 = ',' then
            match scanMembers fuel depth (skipSpace r4) with
            | .error e => .error e
            | .ok (ms, r5) => .ok ((k, v) :: ms, r5)
          else .error (.invalid c4 "after object key:value pair") := by
  rw [scanMembers, if_pos rfl, scanString_key k (':' :: rest)]
  dsimp only
  rw [skipSpace_cons _ _ (by decide)]
  dsimp only
  rw [if_pos rfl]

/-- Scanning the text of a value gives the value back: for the value itself, for the
elements of an array and for the members of an object. -/
theorem scan_render_aux (fuel : Nat) :
    (∀ (j : Json) (depth : Nat) (tail : List Char), j.size ≤ fuel → j.Scannable depth →
      EndsNumber tail → scanValue fuel depth (j.render ++ tail) = .ok (j, tail)) ∧
    (∀ (x : Json) (xs : List Json) (depth : Nat) (tail : List Char),
      sizeElems (x :: xs) ≤ fuel → scannableElems depth (x :: xs) →
      scanElems fuel depth (x.render ++ (renderElems xs ++ tail)) = .ok (x :: xs, tail)) ∧
    (∀ (k : String) (v : Json) (ms : List (String × Json)) (depth : Nat) (tail : List Char),
      sizeMembers ((k, v) :: ms) ≤ fuel → scannableMembers depth ((k, v) :: ms) →
      scanMembers fuel depth
        (renderString k ++ ':' :: (v.render ++ (renderMembers ms ++ tail))) =
        .ok ((k, v) :: ms, tail)) := by
  induction fuel with
  | zero =>
    refine ⟨?_, ?_, ?_⟩
    · intro j depth tail hs
      cases j <;> simp [Json.size] at hs
    · intro x xs depth tail hs
      simp [sizeElems] at hs
    · intro k v ms depth tail hs
      simp [sizeMembers] at hs
  | succ fuel ih =>
    obtain ⟨ihv, ihe, ihm⟩ := ih
    refine ⟨?_, ?_, ?_⟩
    · intro j depth tail hs hj ht
      cases j with
      | null => rfl
      | bool b => cases b <;> rfl
      | number lit => exact scanValue_number fuel depth lit hj tail ht
      | string s => exact scanValue_scalar_string fuel depth s tail
      | array xs =>
        cases xs with
        | nil =>
          obtain ⟨hd, _⟩ := hj
          have hd0 : depth ≠ 0 := by omega
          simp [Json.render, scanValue, hd0, skipSpace_cons '[' _ (by decide),
            skipSpace_cons ']' _ (by decide)]
        | cons x xs =>
          obtain ⟨hd, hxs⟩ := hj
          have hd0 : depth ≠ 0 := by omega
          obtain ⟨c, cs, hx, hsp, hc1, _⟩ := render_head x (depth - 1) hxs.1
          have he := ihe x xs (depth - 1) tail (by simp only [Json.size] at hs; omega) hxs
          simp only [Json.render, List.cons_append, List.append_assoc]
          rw [scanValue, skipSpace_cons _ _ (by decide)]
          rw [hx] at he ⊢
          rw [List.cons_append] at he ⊢
          simp [hd0, hc1, he, skipSpace_cons c _ hsp]
      | object ms =>
        cases ms with
        | nil =>
          obtain ⟨hd, _⟩ := hj
          have hd0 : depth ≠ 0 := by omega
          simp [Json.render, scanValue, hd0, skipSpace_cons '\x7b' _ (by decide),
            skipSpace_cons '\x7d' _ (by decide)]
        | cons m ms =>
          obtain ⟨k, v⟩ := m
          obtain ⟨hd, hms⟩ := hj
          have hd0 : depth ≠ 0 := by omega
          have hm := ihm k v ms (depth - 1) tail (by simp only [Json.size] at hs; omega) hms
          simp only [Json.render, List.cons_append, List.append_assoc]
          rw [scanValue, skipSpace_cons _ _ (by decide)]
          simp only [renderString, List.cons_append, List.append_assoc, List.nil_append] at hm ⊢
          simp [hd0, hm, skipSpace_cons '"' _ (by decide)]
    · intro x xs depth tail hs hxs
      simp only [sizeElems] at hs
      have hv := ihv x depth (renderElems xs ++ tail) (by omega) hxs.1
        (endsNumber_renderElems xs tail)
      rw [scanElems, hv]
      cases xs with
      | nil => simp [renderElems, skipSpace_cons ']' _ (by decide)]
      | cons y ys =>
        have he := ihe y ys depth tail (by simp only [sizeElems] at hs ⊢; omega) hxs.2
        simp [renderElems, he, skipSpace_cons ',' _ (by decide)]
    · intro k v ms depth tail hs hms
      simp only [sizeMembers] at hs
      have hv := ihv v depth (renderMembers ms ++ tail) (by omega) hms.1
        (endsNumber_renderMembers ms tail)
      simp only [renderString, List.cons_append, List.append_assoc, List.nil_append]
      rw [scanMembers_step, hv]
      dsimp only
      cases ms with
      | nil => simp [renderMembers, skipSpace_cons '}' _ (by decide)]
      | cons m ms' =>
        obtain ⟨k', v'⟩ := m
        have hm := ihm k' v' ms' depth tail (by simp only [sizeMembers] at hs ⊢; omega) hms.2
        simp only [renderString, List.cons_append, List.append_assoc, List.nil_append] at hm
        simp [hm, renderMembers, renderString, skipSpace_cons ',' _ (by decide),
          skipSpace_cons '"' _ (by decide)]

end Lemmas

section Lemmas

mutual
theorem size_le_length : ∀ (j : Json) (depth : Nat), j.Scannable depth →
    j.size ≤ j.render.length
  | .null, _, _ => by simp [Json.size, Json.render]
  | .bool true, _, _ => by simp [Json.size, Json.render]
  | .bool false, _, _ => by simp [Json.size, Json.render]
  | .number lit, _, h => by
    obtain ⟨⟨c, cs, hf, _⟩, _⟩ := h
    simp [Json.size, Json.render, hf]
  | .string s, _, _ => by simp [Json.size, Json.render, renderString]
  | .array [], _, _ => by simp [Json.size, Json.render, sizeElems]
  | .array (x :: xs), depth, h => by
    have h1 := size_le_length x (depth - 1) h.2.1
    have h2 := sizeElems_le_length xs (depth - 1) h.2.2
    simp only [Json.size, Json.render, sizeElems, List.length_cons, List.length_append]
    omega
  | .object [], _, _ => by simp [Json.size, Json.render, sizeMembers]
  | .object ((k, v) :: ms), depth, h => by
    have h1 := size_le_length v (depth - 1) h.2.1
    have h2 := sizeMembers_le_length ms (depth - 1) h.2.2
    simp only [Json.size, Json.render, sizeMembers, List.length_cons, List.length_append]
    omega
theorem sizeElems_le_length : ∀ (xs : List Json) (depth : Nat), scannableElems depth xs →
    sizeElems xs + 1 ≤ (renderElems xs).length
  | [], _, _ => by simp [sizeElems, renderElems]
  | x :: xs, depth, h => by
    have h1 := size_le_length x depth h.1
    have h2 := sizeElems_le_length xs depth h.2
    simp only [sizeElems, renderElems, List.length_cons, List.length_append]
    omega
theorem sizeMembers_le_length : ∀ (ms : List (String × Json)) (depth : Nat),
    scannableMembers depth ms → sizeMembers ms + 1 ≤ (renderMembers ms).length
  | [], _, _ => by simp [sizeMembers, renderMembers]
  | (k, v) :: ms, depth, h => by
    have h1 := size_le_length v depth h.1
    have h2 := sizeMembers_le_length ms depth h.2
    simp only [sizeMembers, renderMembers, List.length_cons, List.length_append]
    omega
end

/-- Scanning the text `json.Marshal` wrote for a value gives the value back. -/
theorem scanFirst_render (j : Json) (h : j.Scannable maxNestingDepth) :
    scanFirst j.render = .ok (j, []) := by
  have := (scan_render_aux (2 * j.render.length + 1)).1 j maxNestingDepth []
    (by have := size_le_length j _ h; omega) h endsNumber_nil
  simpa [scanFirst] using this

/-- For all strings R, D and A the compact text of the acknowledgment object scans to that
object. -/
theorem acknowledgment_scans (R D A : String) :
    scanFirst (Json.object [("routing_key", .string R), ("dedup_key", .string D),
      ("event_action", .string A)]).render =
      .ok (.object [("routing_key", .string R), ("dedup_key", .string D),
        ("event_action", .string A)], []) :=
  scanFirst_render _ ⟨by decide, trivial, trivial, trivial, trivial⟩

end Lemmas

/-! ### Reading and writing floats -/

section Lemmas

theorem bitLengthAux_spec (fuel : Nat) : ∀ n : Nat, n ≤ fuel →
    n < 2 ^ bitLengthAux fuel n ∧ (0 < n → 2 ^ (bitLengthAux fuel n - 1) ≤ n) := by
  induction fuel with
  | zero =>
    intro n h
    have : n = 0 := by omega
    subst this
    simp [bitLengthAux]
  | succ fuel ih =>
    intro n h
    by_cases h0 : n = 0
    · subst h0; simp [bitLengthAux]
    · obtain ⟨h1, h2⟩ := ih (n / 2) (by omega)
      simp only [bitLengthAux, h0, if_false, Nat.add_sub_cancel]
      refine ⟨?_, fun _ => ?_⟩
      · rw [pow_succ]; omega
      · by_cases h3 : n / 2 = 0
        · have : bitLengthAux fuel (n / 2) = 0 := by
            rw [h3]; cases fuel <;> simp [bitLengthAux]
          rw [this]; simp; omega
        · have h4 := h2 (by omega)
          have : bitLengthAux fuel (n / 2) = (bitLengthAux fuel (n / 2) - 1) + 1 := by
            have : bitLengthAux fuel (n / 2) ≠ 0 := by
              intro hz; rw [hz] at h1; simp at h1; omega
            omega
          rw [this, pow_succ]; omega

theorem bitLength_spec (n : Nat) (h : 0 < n) :
    2 ^ (bitLength n - 1) ≤ n ∧ n < 2 ^ bitLength n ∧ 0 < bitLength n := by
  obtain ⟨h1, h2⟩ := bitLengthAux_spec n n (Nat.le_refl n)
  refine ⟨h2 h, h1, ?_⟩
  by_contra hz
  have : bitLength n = 0 := by omega
  unfold bitLength at this
  rw [this] at h1
  simp at h1; omega

theorem roundHalfEven_exact (q d : Nat) (hd : 0 < d) : roundHalfEven (q * d) d = q := by
  unfold roundHalfEven
  have h1 : q * d % d = 0 := Nat.mul_mod_left q d
  have h2 : q * d / d = q := Nat.mul_div_cancel q hd
  rw [h1, h2]
  have : ¬ (d < 2 * 0 ∨ (2 * 0 = d ∧ q % 2 = 1)) := by omega
  rw [if_neg this]

/-- A fraction that is a binary64 value, `M * 2^(e - 1074)`, is rounded to itself. -/
theorem roundRatio_exact (num den M e : Nat) (hden : 0 < den) (hM : 0 < M)
    (hM53 : M < 2 ^ 53) (he : e ≤ 2045) (h : num * 2 ^ 1074 = M * 2 ^ e * den) :
    ∃ t, t ≤ e ∧ roundRatio num den = some (M * 2 ^ (e - t), (t : Int) - 1074) := by
  have hP : ∀ a : Nat, 2 ^ (a + 1074) = 2 ^ a * 2 ^ 1074 := fun a => pow_add 2 a 1074
  unfold roundRatio
  generalize (2 : Nat) ^ 1074 = P at h hP ⊢
  have hnum : 0 < num := by
    rcases Nat.eq_zero_or_pos num with h0 | h0
    · subst h0
      have : 0 < M * 2 ^ e * den := by positivity
      rw [← h] at this
      simp at this
    · exact h0
  obtain ⟨hn1, hn2, hn3⟩ := bitLength_spec num hnum
  obtain ⟨hd1, hd2, hd3⟩ := bitLength_spec den hden
  have key : ∀ t : Nat, t ≤ e → num * P = M * 2 ^ (e - t) * (den * 2 ^ t) := by
    intro t ht
    have : 2 ^ e = 2 ^ (e - t) * 2 ^ t := by
      rw [← pow_add]; congr 1; exact (Nat.sub_add_cancel ht).symm
    rw [h, this]; ring
  have hpos : ∀ t : Nat, 0 < den * 2 ^ t := fun t => by positivity
  have hlt : ∀ t : Nat, e ≤ t → M * 2 ^ e * den < 2 ^ 53 * (den * 2 ^ t) := by
    intro t hle
    have h2e : 2 ^ e ≤ 2 ^ t := Nat.pow_le_pow_right (by decide) hle
    calc M * 2 ^ e * den < 2 ^ 53 * 2 ^ e * den := by
          apply Nat.mul_lt_mul_of_pos_right _ hden
          exact Nat.mul_lt_mul_of_pos_right hM53 (by positivity)
      _ ≤ 2 ^ 53 * 2 ^ t * den := by
          apply Nat.mul_le_mul_right
          exact Nat.mul_le_mul_left _ h2e
      _ = 2 ^ 53 * (den * 2 ^ t) := by ring
  generalize ht1 : bitLength num + 1021 - bitLength den = t1
  have hq1 : 2 ^ 53 ≤ num * P / (den * 2 ^ t1) → t1 + 1 ≤ e := by
    intro hq
    rw [Nat.le_div_iff_mul_le (hpos t1)] at hq
    by_contra hcon
    have := hlt t1 (by omega)
    rw [← h] at this
    exact absurd hq (Nat.not_le.mpr this)
  have hq2 : t1 ≤ e := by
    by_contra hcon
    have hA : 2 ^ (bitLength num - 1 + 1074) ≤ num * P := by
      rw [hP]; exact Nat.mul_le_mul_right _ hn1
    have hB : M * 2 ^ e * den < 2 ^ (53 + e + bitLength den) := by
      rw [pow_add 2 (53 + e) (bitLength den), pow_add 2 53 e]
      calc M * 2 ^ e * den < 2 ^ 53 * 2 ^ e * den := by
            apply Nat.mul_lt_mul_of_pos_right _ hden
            exact Nat.mul_lt_mul_of_pos_right hM53 (by positivity)
        _ ≤ 2 ^ 53 * 2 ^ e * 2 ^ bitLength den := Nat.mul_le_mul_left _ (le_of_lt hd2)
    have hC : 2 ^ (53 + e + bitLength den) ≤ 2 ^ (bitLength num - 1 + 1074) :=
      Nat.pow_le_pow_right (by decide) (by omega)
    rw [← h] at hB
    exact absurd hA (Nat.not_le.mpr (Nat.lt_of_lt_of_le hB hC))
  have hone : ∀ t : Nat, t ≤ e →
      ¬ (2045 < t ∨ (t = 2045 ∧ 2 ^ 53 ≤ M * 2 ^ (e - t))) := by
    intro t hte
    rintro (h1 | ⟨h1, h2⟩)
    · omega
    · have : e - t = 0 := by omega
      rw [this, pow_zero, Nat.mul_one] at h2
      exact absurd h2 (Nat.not_le.mpr hM53)
  by_cases hq : 2 ^ 53 ≤ num * P / (den * 2 ^ t1)
  · have hte := hq1 hq
    refine ⟨t1 + 1, hte, ?_⟩
    simp only [if_pos hq]
    rw [key (t1 + 1) hte, roundHalfEven_exact _ _ (hpos _), if_neg (hone _ hte)]
  · refine ⟨t1, hq2, ?_⟩
    simp only [if_neg hq]
    rw [key t1 hq2, roundHalfEven_exact _ _ (hpos _), if_neg (hone _ hq2)]

/-- The magnitude `roundRatio` returns for a binary64 value is that value. -/
theorem sameMagnitude_biased (M e t : Nat) (ht : t ≤ e) (E : Int) (hE : E = (e : Int) - 1074) :
    SameMagnitude (M * 2 ^ (e - t)) ((t : Int) - 1074) M E := by
  unfold SameMagnitude
  have h1 : ((t : Int) - 1074 - E).toNat = 0 := by omega
  have h2 : (E - ((t : Int) - 1074)).toNat = e - t := by omega
  rw [h1, h2, pow_zero, Nat.mul_one]

theorem sameMagnitude_symm (m : Nat) (s : Int) (m' : Nat) (s' : Int)
    (h : SameMagnitude m s m' s') : SameMagnitude m' s' m s := by
  unfold SameMagnitude at h ⊢
  exact h.symm

/-- A natural number that is a binary64 value is read exactly. -/
theorem decimalToFloat_int (M E : Nat) (hM : M < 2 ^ 53) (hE : E ≤ 971) :
    ∃ m s, decimalToFloat (M * 2 ^ E) 0 = some (m, s) ∧ SameMagnitude m s M E := by
  unfold decimalToFloat
  by_cases h0 : M * 2 ^ E = 0
  · have hM0 : M = 0 := by
      rcases Nat.mul_eq_zero.mp h0 with h | h
      · exact h
      · exact absurd h (by positivity)
    refine ⟨0, 0, by rw [if_pos h0], ?_⟩
    subst hM0
    simp [SameMagnitude]
  · rw [if_neg h0]
    by_cases h53 : M * 2 ^ E ≤ 2 ^ 53
    · refine ⟨M * 2 ^ E, 0, by rw [if_pos ⟨rfl, h53⟩], ?_⟩
      unfold SameMagnitude
      have h1 : ((0 : Int) - (E : Int)).toNat = 0 := by omega
      have h2 : ((E : Int) - 0).toNat = E := by omega
      rw [h1, h2, pow_zero, Nat.mul_one]
    · have hMpos : 0 < M := by
        rcases Nat.eq_zero_or_pos M with h | h
        · subst h; simp at h0
        · exact h
      have hne : ¬ ((0 : Int) = 0 ∧ M * 2 ^ E ≤ 2 ^ 53) := fun h => h53 h.2
      rw [if_neg hne, if_pos (le_refl (0 : Int))]
      have hz : (0 : Int).toNat = 0 := rfl
      rw [hz, pow_zero, Nat.mul_one]
      obtain ⟨t, ht, hr⟩ := roundRatio_exact (M * 2 ^ E) 1 M (E + 1074) (by decide) hMpos hM
        (by omega) (by rw [pow_add 2 E 1074, Nat.mul_one, Nat.mul_assoc])
      exact ⟨_, _, hr, sameMagnitude_biased M (E + 1074) t ht E (by push_cast; omega)⟩

/-- A decimal fraction that is a binary64 value is read exactly. -/
theorem decimalToFloat_frac (M k : Nat) (hM0 : 0 < M) (hM : M < 2 ^ 53) (hk0 : 0 < k)
    (hk : k ≤ 1074) :
    ∃ m s, decimalToFloat (M * 5 ^ k) (-(k : Int)) = some (m, s) ∧
      SameMagnitude m s M (-(k : Int)) := by
  unfold decimalToFloat
  have h0 : ¬ M * 5 ^ k = 0 := by
    have : 0 < M * 5 ^ k := by positivity
    omega
  have h1 : ¬ (-(k : Int) = 0 ∧ M * 5 ^ k ≤ 2 ^ 53) := fun h => by omega
  have h2 : ¬ (0 : Int) ≤ -(k : Int) := by omega
  have h3 : (- -(k : Int)).toNat = k := by omega
  rw [if_neg h0, if_neg h1, if_neg h2, h3]
  have hpow : (2 : Nat) ^ 1074 = 2 ^ (1074 - k) * 2 ^ k := by
    rw [← pow_add]; congr 1; omega
  have h10 : (10 : Nat) ^ k = 2 ^ k * 5 ^ k := by
    rw [← Nat.mul_pow]
  obtain ⟨t, ht, hr⟩ := roundRatio_exact (M * 5 ^ k) (10 ^ k) M (1074 - k) (by positivity)
    hM0 hM (by omega) (by rw [hpow, h10]; ring)
  exact ⟨_, _, hr, sameMagnitude_biased M (1074 - k) t ht _ (by omega)⟩

end Lemmas

section Lemmas

theorem formatNat_digits (n : Nat) : ∀ c ∈ formatNat n, isDigit c = true := by
  obtain ⟨d, ds, hf, hd, hds, _, _⟩ := formatNat_spec n
  intro c hc
  rw [hf] at hc
  rcases List.mem_cons.mp hc with h | h
  · rw [h]; exact hd
  · exact hds c h

theorem formatNat_value (n : Nat) : digitsValue (formatNat n) = n := by
  obtain ⟨d, ds, hf, _, _, _, hv⟩ := formatNat_spec n
  rw [hf]; exact hv

theorem takeDigits_formatNat (n : Nat) (tail : List Char)
    (ht : ∀ c, tail.head? = some c → isDigit c = false) :
    takeDigits (formatNat n ++ tail) = (formatNat n, tail) :=
  takeDigits_append _ _ (formatNat_digits n) ht

/-- A rendered natural number denotes itself. -/
theorem parseMagnitude_formatNat (n : Nat) :
    parseMagnitude (formatNat n) = decimalToFloat n 0 := by
  have ht : takeDigits (formatNat n) = (formatNat n, []) := by
    have := takeDigits_formatNat n [] (by simp)
    simpa using this
  unfold parseMagnitude literalDecimal
  rw [ht]
  simp [fractionAndExponent, formatNat_value]

/-- Digits with a negative exponent denote the digits divided by the power of ten. -/
theorem parseMagnitude_exponent (d k : Nat) :
    parseMagnitude (formatNat d ++ 'e' :: '-' :: formatNat k) =
      decimalToFloat d (-(k : Int)) := by
  have ht : takeDigits (formatNat d ++ 'e' :: '-' :: formatNat k) =
      (formatNat d, 'e' :: '-' :: formatNat k) :=
    takeDigits_formatNat d _ (by
      intro c hc
      simp only [List.head?_cons, Option.some.injEq] at hc
      subst hc; decide)
  have hk : takeDigits (formatNat k) = (formatNat k, []) := by
    have := takeDigits_formatNat k [] (by simp)
    simpa using this
  unfold parseMagnitude literalDecimal
  rw [ht]
  simp [fractionAndExponent, exponentValue, hk, formatNat_value]

theorem scanDigits_formatNat (context : String) (k : Nat) :
    scanDigits context (formatNat k) = .ok (formatNat k, []) := by
  obtain ⟨d, ds, hf, hd, hds, _, _⟩ := formatNat_spec k
  have ht : takeDigits ds = (ds, []) := by
    have := takeDigits_append ds [] hds (by simp)
    simpa using this
  rw [hf]
  simp [scanDigits, hd, ht]

/-- Digits that do not denote zero, with a negative exponent, are a number literal. -/
theorem scanUnsigned_exponent (d k : Nat) (hd : 0 < d) :
    scanUnsigned (formatNat d ++ 'e' :: '-' :: formatNat k) =
      .ok (formatNat d ++ 'e' :: '-' :: formatNat k, []) := by
  obtain ⟨c, cs, hf, hc, hcs, h0, _⟩ := formatNat_spec d
  have hz : c ≠ '0' := fun h => by have := (h0 h).1; omega
  have ht : takeDigits (cs ++ 'e' :: '-' :: formatNat k) = (cs, 'e' :: '-' :: formatNat k) :=
    takeDigits_append cs _ hcs (by
      intro c hc
      simp only [List.head?_cons, Option.some.injEq] at hc
      subst hc; decide)
  rw [hf]
  simp [scanUnsigned, hz, hc, ht, scanFraction, scanExponent, scanDigits_formatNat]

theorem takeDigits_extend (tail : List Char)
    (ht : ∀ c, tail.head? = some c → isDigit c = false) : ∀ a : List Char,
    takeDigits (a ++ tail) = ((takeDigits a).1, (takeDigits a).2 ++ tail) := by
  intro a
  induction a with
  | nil =>
    cases tail with
    | nil => rfl
    | cons c cs => simp [takeDigits, ht c rfl]
  | cons x xs ih =>
    by_cases hx : isDigit x = true
    · simp [takeDigits, hx, ih]
    · simp [takeDigits, hx]

theorem scanDigits_extend (context : String) (tail : List Char)
    (ht : ∀ c, tail.head? = some c → isDigit c = false) (a ds r : List Char)
    (h : scanDigits context a = .ok (ds, r)) :
    scanDigits context (a ++ tail) = .ok (ds, r ++ tail) := by
  cases a with
  | nil => simp [scanDigits] at h
  | cons x xs =>
    by_cases hx : isDigit x = true
    · simp only [scanDigits, hx, if_true, Except.ok.injEq, Prod.mk.injEq] at h
      obtain ⟨h1, h2⟩ := h
      subst h1; subst h2
      simp [scanDigits, hx, takeDigits_extend tail ht xs]
    · simp [scanDigits, hx] at h

theorem scanExponent_extend (tail : List Char) (ht : EndsNumber tail) (a ex r : List Char)
    (h : scanExponent a = .ok (ex, r)) : scanExponent (a ++ tail) = .ok (ex, r ++ tail) := by
  have htd : ∀ c, tail.head? = some c → isDigit c = false := fun c hc => (ht c hc).1
  cases a with
  | nil =>
    simp only [scanExponent, Except.ok.injEq, Prod.mk.injEq] at h
    obtain ⟨h1, h2⟩ := h
    subst h1; subst h2
    cases tail with
    | nil => rfl
    | cons c cs =>
      obtain ⟨_, _, h3, h4⟩ := ht c rfl
      simp [scanExponent, h3, h4]
  | cons x xs =>
    by_cases hx : x = 'e' ∨ x = 'E'
    · cases xs with
      | nil => simp [scanExponent, hx] at h
      | cons s cs1 =>
        simp only [scanExponent, hx, if_true] at h
        simp only [List.cons_append, scanExponent, hx, if_true]
        by_cases hs : s = '+' ∨ s = '-'
        · simp only [hs, if_true] at h ⊢
          cases hd : scanDigits "in exponent of numeric literal" cs1 with
          | error e => rw [hd] at h; simp at h
          | ok p =>
            obtain ⟨ds, rest⟩ := p
            rw [hd] at h
            simp only [Except.ok.injEq, Prod.mk.injEq] at h
            obtain ⟨h1, h2⟩ := h
            subst h1; subst h2
            rw [scanDigits_extend _ tail htd cs1 ds rest hd]
        · simp only [hs, if_false] at h ⊢
          cases hd : scanDigits "in exponent of numeric literal" (s :: cs1) with
          | error e => rw [hd] at h; simp at h
          | ok p =>
            obtain ⟨ds, rest⟩ := p
            rw [hd] at h
            simp only [Except.ok.injEq, Prod.mk.injEq] at h
            obtain ⟨h1, h2⟩ := h
            subst h1; subst h2
            have := scanDigits_extend _ tail htd (s :: cs1) ds rest hd
            rw [List.cons_append] at this
            rw [this]
    · simp only [scanExponent, hx, if_false, Except.ok.injEq, Prod.mk.injEq] at h
      obtain ⟨h1, h2⟩ := h
      subst h1; subst h2
      simp [scanExponent, hx]

theorem scanFraction_extend (tail : List Char) (ht : EndsNumber tail) (a fr r : List Char)
    (h : scanFraction a = .ok (fr, r)) : scanFraction (a ++ tail) = .ok (fr, r ++ tail) := by
  have htd : ∀ c, tail.head? = some c → isDigit c = false := fun c hc => (ht c hc).1
  cases a with
  | nil =>
    simp only [scanFraction, Except.ok.injEq, Prod.mk.injEq] at h
    obtain ⟨h1, h2⟩ := h
    subst h1; subst h2
    simpa using scanFraction_end tail ht
  | cons x xs =>
    by_cases hx : x = '.'
    · simp only [scanFraction, hx, if_true] at h
      simp only [List.cons_append, scanFraction, hx, if_true]
      cases hd : scanDigits "after decimal point in numeric literal" xs with
      | error e => rw [hd] at h; simp at h
      | ok p =>
        obtain ⟨ds, rest⟩ := p
        rw [hd] at h
        rw [scanDigits_extend _ tail htd xs ds rest hd]
        simp only at h ⊢
        cases he : scanExponent rest with
        | error e => rw [he] at h; simp at h
        | ok q =>
          obtain ⟨ex, rest1⟩ := q
          rw [he] at h
          simp only [Except.ok.injEq, Prod.mk.injEq] at h
          obtain ⟨h1, h2⟩ := h
          subst h1; subst h2
          rw [scanExponent_extend tail ht rest ex rest1 he]
    · simp only [scanFraction, hx, if_false] at h
      simp only [List.cons_append, scanFraction, hx, if_false]
      have := scanExponent_extend tail ht (x :: xs) fr r h
      rwa [List.cons_append] at this

/-- What the scanner read as a number it reads again when more text follows that ends a
number. -/
theorem scanUnsigned_extend (tail : List Char) (ht : EndsNumber tail) (a lit r : List Char)
    (h : scanUnsigned a = .ok (lit, r)) : scanUnsigned (a ++ tail) = .ok (lit, r ++ tail) := by
  have htd : ∀ c, tail.head? = some c → isDigit c = false := fun c hc => (ht c hc).1
  cases a with
  | nil => simp [scanUnsigned] at h
  | cons x xs =>
    by_cases hx : x = '0'
    · simp only [scanUnsigned, hx, if_true] at h
      simp only [List.cons_append, scanUnsigned, hx, if_true]
      cases hf : scanFraction xs with
      | error e => rw [hf] at h; simp at h
      | ok p =>
        obtain ⟨fr, rest⟩ := p
        rw [hf] at h
        simp only [Except.ok.injEq, Prod.mk.injEq] at h
        obtain ⟨h1, h2⟩ := h
        subst h1; subst h2
        rw [scanFraction_extend tail ht xs fr rest hf]
    · by_cases hd : isDigit x = true
      · simp only [scanUnsigned, hx, hd, if_true, if_false] at h
        simp only [List.cons_append, scanUnsigned, hx, hd, if_true, if_false,
          takeDigits_extend tail htd xs]
        cases hf : scanFraction (takeDigits xs).2 with
        | error e => rw [hf] at h; simp at h
        | ok p =>
          obtain ⟨fr, rest⟩ := p
          rw [hf] at h
          simp only [Except.ok.injEq, Prod.mk.injEq] at h
          obtain ⟨h1, h2⟩ := h
          subst h1; subst h2
          rw [scanFraction_extend tail ht _ fr rest hf]
      · simp [scanUnsigned, hx, hd] at h

/-- The text of a number starts with a digit. -/
theorem scanUnsigned_head (a lit r : List Char) (h : scanUnsigned a = .ok (lit, r)) :
    ∃ c cs, a = c :: cs ∧ isDigit c = true := by
  cases a with
  | nil => simp [scanUnsigned] at h
  | cons x xs =>
    by_cases hx : x = '0'
    · exact ⟨x, xs, rfl, by rw [hx]; decide⟩
    · by_cases hd : isDigit x = true
      · exact ⟨x, xs, rfl, hd⟩
      · simp [scanUnsigned, hx, hd] at h

end Lemmas

section Lemmas

/-- A text that reads back as `f` is a number literal that denotes the magnitude of `f`. -/
theorem readsBack_spec (f : Float64) (t : List Char) (h : readsBack f t = true) :
    scanUnsigned t = .ok (t, []) ∧
      ∃ m s, parseMagnitude t = some (m, s) ∧ SameMagnitude m s f.mant f.exp := by
  unfold readsBack at h
  rw [Bool.and_eq_true] at h
  obtain ⟨h1, h2⟩ := h
  constructor
  · cases hs : scanUnsigned t with
    | error e => rw [hs] at h1; simp at h1
    | ok p =>
      obtain ⟨lit, rest⟩ := p
      rw [hs] at h1
      cases rest with
      | nil =>
        simp only [decide_eq_true_eq] at h1
        rw [h1]
      | cons c cs => simp at h1
  · cases hp : parseMagnitude t with
    | none => rw [hp] at h2; simp at h2
    | some p =>
      obtain ⟨m, s⟩ := p
      rw [hp] at h2
      simp only [decide_eq_true_eq] at h2
      exact ⟨m, s, rfl, h2⟩

theorem readsBack_intro (f : Float64) (t : List Char) (m : Nat) (s : Int)
    (h1 : scanUnsigned t = .ok (t, [])) (h2 : parseMagnitude t = some (m, s))
    (h3 : SameMagnitude m s f.mant f.exp) : readsBack f t = true := by
  unfold readsBack
  rw [h1, h2]
  unfold SameMagnitude at h3
  simp [h3]

theorem shortestText_reads (reads : List Char → Bool) (text : Nat → Int → List Char)
    (num den : Nat) : ∀ (fuel n : Nat) (t : List Char),
    shortestText reads text num den fuel n = some t → reads t = true := by
  intro fuel
  induction fuel with
  | zero => intro n t h; simp [shortestText] at h
  | succ fuel ih =>
    intro n t h
    simp only [shortestText] at h
    split at h
    · rename_i h1
      simp only [Option.some.injEq] at h
      rw [← h]; exact h1
    · split at h
      · rename_i h1
        simp only [Option.some.injEq] at h
        rw [← h]; exact h1
      · exact ih _ _ h

/-- The exact decimal value of a binary64 value reads back as it. -/
theorem exactText_readsBack (f : Float64) (hf : f.Finite) (h0 : f.mant ≠ 0) :
    readsBack f (exactText f) = true := by
  obtain ⟨hm, he1, he2⟩ := hf
  unfold exactText
  by_cases hexp : 0 ≤ f.exp
  · rw [if_pos hexp]
    obtain ⟨m, s, hd, hs⟩ := decimalToFloat_int f.mant f.exp.toNat hm (by omega)
    have hE : ((f.exp.toNat : Nat) : Int) = f.exp := Int.toNat_of_nonneg hexp
    rw [hE] at hs
    refine readsBack_intro f _ m s ?_ ?_ hs
    · have := scanUnsigned_formatNat (f.mant * 2 ^ f.exp.toNat) [] endsNumber_nil
      simpa using this
    · rw [parseMagnitude_formatNat]; exact hd
  · rw [if_neg hexp]
    obtain ⟨m, s, hd, hs⟩ := decimalToFloat_frac f.mant (-f.exp).toNat (by omega) hm
      (by omega) (by omega)
    have hE : (-(((-f.exp).toNat : Nat) : Int)) = f.exp := by omega
    rw [hE] at hs
    refine readsBack_intro f _ m s ?_ ?_ hs
    · exact scanUnsigned_exponent _ _ (by positivity)
    · rw [parseMagnitude_exponent]; exact hd

/-- The text of a finite float without its sign is a number literal that denotes the
magnitude of the float. -/
theorem float64Text_readsBack (f : Float64) (hf : f.Finite) :
    readsBack f (float64Text f) = true := by
  unfold float64Text
  by_cases h0 : f.mant = 0
  · rw [if_pos h0]
    refine readsBack_intro f _ 0 0 rfl rfl ?_
    unfold SameMagnitude
    rw [h0]; simp
  · rw [if_neg h0]
    cases hs : shortestText (readsBack f) (decimalText (exponentForm f)) f.ratio.1 f.ratio.2
        17 1 with
    | none => exact exactText_readsBack f hf h0
    | some t => exact shortestText_reads _ _ _ _ 17 1 t hs

/-- A text that reads back as the magnitude of a float is, behind the sign of the float, a
number literal, and parsing it gives a float of the same value. -/
theorem signedText_spec (f : Float64) (u : List Char) (hu : readsBack f u = true) :
    NumberLiteral ((if f.neg then ['-'] else []) ++ u) ∧
      ∀ struct field, ∃ g,
        ParseFloat struct field ((if f.neg then ['-'] else []) ++ u) = .ok g ∧
          f.SameValue g := by
  obtain ⟨hscan, m, s, hp, hs⟩ := readsBack_spec f u hu
  obtain ⟨c, cs, hc, hd⟩ := scanUnsigned_head _ _ _ hscan
  have hne : c ≠ '-' := by
    intro h; subst h; exact absurd hd (by decide)
  subst hc
  by_cases hneg : f.neg = true
  · rw [if_pos hneg]
    refine ⟨⟨⟨'-', c :: cs, rfl, Or.inl rfl⟩, fun tail ht => ?_⟩, fun struct field => ?_⟩
    · have := scanUnsigned_extend tail ht _ _ _ hscan
      rw [List.nil_append, List.cons_append] at this
      have e1 : (['-'] ++ c :: cs) ++ tail = '-' :: (c :: (cs ++ tail)) := rfl
      have e2 : (['-'] ++ c :: cs : List Char) = '-' :: c :: cs := rfl
      rw [e1, e2, scanNumber, if_pos rfl, this]
    · refine ⟨⟨true, m, s⟩, ?_, hneg, sameMagnitude_symm _ _ _ _ hs⟩
      simp [ParseFloat, hp]
  · rw [if_neg hneg]
    have hneg' : f.neg = false := by simpa using hneg
    refine ⟨⟨⟨c, cs, rfl, Or.inr hd⟩, fun tail ht => ?_⟩, fun struct field => ?_⟩
    · have := scanUnsigned_extend tail ht _ _ _ hscan
      rw [List.nil_append, List.cons_append] at this
      have e1 : ([] ++ c :: cs) ++ tail = c :: (cs ++ tail) := rfl
      have e2 : ([] ++ c :: cs : List Char) = c :: cs := rfl
      rw [e1, e2, scanNumber, if_neg hne, this]
    · refine ⟨⟨false, m, s⟩, ?_, hneg', sameMagnitude_symm _ _ _ _ hs⟩
      simp [ParseFloat, hp, hne]

/-- The text the encoder writes for a finite `float64` is a number literal, and parsing it
gives a float of the same value. -/
theorem formatFloat_spec (f : Float64) (hf : f.Finite) :
    NumberLiteral (formatFloat f) ∧
      ∀ struct field, ∃ g, ParseFloat struct field (formatFloat f) = .ok g ∧
        f.SameValue g :=
  signedText_spec f (float64Text f) (float64Text_readsBack f hf)

/-- The float holds the integer when it has its sign and its magnitude. -/
theorem equalsInt_of_sameMagnitude (m : Nat) (s : Int) (M E : Nat) (i : Int)
    (hi : i.natAbs = M * 2 ^ E) (h : SameMagnitude m s M E) :
    Float64.EqualsInt ⟨decide (i < 0), m, s⟩ i := by
  refine ⟨rfl, ?_⟩
  unfold SameMagnitude at h
  show (if 0 ≤ s then m * 2 ^ s.toNat = i.natAbs else m = i.natAbs * 2 ^ (-s).toNat)
  rw [hi]
  by_cases hs : 0 ≤ s
  · rw [if_pos hs]
    by_cases hse : (E : Int) ≤ s
    · have h1 : ((E : Int) - s).toNat = 0 := by omega
      have h2 : s.toNat = (s - (E : Int)).toNat + E := by omega
      rw [h1, pow_zero, Nat.mul_one] at h
      rw [h2, pow_add, ← Nat.mul_assoc, h]
    · have h1 : (s - (E : Int)).toNat = 0 := by omega
      have h2 : E = ((E : Int) - s).toNat + s.toNat := by omega
      rw [h1, pow_zero, Nat.mul_one] at h
      rw [h]
      conv_rhs => rw [h2]
      rw [pow_add, Nat.mul_assoc]
  · rw [if_neg hs]
    have h1 : (s - (E : Int)).toNat = 0 := by omega
    have h2 : ((E : Int) - s).toNat = E + (-s).toNat := by omega
    rw [h1, pow_zero, Nat.mul_one, h2, pow_add, ← Nat.mul_assoc] at h
    exact h

/-- A rendered integer that is a binary64 value parses to the float of the same value. -/
theorem parseFloat_formatInt (struct field : String) (i : Int) (h : ExactFloat64 i.natAbs) :
    ∃ g, ParseFloat struct field (formatInt i) = .ok g ∧ g.EqualsInt i := by
  obtain ⟨M, E, hM, hE, hi⟩ := h
  obtain ⟨m, s, hd, hs⟩ := decimalToFloat_int M E hM hE
  rw [← hi] at hd
  refine ⟨⟨decide (i < 0), m, s⟩, ?_, equalsInt_of_sameMagnitude m s M E i hi hs⟩
  cases i with
  | ofNat n =>
    obtain ⟨d, ds, hf, hdg, _⟩ := formatNat_spec n
    have hne : d ≠ '-' := by
      intro hm; subst hm; exact absurd hdg (by decide)
    have hp : parseMagnitude (formatNat n) = some (m, s) := by
      rw [parseMagnitude_formatNat]; simpa using hd
    have hneg : (decide ((formatNat n).head? = some '-')) = false := by
      simp [hf, hne]
    simp only [ParseFloat, formatInt, hneg, Bool.false_eq_true, if_false, hp]
    simp
  | negSucc n =>
    have hp : parseMagnitude (formatNat (n + 1)) = some (m, s) := by
      rw [parseMagnitude_formatNat]; simpa using hd
    simp only [ParseFloat, formatInt, List.head?_cons, decide_True, if_true, List.tail_cons, hp]
    simp [Int.negSucc_lt_zero]

end Lemmas

/-! ### Encoding and decoding custom details -/

section Lemmas

theorem keysIncreasing_tail {α : Type} (x : String × α) (l : List (String × α))
    (h : keysIncreasing (x :: l)) : keysIncreasing l := by
  cases l with
  | nil => trivial
  | cons y ys =>
    obtain ⟨k, v⟩ := x
    obtain ⟨k', v'⟩ := y
    exact h.2

theorem sortByKey_of_increasing {α : Type} (l : List (String × α)) (h : keysIncreasing l) :
    sortByKey l = l := by
  induction l with
  | nil => rfl
  | cons x rest ih =>
    obtain ⟨k, v⟩ := x
    rw [sortByKey, ih (keysIncreasing_tail _ _ h)]
    cases rest with
    | nil => rfl
    | cons y ys =>
      obtain ⟨k', v'⟩ := y
      simp [insertSorted, h.1]

theorem keysIncreasing_encodeEntries (es : List (String × GoValue)) (h : keysIncreasing es) :
    keysIncreasing (encodeEntries es) := by
  induction es with
  | nil => trivial
  | cons x rest ih =>
    obtain ⟨k, v⟩ := x
    cases rest with
    | nil => simp [encodeEntries, keysIncreasing]
    | cons y ys =>
      obtain ⟨k', v'⟩ := y
      have := ih h.2
      simp only [encodeEntries, keysIncreasing] at this ⊢
      exact ⟨h.1, this⟩

theorem insertIfAbsent_front (k : String) (d : Decoded) (es : List (String × GoValue))
    (ds : List (String × Decoded)) {v : GoValue} (hinc : keysIncreasing ((k, v) :: es))
    (heq : jsonEqEntries es ds) : insertIfAbsent k d ds = (k, d) :: ds := by
  cases es with
  | nil =>
    cases ds with
    | nil => rfl
    | cons y ys => simp [jsonEqEntries] at heq
  | cons x xs =>
    obtain ⟨k', v'⟩ := x
    cases ds with
    | nil => simp [jsonEqEntries] at heq
    | cons y ys =>
      obtain ⟨k'', d'⟩ := y
      simp only [jsonEqEntries] at heq
      obtain ⟨rfl, _, _⟩ := heq
      simp [insertIfAbsent, hinc.1]

theorem faithful_float32 (x : Float64) (depth : Nat)
    (h : readsBack x (float32Text x) = true) : EncodesFaithfully (.float32 x) depth := by
  obtain ⟨hlit, hparse⟩ := signedText_spec x (float32Text x) h
  refine ⟨.number (formatFloat32 x), rfl, hlit, fun s f => ?_⟩
  obtain ⟨g, hg, hv⟩ := hparse s f
  have hd : decodeInterface s f (.number (formatFloat32 x)) = (.float64 g, none) := by
    rw [decodeInterface]
    unfold formatFloat32
    rw [hg]
  rw [hd]
  exact ⟨rfl, hv⟩

theorem numberLiteral_formatInt (i : Int) : NumberLiteral (formatInt i) :=
  ⟨formatInt_head i, fun tail ht => scanNumber_formatInt i tail ht⟩

theorem faithful_int (i : Int) (depth : Nat) (h : ExactFloat64 i.natAbs) :
    EncodesFaithfully (.int i) depth := by
  refine ⟨.number (formatInt i), rfl, numberLiteral_formatInt i, fun s f => ?_⟩
  obtain ⟨g, hg, hi⟩ := parseFloat_formatInt s f i h
  have hd : decodeInterface s f (.number (formatInt i)) = (.float64 g, none) := by
    rw [decodeInterface, hg]
  rw [hd]
  exact ⟨rfl, hi⟩

theorem faithful_float (x : Float64) (depth : Nat) (h : x.Finite) :
    EncodesFaithfully (.float64 x) depth := by
  obtain ⟨hlit, hparse⟩ := formatFloat_spec x h
  refine ⟨.number (formatFloat x), rfl, hlit, fun s f => ?_⟩
  obtain ⟨g, hg, hv⟩ := hparse s f
  have hd : decodeInterface s f (.number (formatFloat x)) = (.float64 g, none) := by
    rw [decodeInterface, hg]
  rw [hd]
  exact ⟨rfl, hv⟩

theorem faithful_slice (xs : List GoValue) (depth : Nat) (h : 0 < depth)
    (ih : ElemsEncodeFaithfully xs (depth - 1)) : EncodesFaithfully (.slice xs) depth := by
  obtain ⟨js, hjs, hsc, hdec⟩ := ih
  refine ⟨.array js, by simp [GoValue.encode, hjs], ⟨h, hsc⟩, fun s f => ?_⟩
  simpa [decodeInterface, JsonEq] using hdec s f

theorem faithful_map (es : List (String × GoValue)) (depth : Nat) (h : 0 < depth)
    (hinc : keysIncreasing es) (ih : EntriesEncodeFaithfully es (depth - 1)) :
    EncodesFaithfully (.map es) depth := by
  obtain ⟨ms, hms, hsc, hdec⟩ := ih
  refine ⟨.object ms, ?_, ⟨h, hsc⟩, fun s f => ?_⟩
  · simp [GoValue.encode, sortByKey_of_increasing _ (keysIncreasing_encodeEntries es hinc), hms]
  · simpa [decodeInterface, JsonEq] using hdec s f

theorem faithful_elems_cons (x : GoValue) (xs : List GoValue) (depth : Nat)
    (ih1 : EncodesFaithfully x depth) (ih2 : ElemsEncodeFaithfully xs depth) :
    ElemsEncodeFaithfully (x :: xs) depth := by
  obtain ⟨j, hj, hsc, hdec⟩ := ih1
  obtain ⟨js, hjs, hscs, hdecs⟩ := ih2
  refine ⟨j :: js, by simp [encodeElems, hj, hjs], ⟨hsc, hscs⟩, fun s f => ?_⟩
  simp [decodeInterfaceElems, (hdec s f).1, (hdecs s f).1, firstError, jsonEqElems,
    (hdec s f).2, (hdecs s f).2]

theorem faithful_entries_cons (k : String) (v : GoValue) (es : List (String × GoValue))
    (depth : Nat) (hinc : keysIncreasing ((k, v) :: es))
    (ih1 : EncodesFaithfully v depth) (ih2 : EntriesEncodeFaithfully es depth) :
    EntriesEncodeFaithfully ((k, v) :: es) depth := by
  obtain ⟨j, hj, hsc, hdec⟩ := ih1
  obtain ⟨ms, hms, hscs, hdecs⟩ := ih2
  refine ⟨(k, j) :: ms, by simp [encodeEntries, sequenceMembers, hj, hms], ⟨hsc, hscs⟩,
    fun s f => ?_⟩
  have hfront := insertIfAbsent_front k (decodeInterface s f j).1 es
    (decodeInterfaceMembers s f ms).1 hinc (hdecs s f).2
  simp [decodeInterfaceMembers, (hdec s f).1, (hdecs s f).1, firstError, hfront,
    jsonEqEntries, (hdec s f).2, (hdecs s f).2]

theorem lookupDecoded_insert_self (k : String) (d : Decoded) :
    ∀ ds : List (String × Decoded), lookupDecoded k ds = none →
      lookupDecoded k (insertIfAbsent k d ds) = some d ∧
        (insertIfAbsent k d ds).length = ds.length + 1 := by
  intro ds
  induction ds with
  | nil => intro _; simp [insertIfAbsent, lookupDecoded]
  | cons x rest ih =>
    obtain ⟨k', v'⟩ := x
    intro h
    have hne : ¬ k' = k := by
      intro hk
      simp [lookupDecoded, hk] at h
    have hne' : ¬ k = k' := fun hk => hne hk.symm
    have hrest : lookupDecoded k rest = none := by
      simpa [lookupDecoded, hne] using h
    by_cases hl : keyLess k k' = true
    · simp [insertIfAbsent, hl, lookupDecoded]
    · simp [insertIfAbsent, hl, hne', lookupDecoded, hne, ih hrest]

theorem lookupDecoded_insert_other (k k' : String) (d : Decoded) (h : ¬ k = k') :
    ∀ ds : List (String × Decoded),
      lookupDecoded k' (insertIfAbsent k d ds) = lookupDecoded k' ds := by
  intro ds
  induction ds with
  | nil => simp [insertIfAbsent, lookupDecoded, h]
  | cons x rest ih =>
    obtain ⟨k'', v''⟩ := x
    by_cases hl : keyLess k k'' = true
    · simp [insertIfAbsent, hl, lookupDecoded, h]
    · by_cases he : k = k''
      · subst he
        simp [insertIfAbsent, hl]
      · simp [insertIfAbsent, hl, he, lookupDecoded, ih]

theorem jsonEqFields_insert (k : String) (d : Decoded) (ds : List (String × Decoded)) :
    ∀ fs : List (String × GoValue), k ∉ fs.map Prod.fst → jsonEqFields fs ds →
      jsonEqFields fs (insertIfAbsent k d ds) := by
  intro fs
  induction fs with
  | nil => intro _ _; simp [jsonEqFields]
  | cons x rest ih =>
    obtain ⟨k', v'⟩ := x
    intro hk h
    simp only [List.map_cons, List.mem_cons, not_or] at hk
    simp only [jsonEqFields] at h ⊢
    exact ⟨by rw [lookupDecoded_insert_other k k' d hk.1]; exact h.1, ih hk.2 h.2⟩

theorem faithful_fields_cons (k : String) (v : GoValue) (fs : List (String × GoValue))
    (depth : Nat) (hk : k ∉ fs.map Prod.fst)
    (ih1 : EncodesFaithfully v depth) (ih2 : FieldsEncodeFaithfully fs depth) :
    FieldsEncodeFaithfully ((k, v) :: fs) depth := by
  obtain ⟨j, hj, hsc, hdec⟩ := ih1
  obtain ⟨ms, hms, hscs, hdecs⟩ := ih2
  refine ⟨(k, j) :: ms, by simp [encodeEntries, sequenceMembers, hj, hms], ⟨hsc, hscs⟩,
    fun s f => ?_⟩
  obtain ⟨he, hlen, heq, hno⟩ := hdecs s f
  obtain ⟨hself, hlen'⟩ := lookupDecoded_insert_self k (decodeInterface s f j).1 _ (hno k hk)
  have hd : decodeInterfaceMembers s f ((k, j) :: ms) =
      (insertIfAbsent k (decodeInterface s f j).1 (decodeInterfaceMembers s f ms).1,
        firstError (decodeInterface s f j).2 (decodeInterfaceMembers s f ms).2) := by
    rw [decodeInterfaceMembers]
  rw [hd]
  refine ⟨by simp [(hdec s f).1, he, firstError], by simp [hlen', hlen], ?_, ?_⟩
  · simp only [jsonEqFields]
    exact ⟨⟨_, hself, (hdec s f).2⟩, jsonEqFields_insert k _ _ fs hk heq⟩
  · intro k' hk'
    simp only [List.map_cons, List.mem_cons, not_or] at hk'
    have hne : ¬ k = k' := fun h => hk'.1 h.symm
    show lookupDecoded k' (insertIfAbsent k _ _) = none
    rw [lookupDecoded_insert_other k k' _ hne]
    exact hno k' hk'.2

theorem faithful_struct (fs : List (String × GoValue)) (depth : Nat) (h : 0 < depth)
    (ih : FieldsEncodeFaithfully fs (depth - 1)) : EncodesFaithfully (.struct fs) depth := by
  obtain ⟨ms, hms, hsc, hdec⟩ := ih
  refine ⟨.object ms, by simp [GoValue.encode, hms], ⟨h, hsc⟩, fun s f => ?_⟩
  obtain ⟨he, hlen, heq, _⟩ := hdec s f
  refine ⟨by simpa [decodeInterface] using he, ?_⟩
  rw [decodeInterface]
  show fs.length = _ ∧ jsonEqFields fs _
  exact ⟨hlen.symm, heq⟩

theorem faithful_bytes (b : List (Fin 256)) (depth : Nat) :
    EncodesFaithfully (.bytes b) depth :=
  ⟨.string (String.mk (base64 b)), rfl, trivial, fun _ _ => ⟨rfl, rfl⟩⟩

mutual
/-- A value that round-trips encodes to a scannable JSON value, which decodes without
error to a value equal to it as JSON. -/
theorem encode_roundTrips : ∀ (v : GoValue) (depth : Nat), v.RoundTrips depth →
    EncodesFaithfully v depth
  | .nil, _, _ => ⟨.null, rfl, trivial, fun _ _ => ⟨rfl, trivial⟩⟩
  | .typedNil, _, _ => ⟨.null, rfl, trivial, fun _ _ => ⟨rfl, trivial⟩⟩
  | .bool b, _, _ => ⟨.bool b, rfl, trivial, fun _ _ => ⟨rfl, rfl⟩⟩
  | .string s, _, _ => ⟨.string s, rfl, trivial, fun _ _ => ⟨rfl, rfl⟩⟩
  | .int i, depth, h => faithful_int i depth h
  | .float64 x, depth, h => faithful_float x depth h
  | .float32 x, depth, h => faithful_float32 x depth h
  | .notFinite _, _, h => h.elim
  | .bytes b, depth, _ => faithful_bytes b depth
  | .struct fs, depth, h =>
    faithful_struct fs depth h.1 (encodeFields_roundTrips fs (depth - 1) h.2.2 h.2.1)
  | .slice xs, depth, h =>
    faithful_slice xs depth h.1 (encodeElems_roundTrips xs (depth - 1) h.2)
  | .map es, depth, h =>
    faithful_map es depth h.1 h.2.1 (encodeEntries_roundTrips es (depth - 1) h.2.2 h.2.1)
  | .unsupported _, _, h => h.elim
theorem encodeElems_roundTrips : ∀ (xs : List GoValue) (depth : Nat),
    roundTripsElems depth xs → ElemsEncodeFaithfully xs depth
  | [], _, _ => ⟨[], rfl, trivial, fun _ _ => ⟨rfl, trivial⟩⟩
  | x :: xs, depth, h =>
    faithful_elems_cons x xs depth (encode_roundTrips x depth h.1)
      (encodeElems_roundTrips xs depth h.2)
theorem encodeEntries_roundTrips : ∀ (es : List (String × GoValue)) (depth : Nat),
    roundTripsEntries depth es → keysIncreasing es → EntriesEncodeFaithfully es depth
  | [], _, _, _ => ⟨[], rfl, trivial, fun _ _ => ⟨rfl, trivial⟩⟩
  | (k, v) :: es, depth, h, hinc =>
    faithful_entries_cons k v es depth hinc (encode_roundTrips v depth h.1)
      (encodeEntries_roundTrips es depth h.2 (keysIncreasing_tail _ _ hinc))
theorem encodeFields_roundTrips : ∀ (fs : List (String × GoValue)) (depth : Nat),
    roundTripsEntries depth fs → (fs.map Prod.fst).Nodup → FieldsEncodeFaithfully fs depth
  | [], _, _, _ => ⟨[], rfl, trivial, fun _ _ => ⟨rfl, rfl, trivial, fun _ _ => rfl⟩⟩
  | (k, v) :: fs, depth, h, hn =>
    faithful_fields_cons k v fs depth (List.nodup_cons.mp hn).1 (encode_roundTrips v depth h.1)
      (encodeFields_roundTrips fs depth h.2 (List.nodup_cons.mp hn).2)
end

end Lemmas

/-! ### Decoding what was encoded from the structures -/

section Lemmas

theorem firstError_none (a : Option GoError) : firstError a none = a := by
  cases a <;> rfl

theorem firstError_assoc (a b c : Option GoError) :
    firstError a (firstError b c) = firstError (firstError a b) c := by
  cases a <;> rfl

theorem decodeMembers_append {α : Type} (set : α → String → Json → α × Option GoError)
    (xs ys : List (String × Json)) : ∀ a : α,
    decodeMembers set a (xs ++ ys) =
      ((decodeMembers set (decodeMembers set a xs).1 ys).1,
        firstError (decodeMembers set a xs).2
          (decodeMembers set (decodeMembers set a xs).1 ys).2) := by
  induction xs with
  | nil => intro a; simp [decodeMembers, firstError]
  | cons x xs ih =>
    intro a
    obtain ⟨k, v⟩ := x
    have h1 : decodeMembers set a ((k, v) :: (xs ++ ys)) =
        ((decodeMembers set (set a k v).1 (xs ++ ys)).1,
          firstError (set a k v).2 (decodeMembers set (set a k v).1 (xs ++ ys)).2) := rfl
    have h2 : decodeMembers set a ((k, v) :: xs) =
        ((decodeMembers set (set a k v).1 xs).1,
          firstError (set a k v).2 (decodeMembers set (set a k v).1 xs).2) := rfl
    rw [List.cons_append, h1, h2, ih, firstError_assoc]

theorem decodeMembers_omitEmptyString {α : Type}
    (set : α → String → Json → α × Option GoError) (a : α) (key s : String) :
    decodeMembers set a (omitEmptyString key s) =
      if s = "" then (a, none) else set a key (.string s) := by
  unfold omitEmptyString
  by_cases h : s = ""
  · simp [h, decodeMembers]
  · simp only [h, if_false, decodeMembers, firstError_none]

theorem storeImage_encode (img : V2EventImage) :
    storeImage ⟨"", "", ""⟩ img.encode = (img, none) := by
  obtain ⟨src, href, alt⟩ := img
  have f1 : findField ["src", "href", "alt"] "src" = some "src" := by decide
  have f2 : findField ["src", "href", "alt"] "href" = some "href" := by decide
  have f3 : findField ["src", "href", "alt"] "alt" = some "alt" := by decide
  simp only [V2EventImage.encode, storeImage, decodeMembers, decodeMembers_append,
    decodeMembers_omitEmptyString]
  by_cases h1 : href = "" <;> by_cases h2 : alt = "" <;>
    simp [V2EventImage.setField, f1, f2, f3, storeString, firstError, h1, h2]

theorem storeLink_encode (l : V2EventLink) : storeLink ⟨"", ""⟩ l.encode = (l, none) := by
  obtain ⟨href, text⟩ := l
  have f1 : findField ["href", "text"] "href" = some "href" := by decide
  have f2 : findField ["href", "text"] "text" = some "text" := by decide
  simp [V2EventLink.encode, storeLink, decodeMembers, V2EventLink.setField, f1, f2,
    storeString, firstError]

theorem storeElems_encode {α : Type} (store : α → Json → α × Option GoError) (zero : α)
    (enc : α → Json) (h : ∀ a, store zero (enc a) = (a, none)) (xs : List α) :
    storeElems store zero [] (xs.map enc) = (xs, none) := by
  induction xs with
  | nil => rfl
  | cons x xs ih => simp [storeElems, h, ih, firstError]

end Lemmas

section Lemmas

theorem scannableMembers_append (depth : Nat) (xs ys : List (String × Json))
    (hx : scannableMembers depth xs) (hy : scannableMembers depth ys) :
    scannableMembers depth (xs ++ ys) := by
  induction xs with
  | nil => exact hy
  | cons x xs ih =>
    obtain ⟨k, v⟩ := x
    exact ⟨hx.1, ih hx.2⟩

theorem scannableMembers_omitEmptyString (depth : Nat) (key s : String) :
    scannableMembers depth (omitEmptyString key s) := by
  unfold omitEmptyString
  split
  · trivial
  · exact ⟨trivial, trivial⟩

theorem payload_setString (su so se ts co gr cl : String) (d : Decoded) (s : String) :
    V2Payload.setField ⟨su, so, se, ts, co, gr, cl, d⟩ "summary" (.string s) =
      (⟨s, so, se, ts, co, gr, cl, d⟩, none) ∧
    V2Payload.setField ⟨su, so, se, ts, co, gr, cl, d⟩ "source" (.string s) =
      (⟨su, s, se, ts, co, gr, cl, d⟩, none) ∧
    V2Payload.setField ⟨su, so, se, ts, co, gr, cl, d⟩ "severity" (.string s) =
      (⟨su, so, s, ts, co, gr, cl, d⟩, none) ∧
    V2Payload.setField ⟨su, so, se, ts, co, gr, cl, d⟩ "timestamp" (.string s) =
      (⟨su, so, se, s, co, gr, cl, d⟩, none) ∧
    V2Payload.setField ⟨su, so, se, ts, co, gr, cl, d⟩ "component" (.string s) =
      (⟨su, so, se, ts, s, gr, cl, d⟩, none) ∧
    V2Payload.setField ⟨su, so, se, ts, co, gr, cl, d⟩ "group" (.string s) =
      (⟨su, so, se, ts, co, s, cl, d⟩, none) ∧
    V2Payload.setField ⟨su, so, se, ts, co, gr, cl, d⟩ "class" (.string s) =
      (⟨su, so, se, ts, co, gr, s, d⟩, none) := by
  have f1 : findField payloadFields "summary" = some "summary" := by decide
  have f2 : findField payloadFields "source" = some "source" := by decide
  have f3 : findField payloadFields "severity" = some "severity" := by decide
  have f4 : findField payloadFields "timestamp" = some "timestamp" := by decide
  have f5 : findField payloadFields "component" = some "component" := by decide
  have f6 : findField payloadFields "group" = some "group" := by decide
  have f7 : findField payloadFields "class" = some "class" := by decide
  refine ⟨?_, ?_, ?_, ?_, ?_, ?_, ?_⟩ <;>
    simp [V2Payload.setField, f1, f2, f3, f4, f5, f6, f7, storeString]

theorem payload_omit (su so se ts co gr cl : String) (d : Decoded) (s : String) :
    (ts = "" → decodeMembers V2Payload.setField ⟨su, so, se, ts, co, gr, cl, d⟩
      (omitEmptyString "timestamp" s) = (⟨su, so, se, s, co, gr, cl, d⟩, none)) ∧
    (co = "" → decodeMembers V2Payload.setField ⟨su, so, se, ts, co, gr, cl, d⟩
      (omitEmptyString "component" s) = (⟨su, so, se, ts, s, gr, cl, d⟩, none)) ∧
    (gr = "" → decodeMembers V2Payload.setField ⟨su, so, se, ts, co, gr, cl, d⟩
      (omitEmptyString "group" s) = (⟨su, so, se, ts, co, s, cl, d⟩, none)) ∧
    (cl = "" → decodeMembers V2Payload.setField ⟨su, so, se, ts, co, gr, cl, d⟩
      (omitEmptyString "class" s) = (⟨su, so, se, ts, co, gr, s, d⟩, none)) := by
  obtain ⟨_, _, _, h4, h5, h6, h7⟩ := payload_setString su so se ts co gr cl d s
  refine ⟨?_, ?_, ?_, ?_⟩ <;> intro h0 <;> subst h0 <;>
    rw [decodeMembers_omitEmptyString] <;> by_cases hs : s = ""
  all_goals first
    | (subst hs; rfl)
    | simp only [hs, if_false, h4, h5, h6, h7]

/-- The member `custom_details` of a payload whose details round-trip. -/
theorem details_roundtrip (d : GoValue) (depth : Nat) (hd : d.RoundTrips depth) :
    ∃ details d', encodeDetails d = .ok details ∧ scannableMembers depth details ∧
      JsonEq d d' ∧ ∀ su so se ts co gr cl : String,
        decodeMembers V2Payload.setField ⟨su, so, se, ts, co, gr, cl, .nil⟩ details =
          (⟨su, so, se, ts, co, gr, cl, d'⟩, none) := by
  obtain ⟨dj, hdj, hsc, hdec⟩ := encode_roundTrips d depth hd
  have f8 : findField payloadFields "custom_details" = some "custom_details" := by decide
  have key : ∀ su so se ts co gr cl : String,
      decodeMembers V2Payload.setField ⟨su, so, se, ts, co, gr, cl, .nil⟩
        [("custom_details", dj)] =
      (⟨su, so, se, ts, co, gr, cl,
        (decodeInterface "V2Payload" "payload.custom_details" dj).1⟩, none) := by
    intro su so se ts co gr cl
    simp [decodeMembers, V2Payload.setField, f8, firstError_none,
      (hdec "V2Payload" "payload.custom_details").1]
  have hj := (hdec "V2Payload" "payload.custom_details").2
  cases d with
  | nil => exact ⟨[], .nil, rfl, trivial, trivial, fun _ _ _ _ _ _ _ => rfl⟩
  | unsupported t => exact hd.elim
  | notFinite t => exact hd.elim
  | typedNil =>
    exact ⟨[("custom_details", dj)], _, by simp [encodeDetails, hdj], ⟨hsc, trivial⟩, hj, key⟩
  | float64 x =>
    exact ⟨[("custom_details", dj)], _, by simp [encodeDetails, hdj], ⟨hsc, trivial⟩, hj, key⟩
  | float32 x =>
    exact ⟨[("custom_details", dj)], _, by simp [encodeDetails, hdj], ⟨hsc, trivial⟩, hj, key⟩
  | bytes b =>
    exact ⟨[("custom_details", dj)], _, by simp [encodeDetails, hdj], ⟨hsc, trivial⟩, hj, key⟩
  | struct fs =>
    exact ⟨[("custom_details", dj)], _, by simp [encodeDetails, hdj], ⟨hsc, trivial⟩, hj, key⟩
  | bool b =>
    exact ⟨[("custom_details", dj)], _, by simp [encodeDetails, hdj], ⟨hsc, trivial⟩, hj, key⟩
  | int i =>
    exact ⟨[("custom_details", dj)], _, by simp [encodeDetails, hdj], ⟨hsc, trivial⟩, hj, key⟩
  | string s =>
    exact ⟨[("custom_details", dj)], _, by simp [encodeDetails, hdj], ⟨hsc, trivial⟩, hj, key⟩
  | slice xs =>
    exact ⟨[("custom_details", dj)], _, by simp [encodeDetails, hdj], ⟨hsc, trivial⟩, hj, key⟩
  | map es =>
    exact ⟨[("custom_details", dj)], _, by simp [encodeDetails, hdj], ⟨hsc, trivial⟩, hj, key⟩

/-- A payload whose details round-trip encodes to an object that decodes to the same
payload. -/
theorem payload_roundtrip (p : V2Payload GoValue) (depth : Nat)
    (hd : p.Details.RoundTrips depth) :
    ∃ pms p', p.encode = .ok (.object pms) ∧ scannableMembers depth pms ∧
      decodeMembers V2Payload.setField zeroPayload pms = (p', none) ∧ p.SameAs p' := by
  obtain ⟨su, so, se, ts, co, gr, cl, d⟩ := p
  obtain ⟨details, d', henc, hsc, hjeq, hdec⟩ := details_roundtrip d depth hd
  refine ⟨("summary", .string su) :: ("source", .string so) :: ("severity", .string se) ::
      (omitEmptyString "timestamp" ts ++ omitEmptyString "component" co ++
        omitEmptyString "group" gr ++ omitEmptyString "class" cl ++ details),
    ⟨su, so, se, ts, co, gr, cl, d'⟩, by rw [V2Payload.encode, henc], ?_, ?_,
    ⟨rfl, rfl, rfl, rfl, rfl, rfl, rfl, hjeq⟩⟩
  · refine ⟨trivial, trivial, trivial, ?_⟩
    exact scannableMembers_append _ _ _ (scannableMembers_append _ _ _
      (scannableMembers_append _ _ _ (scannableMembers_append _ _ _
        (scannableMembers_omitEmptyString _ _ _) (scannableMembers_omitEmptyString _ _ _))
        (scannableMembers_omitEmptyString _ _ _)) (scannableMembers_omitEmptyString _ _ _)) hsc
  · have s1 := (payload_setString "" "" "" "" "" "" "" .nil su).1
    have s2 := (payload_setString su "" "" "" "" "" "" .nil so).2.1
    have s3 := (payload_setString su so "" "" "" "" "" .nil se).2.2.1
    have o1 := (payload_omit su so se "" "" "" "" .nil ts).1 rfl
    have o2 := (payload_omit su so se ts "" "" "" .nil co).2.1 rfl
    have o3 := (payload_omit su so se ts co "" "" .nil gr).2.2.1 rfl
    have o4 := (payload_omit su so se ts co gr "" .nil cl).2.2.2 rfl
    simp only [zeroPayload, decodeMembers, decodeMembers_append, s1, s2, s3, o1, o2, o3, o4,
      hdec, firstError]

end Lemmas

section Lemmas

theorem event_setString (rk ac dk : String) (im : List V2EventImage) (li : List V2EventLink)
    (cl cu : String) (pl : Option (V2Payload Decoded)) (s : String) :
    V2Event.setField ⟨rk, ac, dk, im, li, cl, cu, pl⟩ "routing_key" (.string s) =
      (⟨s, ac, dk, im, li, cl, cu, pl⟩, none) ∧
    V2Event.setField ⟨rk, ac, dk, im, li, cl, cu, pl⟩ "event_action" (.string s) =
      (⟨rk, s, dk, im, li, cl, cu, pl⟩, none) ∧
    V2Event.setField ⟨rk, ac, dk, im, li, cl, cu, pl⟩ "dedup_key" (.string s) =
      (⟨rk, ac, s, im, li, cl, cu, pl⟩, none) ∧
    V2Event.setField ⟨rk, ac, dk, im, li, cl, cu, pl⟩ "client" (.string s) =
      (⟨rk, ac, dk, im, li, s, cu, pl⟩, none) ∧
    V2Event.setField ⟨rk, ac, dk, im, li, cl, cu, pl⟩ "client_url" (.string s) =
      (⟨rk, ac, dk, im, li, cl, s, pl⟩, none) := by
  have f1 : findField eventFields "routing_key" = some "routing_key" := by decide
  have f2 : findField eventFields "event_action" = some "event_action" := by decide
  have f3 : findField eventFields "dedup_key" = some "dedup_key" := by decide
  have f4 : findField eventFields "client" = some "client" := by decide
  have f5 : findField eventFields "client_url" = some "client_url" := by decide
  refine ⟨?_, ?_, ?_, ?_, ?_⟩ <;>
    simp [V2Event.setField, f1, f2, f3, f4, f5, storeString]

theorem event_omit (rk ac dk : String) (im : List V2EventImage) (li : List V2EventLink)
    (cl cu : String) (pl : Option (V2Payload Decoded)) (s : String) :
    (dk = "" → decodeMembers V2Event.setField ⟨rk, ac, dk, im, li, cl, cu, pl⟩
      (omitEmptyString "dedup_key" s) = (⟨rk, ac, s, im, li, cl, cu, pl⟩, none)) ∧
    (cl = "" → decodeMembers V2Event.setField ⟨rk, ac, dk, im, li, cl, cu, pl⟩
      (omitEmptyString "client" s) = (⟨rk, ac, dk, im, li, s, cu, pl⟩, none)) ∧
    (cu = "" → decodeMembers V2Event.setField ⟨rk, ac, dk, im, li, cl, cu, pl⟩
      (omitEmptyString "client_url" s) = (⟨rk, ac, dk, im, li, cl, s, pl⟩, none)) := by
  obtain ⟨_, _, h3, h4, h5⟩ := event_setString rk ac dk im li cl cu pl s
  refine ⟨?_, ?_, ?_⟩ <;> intro h0 <;> subst h0 <;>
    rw [decodeMembers_omitEmptyString] <;> by_cases hs : s = ""
  all_goals first
    | (subst hs; rfl)
    | simp only [hs, if_false, h3, h4, h5]

theorem event_images (rk ac dk : String) (li : List V2EventLink) (cl cu : String)
    (pl : Option (V2Payload Decoded)) (imgs : List V2EventImage) :
    decodeMembers V2Event.setField ⟨rk, ac, dk, [], li, cl, cu, pl⟩ (encodeImages imgs) =
      (⟨rk, ac, dk, imgs, li, cl, cu, pl⟩, none) := by
  have f : findField eventFields "images" = some "images" := by decide
  unfold encodeImages
  by_cases h : imgs = []
  · subst h; rfl
  · have hs := storeElems_encode storeImage ⟨"", "", ""⟩ V2EventImage.encode
      storeImage_encode imgs
    simp [h, decodeMembers, V2Event.setField, f, storeSlice, hs, firstError]

theorem event_links (rk ac dk : String) (im : List V2EventImage) (cl cu : String)
    (pl : Option (V2Payload Decoded)) (links : List V2EventLink) :
    decodeMembers V2Event.setField ⟨rk, ac, dk, im, [], cl, cu, pl⟩ (encodeLinks links) =
      (⟨rk, ac, dk, im, links, cl, cu, pl⟩, none) := by
  have f : findField eventFields "links" = some "links" := by decide
  unfold encodeLinks
  by_cases h : links = []
  · subst h; rfl
  · have hs := storeElems_encode storeLink ⟨"", ""⟩ V2EventLink.encode storeLink_encode links
    simp [h, decodeMembers, V2Event.setField, f, storeSlice, hs, firstError]

/-- The member `payload` of an event whose details round-trip. -/
theorem event_payload (pay : Option (V2Payload GoValue)) (depth : Nat)
    (hd : ∀ p, pay = some p → p.Details.RoundTrips depth) :
    ∃ pl pay', encodePayload pay = .ok pl ∧
      (∀ k v, (k, v) ∈ pl → k = "payload" ∧ ∃ pms, v = .object pms ∧
        scannableMembers depth pms) ∧
      payloadSameAs pay pay' ∧
      ∀ (rk ac dk : String) (im : List V2EventImage) (li : List V2EventLink) (cl cu : String),
        decodeMembers V2Event.setField ⟨rk, ac, dk, im, li, cl, cu, none⟩ pl =
          (⟨rk, ac, dk, im, li, cl, cu, pay'⟩, none) := by
  cases pay with
  | none => exact ⟨[], none, rfl, by simp, trivial, fun _ _ _ _ _ _ _ => rfl⟩
  | some p =>
    obtain ⟨pms, p', henc, hsc, hdec, hsame⟩ := payload_roundtrip p depth (hd p rfl)
    have f : findField eventFields "payload" = some "payload" := by decide
    refine ⟨[("payload", .object pms)], some p', by simp [encodePayload, henc], ?_, hsame, ?_⟩
    · intro k v hkv
      simp only [List.mem_singleton, Prod.mk.injEq] at hkv
      exact ⟨hkv.1, pms, hkv.2, hsc⟩
    · intro rk ac dk im li cl cu
      simp [decodeMembers, V2Event.setField, f, storePayload, hdec, firstError]

theorem scannable_images (imgs : List V2EventImage) (depth : Nat) (h : 0 < depth) :
    scannableElems depth (imgs.map V2EventImage.encode) := by
  induction imgs with
  | nil => trivial
  | cons i is ih =>
    exact ⟨⟨h, trivial, scannableMembers_append _ _ _
      (scannableMembers_omitEmptyString _ _ _) (scannableMembers_omitEmptyString _ _ _)⟩, ih⟩

theorem scannable_links (links : List V2EventLink) (depth : Nat) (h : 0 < depth) :
    scannableElems depth (links.map V2EventLink.encode) := by
  induction links with
  | nil => trivial
  | cons l ls ih => exact ⟨⟨h, trivial, trivial, trivial⟩, ih⟩

theorem scannable_encodeImages (imgs : List V2EventImage) (depth : Nat) (h : 1 < depth) :
    scannableMembers depth (encodeImages imgs) := by
  unfold encodeImages
  split
  · trivial
  · exact ⟨⟨by omega, scannable_images imgs (depth - 1) (by omega)⟩, trivial⟩

theorem scannable_encodeLinks (links : List V2EventLink) (depth : Nat) (h : 1 < depth) :
    scannableMembers depth (encodeLinks links) := by
  unfold encodeLinks
  split
  · trivial
  · exact ⟨⟨by omega, scannable_links links (depth - 1) (by omega)⟩, trivial⟩

theorem scannable_payload (pl : List (String × Json)) (depth : Nat) (h : 0 < depth)
    (hpl : ∀ k v, (k, v) ∈ pl → k = "payload" ∧ ∃ pms, v = .object pms ∧
      scannableMembers (depth - 1) pms) : scannableMembers depth pl := by
  induction pl with
  | nil => trivial
  | cons x xs ih =>
    obtain ⟨k, v⟩ := x
    obtain ⟨_, pms, rfl, hsc⟩ := hpl k v (List.mem_cons_self _ _)
    exact ⟨⟨h, hsc⟩, ih (fun k' v' hm => hpl k' v' (List.mem_cons_of_mem _ hm))⟩

/-- An event whose custom details round-trip is marshalled to a text that unmarshals to
an event with the same fields. -/
theorem unmarshal_marshal_aux (e : V2Event GoValue) (hd : e.DetailsRoundTrip) :
    ∃ data e', Marshal e = .ok data ∧ Unmarshal data = .ok e' ∧ e.SameAs e' := by
  obtain ⟨rk, ac, dk, im, li, cl, cu, pay⟩ := e
  obtain ⟨pl, pay', henc, hpl, hsame, hdec⟩ := event_payload pay (maxNestingDepth - 2) hd
  have hj : (V2Event.mk rk ac dk im li cl cu pay).encode =
      .ok (.object (("routing_key", .string rk) :: ("event_action", .string ac) ::
        (omitEmptyString "dedup_key" dk ++ encodeImages im ++ encodeLinks li ++
          omitEmptyString "client" cl ++ omitEmptyString "client_url" cu ++ pl))) := by
    rw [V2Event.encode, henc]
  have hsc : (Json.object (("routing_key", .string rk) :: ("event_action", .string ac) ::
        (omitEmptyString "dedup_key" dk ++ encodeImages im ++ encodeLinks li ++
          omitEmptyString "client" cl ++ omitEmptyString "client_url" cu ++ pl))).Scannable
        maxNestingDepth := by
    refine ⟨by decide, trivial, trivial, ?_⟩
    exact scannableMembers_append _ _ _ (scannableMembers_append _ _ _
      (scannableMembers_append _ _ _ (scannableMembers_append _ _ _
        (scannableMembers_append _ _ _ (scannableMembers_omitEmptyString _ _ _)
          (scannable_encodeImages im _ (by decide)))
        (scannable_encodeLinks li _ (by decide)))
        (scannableMembers_omitEmptyString _ _ _)) (scannableMembers_omitEmptyString _ _ _))
      (scannable_payload pl _ (by decide) hpl)
  refine ⟨_, ⟨rk, ac, dk, im, li, cl, cu, pay'⟩, by rw [Marshal, hj],
    ?_, ⟨rfl, rfl, rfl, rfl, rfl, rfl, rfl, hsame⟩⟩
  have s1 := (event_setString "" "" "" [] [] "" "" none rk).1
  have s2 := (event_setString rk "" "" [] [] "" "" none ac).2.1
  have o1 := (event_omit rk ac "" [] [] "" "" none dk).1 rfl
  have o2 := event_images rk ac dk [] "" "" none im
  have o3 := event_links rk ac dk im "" "" none li
  have o4 := (event_omit rk ac dk im li "" "" none cl).2.1 rfl
  have o5 := (event_omit rk ac dk im li cl "" none cu).2.2 rfl
  have hdm : decodeMembers V2Event.setField zeroEvent
      (("routing_key", .string rk) :: ("event_action", .string ac) ::
        (omitEmptyString "dedup_key" dk ++ encodeImages im ++ encodeLinks li ++
          omitEmptyString "client" cl ++ omitEmptyString "client_url" cu ++ pl)) =
      (⟨rk, ac, dk, im, li, cl, cu, pay'⟩, none) := by
    simp only [zeroEvent, decodeMembers, decodeMembers_append, s1, s2, o1, o2, o3, o4, o5,
      hdec, firstError]
  rw [Unmarshal, scanFirst_render _ hsc]
  simp only [skipSpace, unmarshalEvent, hdm]

end Lemmas

section Lemmas

theorem populatedEvent_populated (d : GoValue) (h : d ≠ .nil) :
    (populatedEvent d).Populated :=
  ⟨by simp [populatedEvent], by simp [populatedEvent], by simp [populatedEvent],
    by simp [populatedEvent], by simp [populatedEvent], _, rfl, by simp, by simp, by simp,
    by simp, h⟩

theorem sampleDetails_roundTrips : sampleDetails.RoundTrips (maxNestingDepth - 2) := by
  refine ⟨by decide, ⟨by decide, by decide, by decide, by decide, by decide, by decide,
    trivial⟩, ?_, ?_, ?_, ?_, ?_, ?_, trivial, trivial⟩
  · exact ⟨0, 0, by decide, by decide, rfl⟩
  · exact ⟨1, 54, by decide, by decide, rfl⟩
  · exact ⟨by decide, by decide, by decide⟩
  · show readsBack _ _ = true
    decide!
  · refine ⟨by decide, trivial, trivial, trivial, trivial, ?_, ?_, trivial⟩
    · exact ⟨17, 0, by decide, by decide, rfl⟩
    · exact ⟨by decide, by decide, by decide⟩
  · refine ⟨by decide, by decide, trivial, ?_, trivial⟩
    exact ⟨7, 0, by decide, by decide, rfl⟩

end Lemmas

/-! ### Custom details nested deeper than the scanner allows -/

section Lemmas

theorem nestedSlices_encode (n : Nat) : (nestedSlices n).encode = .ok (nestedArrays n) := by
  induction n with
  | zero => rfl
  | succ n ih => simp [nestedSlices, nestedArrays, GoValue.encode, encodeElems, ih]

theorem nestedArrays_render (n : Nat) :
    ∃ t, (nestedArrays n).render = '[' :: t ∧ t.length = 2 * n + 1 := by
  induction n with
  | zero => exact ⟨[']'], rfl, rfl⟩
  | succ n ih =>
    obtain ⟨t, ht, hl⟩ := ih
    refine ⟨(nestedArrays n).render ++ [']'], rfl, ?_⟩
    rw [ht]
    simp only [List.length_append, List.length_cons, List.length_nil]
    omega

/-- Arrays nested one deeper than the scanner may still open are rejected. -/
theorem scanValue_nestedArrays (n : Nat) : ∀ (fuel : Nat) (tail : List Char), 2 * n < fuel →
    scanValue fuel n ((nestedArrays n).render ++ tail) =
      .error (.invalid '[' "exceeded max depth") := by
  induction n with
  | zero =>
    intro fuel tail h
    obtain ⟨f, rfl⟩ : ∃ f, fuel = f + 1 := ⟨fuel - 1, by omega⟩
    simp [nestedArrays, Json.render, scanValue, skipSpace_cons '[' _ (by decide)]
  | succ n ih =>
    intro fuel tail h
    obtain ⟨f, rfl⟩ : ∃ f, fuel = f + 2 := ⟨fuel - 2, by omega⟩
    obtain ⟨t, ht, _⟩ := nestedArrays_render n
    have hi := ih f (']' :: tail) (by omega)
    have hr : (nestedArrays (n + 1)).render ++ tail =
        '[' :: ((nestedArrays n).render ++ (']' :: tail)) := by
      simp [nestedArrays, Json.render, renderElems]
    rw [hr, scanValue, skipSpace_cons _ _ (by decide)]
    rw [ht] at hi ⊢
    rw [List.cons_append] at hi ⊢
    simp [skipSpace_cons '[' _ (by decide), scanElems, hi]

theorem renderMembers_snoc (ms : List (String × Json)) (k : String) (v : Json) :
    renderMembers (ms ++ [(k, v)]) =
      ',' :: (openMembers ms ++ (renderString k ++ ':' :: (v.render ++ ['}']))) := by
  induction ms with
  | nil => simp [renderMembers, openMembers]
  | cons m ms ih =>
    obtain ⟨k', v'⟩ := m
    simp [renderMembers, openMembers, ih]

theorem render_object_snoc (ms : List (String × Json)) (k : String) (v : Json) :
    (Json.object (ms ++ [(k, v)])).render =
      '{' :: (openMembers ms ++ (renderString k ++ ':' :: (v.render ++ ['}']))) := by
  cases ms with
  | nil => simp [Json.render, renderMembers, openMembers]
  | cons m ms =>
    obtain ⟨k', v'⟩ := m
    simp [Json.render, openMembers, renderMembers_snoc]

theorem openMembers_head (ms : List (String × Json)) (k : String) (rest : List Char) :
    ∃ t, openMembers ms ++ (renderString k ++ rest) = '"' :: t := by
  cases ms with
  | nil => exact ⟨_, rfl⟩
  | cons m ms =>
    obtain ⟨k', v'⟩ := m
    exact ⟨_, rfl⟩

/-- When the value of the last member is rejected, so are the members. -/
theorem scanMembers_fails (E : ScanError) (depth need : Nat) (k : String) (X : List Char)
    (hX : ∀ f, need ≤ f → scanValue f depth X = .error E) (pre : List (String × Json)) :
    ∀ fuel, sizeMembers pre + need < fuel → scannableMembers depth pre →
      scanMembers fuel depth (openMembers pre ++ (renderString k ++ ':' :: X)) = .error E := by
  induction pre with
  | nil =>
    intro fuel hf _
    obtain ⟨f, rfl⟩ : ∃ f, fuel = f + 1 := ⟨fuel - 1, by omega⟩
    simp only [openMembers, List.nil_append, renderString, List.cons_append, List.append_assoc]
    rw [scanMembers_step, hX f (by simp only [sizeMembers] at hf; omega)]
  | cons m ms ih =>
    intro fuel hf hsc
    obtain ⟨k1, v1⟩ := m
    obtain ⟨f, rfl⟩ : ∃ f, fuel = f + 1 := ⟨fuel - 1, by omega⟩
    simp only [sizeMembers] at hf
    obtain ⟨t, ht⟩ := openMembers_head ms k (':' :: X)
    have hv := (scan_render_aux f).1 v1 depth
      (',' :: (openMembers ms ++ (renderString k ++ ':' :: X))) (by omega) hsc.1
      (endsNumber_cons _ _ (by decide))
    have hi := ih f (by omega) hsc.2
    simp only [openMembers, renderString, List.cons_append, List.append_assoc,
      List.nil_append] at hv hi ht ⊢
    rw [scanMembers_step, hv]
    simp only [skipSpace_cons ',' _ (by decide)]
    rw [ht] at hi ⊢
    simp [skipSpace_cons '"' _ (by decide), hi]

/-- When the value of the last member is rejected, so is the object. -/
theorem scanValue_object_fails (E : ScanError) (depth need : Nat) (k : String)
    (X : List Char) (hX : ∀ f, need ≤ f → scanValue f depth X = .error E)
    (pre : List (String × Json)) (hsc : scannableMembers depth pre) (fuel : Nat)
    (hf : sizeMembers pre + need + 1 < fuel) :
    scanValue fuel (depth + 1) ('{' :: (openMembers pre ++ (renderString k ++ ':' :: X))) =
      .error E := by
  obtain ⟨f, rfl⟩ : ∃ f, fuel = f + 1 := ⟨fuel - 1, by omega⟩
  obtain ⟨t, ht⟩ := openMembers_head pre k (':' :: X)
  have hm := scanMembers_fails E depth need k X hX pre f (by omega) hsc
  rw [scanValue, skipSpace_cons _ _ (by decide)]
  rw [ht] at hm ⊢
  simp [skipSpace_cons '"' _ (by decide), hm]

end Lemmas

section Lemmas

theorem encodeDetails_nestedSlices (n : Nat) :
    encodeDetails (nestedSlices n) = .ok [("custom_details", nestedArrays n)] := by
  have h := nestedSlices_encode n
  cases n with
  | zero => rfl
  | succ n =>
    simp only [nestedSlices] at h ⊢
    simp only [encodeDetails, h]

theorem populatedEvent_encode (d : GoValue) (dj : Json)
    (hd : encodeDetails d = .ok [("custom_details", dj)]) :
    Marshal (populatedEvent d) =
      .ok (Json.object (populatedEventMembers ++ [("payload",
        .object (populatedPayloadMembers ++ [("custom_details", dj)]))])).render := by
  have hp : V2Payload.encode
      { Summary := "disk <full>", Source := "host-1", Severity := "critical",
        Timestamp := "2020-01-01T00:00:00Z", Component := "disk", Group := "storage",
        Class := "capacity", Details := d } =
      .ok (.object (populatedPayloadMembers ++ [("custom_details", dj)])) := by
    rw [V2Payload.encode]
    simp only [hd]
    rfl
  rw [Marshal, V2Event.encode]
  simp only [populatedEvent, encodePayload, hp]
  rfl

theorem populated_scan_fails (dj : Json) (E : ScanError) (need : Nat)
    (hX : ∀ f tail, need ≤ f → scanValue f 9998 (dj.render ++ tail) = .error E)
    (hlen : need ≤ 2 * dj.render.length) :
    scanFirst (Json.object (populatedEventMembers ++ [("payload",
        .object (populatedPayloadMembers ++ [("custom_details", dj)]))])).render =
      .error E := by
  have hs1 : sizeMembers populatedPayloadMembers = 14 := rfl
  have hs2 : sizeMembers populatedEventMembers = 28 := rfl
  have hsc1 : scannableMembers 9998 populatedPayloadMembers :=
    ⟨trivial, trivial, trivial, trivial, trivial, trivial, trivial, trivial⟩
  have hsc2 : scannableMembers 9999 populatedEventMembers :=
    ⟨trivial, trivial, trivial,
      ⟨by decide, ⟨by decide, trivial, trivial, trivial, trivial⟩, trivial⟩,
      ⟨by decide, ⟨by decide, trivial, trivial, trivial⟩, trivial⟩, trivial, trivial, trivial⟩
  have h1 : ∀ f, 14 + need + 2 ≤ f →
      scanValue f 9999 ((Json.object (populatedPayloadMembers ++
        [("custom_details", dj)])).render ++ ['}']) = .error E := by
    intro f hf
    rw [render_object_snoc]
    simp only [List.cons_append, List.append_assoc]
    exact scanValue_object_fails E 9998 need "custom_details" (dj.render ++ (['}'] ++ ['}']))
      (fun f' hf' => hX f' _ hf') populatedPayloadMembers hsc1 f (by omega)
  rw [scanFirst, render_object_snoc]
  refine scanValue_object_fails E 9999 (14 + need + 2) "payload" _ h1
    populatedEventMembers hsc2 _ ?_
  have hc1 : (renderString "payload").length = 9 := rfl
  have hc2 : (renderString "custom_details").length = 16 := rfl
  simp only [List.length_cons, List.length_append, render_object_snoc]
  omega

/-- The event with custom details nested one level deeper than the scanner allows is
marshalled to a text that `json.Unmarshal` rejects. -/
theorem deepEvent_unmarshal :
    Marshal (populatedEvent (nestedSlices 9998)) =
      .ok (marshalled (populatedEvent (nestedSlices 9998))) ∧
    Unmarshal (marshalled (populatedEvent (nestedSlices 9998))) =
      .error (.syntaxError "invalid character '[' exceeded max depth") := by
  have hm := populatedEvent_encode _ _ (encodeDetails_nestedSlices 9998)
  have hmd : marshalled (populatedEvent (nestedSlices 9998)) =
      (Json.object (populatedEventMembers ++ [("payload",
        .object (populatedPayloadMembers ++ [("custom_details", nestedArrays 9998)]))])).render := by
    rw [marshalled, hm]
  obtain ⟨t, ht, hl⟩ := nestedArrays_render 9998
  have hs := populated_scan_fails (nestedArrays 9998) (.invalid '[' "exceeded max depth")
    (2 * 9998 + 1) (fun f tail hf => scanValue_nestedArrays 9998 f tail (by omega))
    (by rw [ht]; simp only [List.length_cons]; omega)
  refine ⟨by rw [hmd]; exact hm, ?_⟩
  rw [hmd, Unmarshal, hs]
  rfl

end Lemmas

set_option maxRecDepth 100000 in
set_option exponentiation.threshold 2048 in
/-- C2, as stated, fails, at fully populated events. With the integer `2^53 + 1` as
custom details the text holds the literal `9007199254740993`, which unmarshals to the
`float64` of value `2^53`: not the original as a JSON number. With the `float32` nearest
to 0.1 as custom details the text holds `0.1`, which unmarshals to the `float64` nearest
to 0.1: another number than the `float32`. With slices nested 9999 deep as custom details
the text nests 10001 deep, and `json.Unmarshal` rejects it. -/
theorem unmarshal_marshal_counterexample :
    (¬ ∀ e : V2Event GoValue, e.Populated → ∀ data, Marshal e = .ok data →
        ∃ e', Unmarshal data = .ok e' ∧ e.SameAs e') ∧
    Unmarshal (marshalled (populatedEvent (.int 9007199254740993))) =
      .ok (populatedDecoded (.float64 ⟨false, 4503599627370496, 1⟩)) ∧
    (Unmarshal (marshalled (populatedEvent (.float32 ⟨false, 13421773, -27⟩))) =
        .ok (populatedDecoded (.float64 ⟨false, 7205759403792794, -56⟩)) ∧
      ¬ Float64.SameValue ⟨false, 13421773, -27⟩ ⟨false, 7205759403792794, -56⟩) ∧
    Marshal (populatedEvent (nestedSlices 9998)) =
      .ok (marshalled (populatedEvent (nestedSlices 9998))) ∧
    Unmarshal (marshalled (populatedEvent (nestedSlices 9998))) =
      .error (.syntaxError "invalid character '[' exceeded max depth") := by
  have hu : Unmarshal (marshalled (populatedEvent (.int 9007199254740993))) =
      .ok (populatedDecoded (.float64 ⟨false, 4503599627370496, 1⟩)) := by rfl
  have hf : Unmarshal (marshalled (populatedEvent (.float32 ⟨false, 13421773, -27⟩))) =
      .ok (populatedDecoded (.float64 ⟨false, 7205759403792794, -56⟩)) := by rfl
  have hne : ¬ Float64.SameValue ⟨false, 13421773, -27⟩ ⟨false, 7205759403792794, -56⟩ := by
    unfold Float64.SameValue SameMagnitude
    decide
  refine ⟨?_, hu, ⟨hf, hne⟩, deepEvent_unmarshal⟩
  intro h
  obtain ⟨e', he', hsame⟩ := h (populatedEvent (.int 9007199254740993))
    (populatedEvent_populated _ (by intro hc; cases hc)) _ rfl
  have heq : e' = populatedDecoded (.float64 ⟨false, 4503599627370496, 1⟩) := by
    have := he'.symm.trans hu
    cases this
    rfl
  subst heq
  have hj := hsame.2.2.2.2.2.2.2
  simp [populatedEvent, populatedDecoded, payloadSameAs, V2Payload.SameAs, JsonEq,
    Float64.EqualsInt] at hj

/-- C2, amended. For every event with all optional fields populated whose custom details
are built from nil, booleans, strings, byte slices, numbers, slices, string-keyed maps
(entries in key order) and structs, nested within the scanner's limit, unmarshalling the
text `json.Marshal` produced succeeds and yields an event whose every field equals that of
the original, the custom details as a JSON value. The numbers are the integers that are
binary64 values (`m * 2^k` with `m` below `2^53`), the finite `float64` values, and the
`float32` values that are the binary64 value nearest to the decimal written for them. -/
theorem unmarshal_marshal (e : V2Event GoValue) (hpop : e.Populated)
    (hd : e.DetailsRoundTrip) (data : List Char) (hm : Marshal e = .ok data) :
    ∃ e', Unmarshal data = .ok e' ∧ e.SameAs e' := by
  have _ := hpop
  obtain ⟨data', e', hm', hu, hs⟩ := unmarshal_marshal_aux e hd
  rw [hm] at hm'
  cases hm'
  exact ⟨e', hu, hs⟩

/-- A populated event with nested custom details, among them the integer `2^54`, floats,
a byte slice and a struct, round-trips. -/
theorem unmarshal_marshal_witness :
    Marshal (populatedEvent sampleDetails) = .ok (marshalled (populatedEvent sampleDetails)) ∧
      ∃ e', Unmarshal (marshalled (populatedEvent sampleDetails)) = .ok e' ∧
        (populatedEvent sampleDetails).SameAs e' :=
  ⟨rfl, unmarshal_marshal (populatedEvent sampleDetails)
    (populatedEvent_populated _ (by intro hc; cases hc))
    (by
      intro p hp
      cases hp
      exact sampleDetails_roundTrips)
    _ rfl⟩

end Pagerduty
